import Mathlib

/-!
# json-scanner: a shallow embedding of `json-scanner.c`

The scanner reads a caller-owned byte buffer and returns one token per call.
Bytes are natural numbers (a `uint8_t` is a value below 256; the scanner only
ever compares bytes with ASCII constants).  A pointer into the buffer is the
offset from `scanner->start`.  A read at an index that is not inside the
buffer has no defined value in C: the embedding returns `none` for a call
that performs such a read, and `some token` for a call that returns `token`
after reading inside the buffer only.
-/

namespace Scan

/-- Token kinds of `json-scanner.h` (the enumeration named in `json-scanner.c`). -/
inductive JsonTokenType where
  | JST_BEGIN
  | JST_EOF
  | JST_ARRAY_OPEN
  | JST_ARRAY_CLOSE
  | JST_OBJECT_OPEN
  | JST_OBJECT_CLOSE
  | JST_COMMA
  | JST_COLON
  | JST_STRING
  | JST_NUMBER
  | JST_TRUE
  | JST_FALSE
  | JST_NULL
  | JST_ERR_UNEXPECTED
  | JST_ERR_INCOMPLETE
  | JST_ERR_BAD_ESCAPE
  deriving DecidableEq, Repr

open JsonTokenType

/-- The C struct `JsonToken { type, start, len }`, with `start` an offset into the buffer. -/
structure JsonToken where
  type : JsonTokenType
  start : Nat
  len : Nat
  deriving DecidableEq, Repr

/-- The C struct `JsonScanner { start, len }`: the buffer and its byte count. -/
structure JsonScanner where
  start : List Nat
  len : Nat
  deriving DecidableEq, Repr

/-- The modulus of `size_t` arithmetic (64-bit `size_t`). -/
def SIZE_MOD : Nat := 18446744073709551616

/-- The C expression `scanner->len - (s - scanner->start)` in `size_t` arithmetic:
the subtraction wraps around when the pointer `s` lies past the end of the buffer. -/
def size_sub (a b : Nat) : Nat := (a + SIZE_MOD - b % SIZE_MOD) % SIZE_MOD

/-- The C function `json_scanner_init(scanner, s, len)`: the caller passes the buffer and
its length, here one list; the result is the scanner and the `JST_BEGIN` token. -/
def json_scanner_init (s : List Nat) : JsonScanner × JsonToken :=
  ({ start := s, len := s.length }, { type := JST_BEGIN, start := 0, len := 0 })

/-- The libc `isdigit` on a byte. -/
def isdigit (c : Nat) : Bool := decide (48 ≤ c) && decide (c ≤ 57)

/-- The libc `isxdigit` on a byte. -/
def isxdigit (c : Nat) : Bool :=
  isdigit c || (decide (65 ≤ c) && decide (c ≤ 70)) || (decide (97 ≤ c) && decide (c ≤ 102))

/-- The C function `is_whitespace`: space, tab, LF, CR. -/
def is_whitespace (c : Nat) : Bool := c == 0x20 || c == 0x09 || c == 0x0A || c == 0x0D

/-- The C function `is_number_delim`: whitespace, comma, closing brace, closing bracket. -/
def is_number_delim (c : Nat) : Bool := is_whitespace c || c == 44 || c == 125 || c == 93

/-- The `for` loop of `scan_string`.  `start` is the offset of `s`, `i` the loop counter,
`rest` the bytes of the buffer from `s + i` on: an empty `rest` with `i < remaining` is a
read of `s[i]` past the end of the buffer.  The `u` case reads `s[i + 1]` to `s[i + 4]`
one after the other, stopping at the first failing test of the `||` chain. -/
def scan_string_loop (start remaining : Nat) : Nat → Bool → List Nat → Option JsonToken
  | i, escaped, rest =>
    if i < remaining then
      match rest with
      | [] => none
      | c :: cs =>
        if escaped then
          if c = 34 ∨ c = 92 ∨ c = 47 ∨ c = 98 ∨ c = 102 ∨ c = 110 ∨ c = 114 ∨ c = 116 then
            scan_string_loop start remaining (i + 1) false cs
          else if c = 117 then
            if i + 4 > remaining then
              some { type := JST_ERR_BAD_ESCAPE, start := start, len := i }
            else
              match cs with
              | [] => none
              | h1 :: t1 =>
                if !isxdigit h1 then
                  some { type := JST_ERR_BAD_ESCAPE, start := start, len := i }
                else
                  match t1 with
                  | [] => none
                  | h2 :: t2 =>
                    if !isxdigit h2 then
                      some { type := JST_ERR_BAD_ESCAPE, start := start, len := i }
                    else
                      match t2 with
                      | [] => none
                      | h3 :: t3 =>
                        if !isxdigit h3 then
                          some { type := JST_ERR_BAD_ESCAPE, start := start, len := i }
                        else
                          match t3 with
                          | [] => none
                          | h4 :: t4 =>
                            if !isxdigit h4 then
                              some { type := JST_ERR_BAD_ESCAPE, start := start, len := i }
                            else
                              scan_string_loop start remaining (i + 4 + 1) false t4
          else
            some { type := JST_ERR_BAD_ESCAPE, start := start, len := i }
        else
          if c = 34 then
            some { type := JST_STRING, start := start, len := i }
          else if c = 92 then
            scan_string_loop start remaining (i + 1) true cs
          else
            scan_string_loop start remaining (i + 1) false cs
    else
      some { type := JST_ERR_INCOMPLETE, start := start, len := remaining }

/-- The C function `scan_string(scanner, s)`, `s` just after the opening quote. -/
def scan_string (scanner : JsonScanner) (s : Nat) : Option JsonToken :=
  scan_string_loop s (size_sub scanner.len s) 0 false (scanner.start.drop s)

/-- The states of the number machine in `scan_number`. -/
inductive State where
  | STATE_START
  | STATE_SIGN_1
  | STATE_SIGN_2
  | STATE_ZERO
  | STATE_DIGIT_1
  | STATE_DIGIT_2
  | STATE_DIGIT_3
  | STATE_DOT
  | STATE_EXP
  deriving DecidableEq, Repr

open State

/-- The `for` loop of `scan_number` followed by the final `switch` on the state. -/
def scan_number_loop (start remaining : Nat) : State → Nat → List Nat → Option JsonToken
  | state, i, rest =>
    if i < remaining then
      match rest with
      | [] => none
      | c :: cs =>
        match state with
        | STATE_START =>
          if c = 45 then scan_number_loop start remaining STATE_SIGN_1 (i + 1) cs
          else if c = 48 then scan_number_loop start remaining STATE_ZERO (i + 1) cs
          else if isdigit c then scan_number_loop start remaining STATE_DIGIT_1 (i + 1) cs
          else some { type := JST_ERR_UNEXPECTED, start := start + i, len := 1 }
        | STATE_SIGN_1 =>
          if c = 48 then scan_number_loop start remaining STATE_ZERO (i + 1) cs
          else if isdigit c then scan_number_loop start remaining STATE_DIGIT_1 (i + 1) cs
          else some { type := JST_ERR_UNEXPECTED, start := start + i, len := 1 }
        | STATE_SIGN_2 =>
          if isdigit c then scan_number_loop start remaining STATE_DIGIT_3 (i + 1) cs
          else some { type := JST_ERR_UNEXPECTED, start := start + i, len := 1 }
        | STATE_ZERO =>
          if c = 46 then scan_number_loop start remaining STATE_DOT (i + 1) cs
          else if c = 101 ∨ c = 69 then scan_number_loop start remaining STATE_EXP (i + 1) cs
          else if is_number_delim c then some { type := JST_NUMBER, start := start, len := i }
          else some { type := JST_ERR_UNEXPECTED, start := start + i, len := 1 }
        | STATE_DIGIT_1 =>
          if c = 46 then scan_number_loop start remaining STATE_DOT (i + 1) cs
          else if c = 101 ∨ c = 69 then scan_number_loop start remaining STATE_EXP (i + 1) cs
          else if isdigit c then scan_number_loop start remaining STATE_DIGIT_1 (i + 1) cs
          else if is_number_delim c then some { type := JST_NUMBER, start := start, len := i }
          else some { type := JST_ERR_UNEXPECTED, start := start + i, len := 1 }
        | STATE_DIGIT_2 =>
          if c = 101 ∨ c = 69 then scan_number_loop start remaining STATE_EXP (i + 1) cs
          else if isdigit c then scan_number_loop start remaining STATE_DIGIT_2 (i + 1) cs
          else if is_number_delim c then some { type := JST_NUMBER, start := start, len := i }
          else some { type := JST_ERR_UNEXPECTED, start := start + i, len := 1 }
        | STATE_DIGIT_3 =>
          if isdigit c then scan_number_loop start remaining STATE_DIGIT_3 (i + 1) cs
          else if is_number_delim c then some { type := JST_NUMBER, start := start, len := i }
          else some { type := JST_ERR_UNEXPECTED, start := start + i, len := 1 }
        | STATE_DOT =>
          if isdigit c then scan_number_loop start remaining STATE_DIGIT_2 (i + 1) cs
          else some { type := JST_ERR_UNEXPECTED, start := start + i, len := 1 }
        | STATE_EXP =>
          if c = 43 ∨ c = 45 then scan_number_loop start remaining STATE_SIGN_2 (i + 1) cs
          else if isdigit c then scan_number_loop start remaining STATE_DIGIT_3 (i + 1) cs
          else some { type := JST_ERR_UNEXPECTED, start := start + i, len := 1 }
    else
      match state with
      | STATE_ZERO | STATE_DIGIT_1 | STATE_DIGIT_2 | STATE_DIGIT_3 =>
        some { type := JST_NUMBER, start := start, len := remaining }
      | _ => some { type := JST_ERR_INCOMPLETE, start := start, len := remaining }

/-- The C function `scan_number(scanner, s)`, `s` at the first byte of the number. -/
def scan_number (scanner : JsonScanner) (s : Nat) : Option JsonToken :=
  scan_number_loop s (size_sub scanner.len s) STATE_START 0 (scanner.start.drop s)

/-- The libc call `strncmp(lit, p, n) == 0`, `lit` a string literal (its terminating NUL
is the empty list) and `p` the bytes of the buffer from the compared position on.  Bytes are
compared in order until `n` are done, a pair differs, or both strings end; comparing a byte
of `p` past the end of the buffer is an out-of-bounds read. -/
def strncmp_eq : List Nat → List Nat → Nat → Option Bool
  | _, _, 0 => some true
  | _, [], _ + 1 => none
  | [], c :: _, _ + 1 => some (c == 0)
  | l :: ls, c :: cs, n + 1 => if l = c then strncmp_eq ls cs n else some false

/-- The text `true`. -/
def lit_true : List Nat := [116, 114, 117, 101]

/-- The text `false`. -/
def lit_false : List Nat := [102, 97, 108, 115, 101]

/-- The text `null`. -/
def lit_null : List Nat := [110, 117, 108, 108]

/-- The `for` loop of `json_scanner_next`.  `s` is the resume offset, `rest` the bytes of
the buffer from `s + i` on. -/
def next_loop (scanner : JsonScanner) (s remaining : Nat) : Nat → List Nat → Option JsonToken
  | i, rest =>
    if i < remaining then
      match rest with
      | [] => none
      | c :: cs =>
        if is_whitespace c then next_loop scanner s remaining (i + 1) cs
        else if c = 44 then some { type := JST_COMMA, start := s + i, len := 1 }
        else if c = 58 then some { type := JST_COLON, start := s + i, len := 1 }
        else if c = 123 then some { type := JST_OBJECT_OPEN, start := s + i, len := 1 }
        else if c = 125 then some { type := JST_OBJECT_CLOSE, start := s + i, len := 1 }
        else if c = 91 then some { type := JST_ARRAY_OPEN, start := s + i, len := 1 }
        else if c = 93 then some { type := JST_ARRAY_CLOSE, start := s + i, len := 1 }
        else if c = 34 then scan_string scanner (s + i + 1)
        else if c = 45 then scan_number scanner (s + i)
        else if c = 116 then
          match strncmp_eq lit_true (c :: cs) (min 4 remaining) with
          | none => none
          | some true => some { type := JST_TRUE, start := s + i, len := 4 }
          | some false => some { type := JST_ERR_UNEXPECTED, start := s + i, len := remaining }
        else if c = 102 then
          match strncmp_eq lit_false (c :: cs) (min 5 remaining) with
          | none => none
          | some true => some { type := JST_FALSE, start := s + i, len := 5 }
          | some false => some { type := JST_ERR_UNEXPECTED, start := s + i, len := remaining }
        else if c = 110 then
          match strncmp_eq lit_null (c :: cs) (min 4 remaining) with
          | none => none
          | some true => some { type := JST_NULL, start := s + i, len := 4 }
          | some false => some { type := JST_ERR_UNEXPECTED, start := s + i, len := remaining }
        else if isdigit c then scan_number scanner (s + i)
        else some { type := JST_ERR_UNEXPECTED, start := s + i, len := 1 }
    else
      some { type := JST_EOF, start := s, len := remaining }

/-- The resume offset computed at the head of `json_scanner_next`: the buffer start after
`JST_BEGIN`, otherwise the end of the last token, one byte further after a string. -/
def resume (last_token : JsonToken) : Nat :=
  if last_token.type ≠ JST_BEGIN then
    if last_token.type = JST_STRING then last_token.start + last_token.len + 1
    else last_token.start + last_token.len
  else 0

/-- The C function `json_scanner_next(scanner, last_token)`. -/
def json_scanner_next (scanner : JsonScanner) (last_token : JsonToken) : Option JsonToken :=
  if last_token.type = JST_EOF then some last_token
  else
    next_loop scanner (resume last_token) (size_sub scanner.len (resume last_token)) 0
      (scanner.start.drop (resume last_token))

/-- The scanner that `json_scanner_init` sets up over the buffer `b`. -/
def scannerOf (b : List Nat) : JsonScanner := (json_scanner_init b).1

/-- The `JST_BEGIN` token that `json_scanner_init` returns, the same for every buffer. -/
def beginToken : JsonToken := (json_scanner_init []).2

/-- A chain of `n` calls of `json_scanner_next`, each fed the token of the call before;
the result is the token of the last call. -/
def next_chain (scanner : JsonScanner) : Nat → JsonToken → Option JsonToken
  | 0, t => some t
  | n + 1, t =>
    match json_scanner_next scanner t with
    | none => none
    | some t2 => next_chain scanner n t2

/-! ## The grammar of the specification -/

/-- Every byte of the list is an ASCII digit. -/
def AllDigits (l : List Nat) : Prop := ∀ c ∈ l, isdigit c = true

/-- The optional leading minus sign of a number: `-?`. -/
def SignOpt (l : List Nat) : Prop := l = [] ∨ l = [45]

/-- The integer part of a number: `0|[1-9][0-9]*`. -/
def IntPart (l : List Nat) : Prop :=
  l = [48] ∨ ∃ d ds, l = d :: ds ∧ 49 ≤ d ∧ d ≤ 57 ∧ AllDigits ds

/-- The optional fraction of a number: `(\.[0-9]+)?`. -/
def FracOpt (l : List Nat) : Prop :=
  l = [] ∨ ∃ ds, l = 46 :: ds ∧ ds ≠ [] ∧ AllDigits ds

/-- The optional sign of an exponent: `[+-]?`. -/
def ExpSignOpt (l : List Nat) : Prop := l = [] ∨ l = [43] ∨ l = [45]

/-- The optional exponent of a number: `([eE][+-]?[0-9]+)?`. -/
def ExpOpt (l : List Nat) : Prop :=
  l = [] ∨ ∃ e sg ds, l = e :: (sg ++ ds) ∧ (e = 101 ∨ e = 69) ∧ ExpSignOpt sg ∧
    ds ≠ [] ∧ AllDigits ds

/-- The JSON number grammar `-?(0|[1-9][0-9]*)(\.[0-9]+)?([eE][+-]?[0-9]+)?`. -/
def JsonNumber (w : List Nat) : Prop :=
  ∃ sign int frac exp, w = sign ++ int ++ frac ++ exp ∧
    SignOpt sign ∧ IntPart int ∧ FracOpt frac ∧ ExpOpt exp

/-- The text `w` can be continued to a text of the number grammar. -/
def NumberStart (w : List Nat) : Prop := ∃ v, JsonNumber (w ++ v)

/-- The bytes `[p, k)` of the buffer `b`. -/
def slice (b : List Nat) (p k : Nat) : List Nat := (b.drop p).take (k - p)

/-! ## The number machine, one byte at a time -/

/-- The state the `switch` of `scan_number` moves to on byte `c`, when it stays in the loop. -/
def num_step : State → Nat → Option State
  | STATE_START, c =>
    if c = 45 then some STATE_SIGN_1 else if c = 48 then some STATE_ZERO
    else if isdigit c then some STATE_DIGIT_1 else none
  | STATE_SIGN_1, c =>
    if c = 48 then some STATE_ZERO else if isdigit c then some STATE_DIGIT_1 else none
  | STATE_SIGN_2, c => if isdigit c then some STATE_DIGIT_3 else none
  | STATE_ZERO, c =>
    if c = 46 then some STATE_DOT else if c = 101 ∨ c = 69 then some STATE_EXP else none
  | STATE_DIGIT_1, c =>
    if c = 46 then some STATE_DOT else if c = 101 ∨ c = 69 then some STATE_EXP
    else if isdigit c then some STATE_DIGIT_1 else none
  | STATE_DIGIT_2, c =>
    if c = 101 ∨ c = 69 then some STATE_EXP else if isdigit c then some STATE_DIGIT_2 else none
  | STATE_DIGIT_3, c => if isdigit c then some STATE_DIGIT_3 else none
  | STATE_DOT, c => if isdigit c then some STATE_DIGIT_2 else none
  | STATE_EXP, c =>
    if c = 43 ∨ c = 45 then some STATE_SIGN_2 else if isdigit c then some STATE_DIGIT_3
    else none

/-- The states in which `scan_number` returns `JST_NUMBER` on a delimiter or at the end. -/
def accepting : State → Bool
  | STATE_ZERO | STATE_DIGIT_1 | STATE_DIGIT_2 | STATE_DIGIT_3 => true
  | _ => false

/-- The state reached from `st` after the bytes `w`, when every byte is consumed. -/
def num_run : State → List Nat → Option State
  | st, [] => some st
  | st, c :: cs =>
    match num_step st c with
    | none => none
    | some st2 => num_run st2 cs

/-- What the text read so far looks like in each state of the number machine. -/
def Inv : State → List Nat → Prop
  | STATE_START, w => w = []
  | STATE_SIGN_1, w => w = [45]
  | STATE_ZERO, w => ∃ s, SignOpt s ∧ w = s ++ [48]
  | STATE_DIGIT_1, w => ∃ s d ds, SignOpt s ∧ 49 ≤ d ∧ d ≤ 57 ∧ AllDigits ds ∧ w = s ++ d :: ds
  | STATE_DOT, w => ∃ s int, SignOpt s ∧ IntPart int ∧ w = s ++ int ++ [46]
  | STATE_DIGIT_2, w =>
    ∃ s int ds, SignOpt s ∧ IntPart int ∧ ds ≠ [] ∧ AllDigits ds ∧ w = s ++ int ++ 46 :: ds
  | STATE_EXP, w =>
    ∃ s int frac e, SignOpt s ∧ IntPart int ∧ FracOpt frac ∧ (e = 101 ∨ e = 69) ∧
      w = s ++ int ++ frac ++ [e]
  | STATE_SIGN_2, w =>
    ∃ s int frac e sg, SignOpt s ∧ IntPart int ∧ FracOpt frac ∧ (e = 101 ∨ e = 69) ∧
      (sg = 43 ∨ sg = 45) ∧ w = s ++ int ++ frac ++ [e, sg]
  | STATE_DIGIT_3, w =>
    ∃ s int frac e sg ds, SignOpt s ∧ IntPart int ∧ FracOpt frac ∧ (e = 101 ∨ e = 69) ∧
      ExpSignOpt sg ∧ ds ≠ [] ∧ AllDigits ds ∧ w = s ++ int ++ frac ++ e :: (sg ++ ds)

/-- The number texts of the specification's acceptance list:
`0`, `-0`, `213`, `0.2`, `-3.14e1`, `0E5`, `4e+2`, `3E-4`. -/
def number_examples : List (List Nat) :=
  [[48], [45, 48], [50, 49, 51], [48, 46, 50], [45, 51, 46, 49, 52, 101, 49], [48, 69, 53],
    [52, 101, 43, 50], [51, 69, 45, 52]]

/-- The position `k` of the claim about `JST_ERR_UNEXPECTED`: inside the buffer, at or
after `p`; the bytes `[p, k)` can be continued to a number text, the bytes `[p, k]` cannot,
and it is not the case that `[p, k)` is a complete number with a delimiter at `k`. -/
def UnexpectedAt (b : List Nat) (p k : Nat) : Prop :=
  p ≤ k ∧ k < b.length ∧ NumberStart (slice b p k) ∧ ¬ NumberStart (slice b p (k + 1)) ∧
    ¬ (JsonNumber (slice b p k) ∧ ∃ c, b[k]? = some c ∧ is_number_delim c = true)

/-- The bytes that may follow a backslash as a one-byte escape: `" \ / b f n r t`. -/
def SimpleEscape (c : Nat) : Prop :=
  c = 34 ∨ c = 92 ∨ c = 47 ∨ c = 98 ∨ c = 102 ∨ c = 110 ∨ c = 114 ∨ c = 116

/-- A string body: a concatenation of items, each one byte other than `"` and `\`, or a
backslash followed by one of `" \ / b f n r t`, or a backslash followed by `u` and four
ASCII hex digits. -/
inductive StringBody : List Nat → Prop where
  | nil : StringBody []
  | plain (c : Nat) (rest : List Nat) : c ≠ 34 → c ≠ 92 → StringBody rest →
      StringBody (c :: rest)
  | simple (c : Nat) (rest : List Nat) : SimpleEscape c → StringBody rest →
      StringBody (92 :: c :: rest)
  | unicode (h1 h2 h3 h4 : Nat) (rest : List Nat) : isxdigit h1 = true → isxdigit h2 = true →
      isxdigit h3 = true → isxdigit h4 = true → StringBody rest →
      StringBody (92 :: 117 :: h1 :: h2 :: h3 :: h4 :: rest)

/-- The tokens of `n` successive calls of `json_scanner_next`, the first one given `t`
and each later one the token of the call before. -/
def scan_tokens (scanner : JsonScanner) : Nat → JsonToken → Option (List JsonToken)
  | 0, _ => some []
  | n + 1, t =>
    match json_scanner_next scanner t with
    | none => none
    | some t2 =>
      match scan_tokens scanner n t2 with
      | none => none
      | some ts => some (t2 :: ts)

/-- A well-formed lexeme, as a kind and a text: one of the structural bytes `, : { } [ ]`,
one of the literals `true`, `false`, `null`, a text of the number grammar, or a quoted
string whose body is made of plain bytes and valid escapes. -/
inductive WfLexeme : JsonTokenType → List Nat → Prop where
  | comma : WfLexeme JST_COMMA [44]
  | colon : WfLexeme JST_COLON [58]
  | object_open : WfLexeme JST_OBJECT_OPEN [123]
  | object_close : WfLexeme JST_OBJECT_CLOSE [125]
  | array_open : WfLexeme JST_ARRAY_OPEN [91]
  | array_close : WfLexeme JST_ARRAY_CLOSE [93]
  | true_lit : WfLexeme JST_TRUE lit_true
  | false_lit : WfLexeme JST_FALSE lit_false
  | null_lit : WfLexeme JST_NULL lit_null
  | number (text : List Nat) : JsonNumber text → WfLexeme JST_NUMBER text
  | string (body : List Nat) : StringBody body → WfLexeme JST_STRING (34 :: (body ++ [34]))

/-- One lexeme of an input: the whitespace written before it, its kind and its text. -/
structure Lexeme where
  ws : List Nat
  kind : JsonTokenType
  text : List Nat

/-- The input made of the lexemes `ls`, each after its whitespace, and the trailing
whitespace `trail`. -/
def render : List Lexeme → List Nat → List Nat
  | [], trail => trail
  | l :: ls, trail => l.ws ++ (l.text ++ render ls trail)

/-- Every byte of the list is whitespace. -/
def AllWhitespace (l : List Nat) : Prop := ∀ c ∈ l, is_whitespace c = true

/-- The input of the claim: whitespace is whitespace, every lexeme is well formed, and a
number is directly followed by a delimiter or by the end of the input. -/
def WellFormed : List Lexeme → List Nat → Prop
  | [], trail => AllWhitespace trail
  | l :: ls, trail =>
    AllWhitespace l.ws ∧ WfLexeme l.kind l.text ∧
    (l.kind = JST_NUMBER →
      render ls trail = [] ∨ ∃ c t, render ls trail = c :: t ∧ is_number_delim c = true) ∧
    WellFormed ls trail

/-- The token the claim expects for a lexeme whose whitespace starts at offset `off`: the
kind of the lexeme and the span of its text, for a string the text between the quotes. -/
def lexeme_token (off : Nat) (l : Lexeme) : JsonToken :=
  if l.kind = JST_STRING then ⟨JST_STRING, off + l.ws.length + 1, l.text.length - 2⟩
  else ⟨l.kind, off + l.ws.length, l.text.length⟩

/-- The tokens the claim expects for the lexemes `ls` written from offset `off` on. -/
def expected_tokens (off : Nat) : List Lexeme → List JsonToken
  | [] => []
  | l :: ls => lexeme_token off l :: expected_tokens (off + l.ws.length + l.text.length) ls

/-- The bytes a token spans in the buffer `b`. -/
def token_text (b : List Nat) (t : JsonToken) : List Nat := slice b t.start (t.start + t.len)

/-- The text the claim expects a token to span: the text of the lexeme, without the two
quotes for a string. -/
def lexeme_span (l : Lexeme) : List Nat :=
  if l.kind = JST_STRING then (l.text.drop 1).take (l.text.length - 2) else l.text

/-- The lexemes of the sample input `[1, "a\n" true]` followed by a line feed. -/
def sample_lexemes : List Lexeme :=
  [⟨[], JST_ARRAY_OPEN, [91]⟩, ⟨[], JST_NUMBER, [49]⟩, ⟨[], JST_COMMA, [44]⟩,
    ⟨[32], JST_STRING, [34, 97, 92, 110, 34]⟩, ⟨[32], JST_TRUE, [116, 114, 117, 101]⟩,
    ⟨[], JST_ARRAY_CLOSE, [93]⟩]

/-- The `switch` of `json_scanner_next` on a byte `c` that is not whitespace, met at loop
counter `i`; `cs` are the bytes of the buffer after `c`. -/
def dispatch (scanner : JsonScanner) (s remaining i c : Nat) (cs : List Nat) :
    Option JsonToken :=
  if c = 44 then some { type := JST_COMMA, start := s + i, len := 1 }
  else if c = 58 then some { type := JST_COLON, start := s + i, len := 1 }
  else if c = 123 then some { type := JST_OBJECT_OPEN, start := s + i, len := 1 }
  else if c = 125 then some { type := JST_OBJECT_CLOSE, start := s + i, len := 1 }
  else if c = 91 then some { type := JST_ARRAY_OPEN, start := s + i, len := 1 }
  else if c = 93 then some { type := JST_ARRAY_CLOSE, start := s + i, len := 1 }
  else if c = 34 then scan_string scanner (s + i + 1)
  else if c = 45 then scan_number scanner (s + i)
  else if c = 116 then
    match strncmp_eq lit_true (c :: cs) (min 4 remaining) with
    | none => none
    | some true => some { type := JST_TRUE, start := s + i, len := 4 }
    | some false => some { type := JST_ERR_UNEXPECTED, start := s + i, len := remaining }
  else if c = 102 then
    match strncmp_eq lit_false (c :: cs) (min 5 remaining) with
    | none => none
    | some true => some { type := JST_FALSE, start := s + i, len := 5 }
    | some false => some { type := JST_ERR_UNEXPECTED, start := s + i, len := remaining }
  else if c = 110 then
    match strncmp_eq lit_null (c :: cs) (min 4 remaining) with
    | none => none
    | some true => some { type := JST_NULL, start := s + i, len := 4 }
    | some false => some { type := JST_ERR_UNEXPECTED, start := s + i, len := remaining }
  else if isdigit c then scan_number scanner (s + i)
  else some { type := JST_ERR_UNEXPECTED, start := s + i, len := 1 }

/-- The number of hex digits at the head of the list, counted among its first four bytes. -/
def hex_run (l : List Nat) : Nat := ((l.take 4).takeWhile isxdigit).length

/-- Where the scan of a string body stops: at the end of the buffer, at an unescaped quote,
at a backslash that is the last byte, or at a backslash followed by a byte that does not
start a valid escape. -/
def StringStop (tail : List Nat) : Prop :=
  tail = [] ∨ (∃ t, tail = 34 :: t) ∨ tail = [92] ∨
    ∃ e t, tail = 92 :: e :: t ∧ ¬ SimpleEscape e ∧ (e = 117 → hex_run t < 4)

/-- The whitespace skipped before the token `t` by the call that was given `p`: the
whitespace that lies between the resume offset of `p` and the offset of `t`. -/
def skipped (b : List Nat) (p t : JsonToken) : List Nat :=
  (slice b (resume p) t.start).takeWhile is_whitespace

/-- The concatenation, in order, of the whitespace skipped before each token and the span
of the token, `span` giving the bytes taken for a token and `p` being the token given to
the first call. -/
def reassemble (span : List Nat → JsonToken → List Nat) (b : List Nat) :
    JsonToken → List JsonToken → List Nat
  | _, [] => []
  | p, t :: ts => skipped b p t ++ span b t ++ reassemble span b t ts

/-- The span of a token, widened by the two delimiting quotes for a `JST_STRING` token. -/
def quoted_text (b : List Nat) (t : JsonToken) : List Nat :=
  if t.type = JST_STRING then slice b (t.start - 1) (t.start + t.len + 1) else token_text b t

/-! ## The error message of `json_scanner_strerror` -/

/-- The text `Bad escape sequence in string: `. -/
def msg_bad_escape : List Nat :=
  [66, 97, 100, 32, 101, 115, 99, 97, 112, 101, 32, 115, 101, 113, 117, 101, 110, 99, 101, 32,
    105, 110, 32, 115, 116, 114, 105, 110, 103, 58, 32]

/-- The text `Syntax is ok but was unexpectedly terminated: `. -/
def msg_incomplete : List Nat :=
  [83, 121, 110, 116, 97, 120, 32, 105, 115, 32, 111, 107, 32, 98, 117, 116, 32, 119, 97, 115,
    32, 117, 110, 101, 120, 112, 101, 99, 116, 101, 100, 108, 121, 32, 116, 101, 114, 109, 105,
    110, 97, 116, 101, 100, 58, 32]

/-- The text `Unexpected character: `. -/
def msg_unexpected : List Nat :=
  [85, 110, 101, 120, 112, 101, 99, 116, 101, 100, 32, 99, 104, 97, 114, 97, 99, 116, 101, 114,
    58, 32]

/-- The text `No error`. -/
def msg_no_error : List Nat := [78, 111, 32, 101, 114, 114, 111, 114]

/-- A write of the bytes `src` into the memory `buf` at offset `off`; `none` when the write
does not fit in `buf`. -/
def write_at (buf : List Nat) (off : Nat) (src : List Nat) : Option (List Nat) :=
  if off + src.length ≤ buf.length then
    some (buf.take off ++ src ++ buf.drop (off + src.length))
  else none

/-- The libc call `snprintf(errbuf, n, text)` for a format `text` without conversions:
nothing is written when `n` is 0, otherwise the first `n - 1` bytes of `text` and a
terminating NUL. -/
def snprintf_text (errbuf : List Nat) (n : Nat) (text : List Nat) : Option (List Nat) :=
  if n = 0 then some errbuf else write_at errbuf 0 (text.take (n - 1) ++ [0])

/-- The `n` bytes the libc call `strncpy(dst, src, n)` writes, `src` being the bytes of the
scanned buffer from the source pointer on: the bytes of the source up to its first NUL, then
NULs; `none` when the source is read past the end of the buffer. -/
def strncpy_bytes : List Nat → Nat → Option (List Nat)
  | _, 0 => some []
  | [], _ + 1 => none
  | c :: cs, n + 1 =>
    if c = 0 then some (List.replicate (n + 1) 0)
    else
      match strncpy_bytes cs n with
      | none => none
      | some r => some (c :: r)

/-- The C function `json_scanner_strerror(token, errbuf, errbuf_len)`: the contents of
`errbuf` after the call.  The token points into the buffer of `scanner`.  The variable `c`
of the source is 0 throughout, since the results of `snprintf` are not stored in it. -/
def json_scanner_strerror (scanner : JsonScanner) (token : JsonToken) (errbuf : List Nat)
    (errbuf_len : Nat) : Option (List Nat) :=
  let c := 0
  let printed :=
    match token.type with
    | JST_ERR_BAD_ESCAPE => snprintf_text errbuf errbuf_len msg_bad_escape
    | JST_ERR_INCOMPLETE => snprintf_text errbuf errbuf_len msg_incomplete
    | JST_ERR_UNEXPECTED => snprintf_text errbuf errbuf_len msg_unexpected
    | _ => snprintf_text errbuf errbuf_len msg_no_error
  if token.type = JST_ERR_BAD_ESCAPE ∨ token.type = JST_ERR_INCOMPLETE ∨
      token.type = JST_ERR_UNEXPECTED then
    match printed with
    | none => none
    | some buf =>
      let rem0 := size_sub (size_sub errbuf_len c) 1
      let rem := if token.len < rem0 then token.len else rem0
      if c < size_sub rem 1 then
        match strncpy_bytes (scanner.start.drop token.start) rem with
        | none => none
        | some bytes => write_at buf c bytes
      else some buf
  else printed

/-- The C string held in a buffer: its bytes up to the first NUL. -/
def c_string (buf : List Nat) : List Nat := buf.takeWhile (fun x => x != 0)

/-- The content of a token: the bytes of its span. -/
def token_content (scanner : JsonScanner) (t : JsonToken) : List Nat :=
  (scanner.start.drop t.start).take t.len

/-! ## Memory after the buffer -/

/-- The scanner over the buffer `b` when the memory after the buffer holds the bytes `m`:
what `json_scanner_init(scanner, s, len)` sets up when the `len` bytes at `s` are `b` and
are followed in memory by `m`, as the terminating NUL follows a C string. -/
def scannerWithin (b m : List Nat) : JsonScanner := { start := b ++ m, len := b.length }

/-- The token `t` reports a literal that the end of the buffer `b` cuts short: it is longer
than one byte, and the bytes of `b` from its offset on are the beginning of `true`, `false`
or `null`. -/
def LiteralCutShort (b : List Nat) (t : JsonToken) : Prop :=
  t.len ≠ 1 ∧
    (b.drop t.start <+: lit_true ∨ b.drop t.start <+: lit_false ∨ b.drop t.start <+: lit_null)

/-- The token `t` reports a `u` escape that the end of the buffer `b` cuts short: the byte
after the backslash, at the end of the token, is `u`, and every byte of `b` among the four
after it is a hex digit. -/
def HexCutShort (b : List Nat) (t : JsonToken) : Prop :=
  b[t.start + t.len]? = some 117 ∧
    ∀ j h, j < 4 → b[t.start + t.len + 1 + j]? = some h → isxdigit h = true

/-! ## The bytes a call inspects

The same functions once more, each returning, next to its result, the offsets of the bytes
it inspects, in order.  A loop iteration that looks at `s[i]` counts as one inspection of
that byte, however many times `s[i]` is written in its body; the hex digit tests of
`scan_string` and the byte comparisons of `strncmp` count as one inspection each. -/

/-- The loop of `scan_string` with the offsets of the bytes it inspects. -/
def scan_string_traced (start remaining : Nat) :
    Nat → Bool → List Nat → Option JsonToken × List Nat
  | i, escaped, rest =>
    if i < remaining then
      match rest with
      | [] => (none, [start + i])
      | c :: cs =>
        if escaped then
          if c = 34 ∨ c = 92 ∨ c = 47 ∨ c = 98 ∨ c = 102 ∨ c = 110 ∨ c = 114 ∨ c = 116 then
            let r := scan_string_traced start remaining (i + 1) false cs
            (r.1, (start + i) :: r.2)
          else if c = 117 then
            if i + 4 > remaining then
              (some { type := JST_ERR_BAD_ESCAPE, start := start, len := i }, [start + i])
            else
              match cs with
              | [] => (none, [start + i, start + i + 1])
              | h1 :: t1 =>
                if !isxdigit h1 then
                  (some { type := JST_ERR_BAD_ESCAPE, start := start, len := i },
                    [start + i, start + i + 1])
                else
                  match t1 with
                  | [] => (none, [start + i, start + i + 1, start + i + 2])
                  | h2 :: t2 =>
                    if !isxdigit h2 then
                      (some { type := JST_ERR_BAD_ESCAPE, start := start, len := i },
                        [start + i, start + i + 1, start + i + 2])
                    else
                      match t2 with
                      | [] => (none, [start + i, start + i + 1, start + i + 2, start + i + 3])
                      | h3 :: t3 =>
                        if !isxdigit h3 then
                          (some { type := JST_ERR_BAD_ESCAPE, start := start, len := i },
                            [start + i, start + i + 1, start + i + 2, start + i + 3])
                        else
                          match t3 with
                          | [] =>
                            (none, [start + i, start + i + 1, start + i + 2, start + i + 3,
                              start + i + 4])
                          | h4 :: t4 =>
                            if !isxdigit h4 then
                              (some { type := JST_ERR_BAD_ESCAPE, start := start, len := i },
                                [start + i, start + i + 1, start + i + 2, start + i + 3,
                                  start + i + 4])
                            else
                              let r := scan_string_traced start remaining (i + 4 + 1) false t4
                              (r.1, (start + i) :: (start + i + 1) :: (start + i + 2) ::
                                (start + i + 3) :: (start + i + 4) :: r.2)
          else
            (some { type := JST_ERR_BAD_ESCAPE, start := start, len := i }, [start + i])
        else
          if c = 34 then
            (some { type := JST_STRING, start := start, len := i }, [start + i])
          else if c = 92 then
            let r := scan_string_traced start remaining (i + 1) true cs
            (r.1, (start + i) :: r.2)
          else
            let r := scan_string_traced start remaining (i + 1) false cs
            (r.1, (start + i) :: r.2)
    else
      (some { type := JST_ERR_INCOMPLETE, start := start, len := remaining }, [])

/-- The loop of `scan_number` with the offsets of the bytes it inspects: every iteration
inspects `s[i]` and then either returns or goes on in the state `num_step` gives. -/
def scan_number_traced (start remaining : Nat) :
    State → Nat → List Nat → Option JsonToken × List Nat
  | state, i, rest =>
    if i < remaining then
      match rest with
      | [] => (none, [start + i])
      | c :: cs =>
        match num_step state c with
        | some state2 =>
          let r := scan_number_traced start remaining state2 (i + 1) cs
          (r.1, (start + i) :: r.2)
        | none =>
          if accepting state && is_number_delim c then
            (some { type := JST_NUMBER, start := start, len := i }, [start + i])
          else
            (some { type := JST_ERR_UNEXPECTED, start := start + i, len := 1 }, [start + i])
    else
      if accepting state then
        (some { type := JST_NUMBER, start := start, len := remaining }, [])
      else (some { type := JST_ERR_INCOMPLETE, start := start, len := remaining }, [])

/-- The comparison `strncmp(lit, p, n) == 0` with the offsets of the bytes of the buffer it
compares, `pos` being the offset of the first one. -/
def strncmp_traced : Nat → List Nat → List Nat → Nat → Option Bool × List Nat
  | _, _, _, 0 => (some true, [])
  | pos, _, [], _ + 1 => (none, [pos])
  | pos, [], c :: _, _ + 1 => (some (c == 0), [pos])
  | pos, l :: ls, c :: cs, n + 1 =>
    if l = c then
      let r := strncmp_traced (pos + 1) ls cs n
      (r.1, pos :: r.2)
    else (some false, [pos])

/-- The loop of `json_scanner_next` with the offsets of the bytes it inspects, those of
the sub-scanner or of the literal comparison it hands over to included. -/
def next_traced (scanner : JsonScanner) (s remaining : Nat) :
    Nat → List Nat → Option JsonToken × List Nat
  | i, rest =>
    if i < remaining then
      match rest with
      | [] => (none, [s + i])
      | c :: cs =>
        if is_whitespace c then
          let r := next_traced scanner s remaining (i + 1) cs
          (r.1, (s + i) :: r.2)
        else if c = 44 then (some { type := JST_COMMA, start := s + i, len := 1 }, [s + i])
        else if c = 58 then (some { type := JST_COLON, start := s + i, len := 1 }, [s + i])
        else if c = 123 then
          (some { type := JST_OBJECT_OPEN, start := s + i, len := 1 }, [s + i])
        else if c = 125 then
          (some { type := JST_OBJECT_CLOSE, start := s + i, len := 1 }, [s + i])
        else if c = 91 then
          (some { type := JST_ARRAY_OPEN, start := s + i, len := 1 }, [s + i])
        else if c = 93 then
          (some { type := JST_ARRAY_CLOSE, start := s + i, len := 1 }, [s + i])
        else if c = 34 then
          let r := scan_string_traced (s + i + 1) (size_sub scanner.len (s + i + 1)) 0 false
            (scanner.start.drop (s + i + 1))
          (r.1, (s + i) :: r.2)
        else if c = 45 then
          let r := scan_number_traced (s + i) (size_sub scanner.len (s + i)) STATE_START 0
            (scanner.start.drop (s + i))
          (r.1, (s + i) :: r.2)
        else if c = 116 then
          let r := strncmp_traced (s + i) lit_true (c :: cs) (min 4 remaining)
          (match r.1 with
            | none => none
            | some true => some { type := JST_TRUE, start := s + i, len := 4 }
            | some false => some { type := JST_ERR_UNEXPECTED, start := s + i, len := remaining },
            (s + i) :: r.2)
        else if c = 102 then
          let r := strncmp_traced (s + i) lit_false (c :: cs) (min 5 remaining)
          (match r.1 with
            | none => none
            | some true => some { type := JST_FALSE, start := s + i, len := 5 }
            | some false => some { type := JST_ERR_UNEXPECTED, start := s + i, len := remaining },
            (s + i) :: r.2)
        else if c = 110 then
          let r := strncmp_traced (s + i) lit_null (c :: cs) (min 4 remaining)
          (match r.1 with
            | none => none
            | some true => some { type := JST_NULL, start := s + i, len := 4 }
            | some false => some { type := JST_ERR_UNEXPECTED, start := s + i, len := remaining },
            (s + i) :: r.2)
        else if isdigit c then
          let r := scan_number_traced (s + i) (size_sub scanner.len (s + i)) STATE_START 0
            (scanner.start.drop (s + i))
          (r.1, (s + i) :: r.2)
        else (some { type := JST_ERR_UNEXPECTED, start := s + i, len := 1 }, [s + i])
    else
      (some { type := JST_EOF, start := s, len := remaining }, [])

/-- The call `json_scanner_next(scanner, last_token)` with the offsets of the bytes it
inspects. -/
def json_scanner_next_traced (scanner : JsonScanner) (last_token : JsonToken) :
    Option JsonToken × List Nat :=
  if last_token.type = JST_EOF then (some last_token, [])
  else
    next_traced scanner (resume last_token) (size_sub scanner.len (resume last_token)) 0
      (scanner.start.drop (resume last_token))

/-- A list of offsets that increases strictly and starts at `lo` or later. -/
def Ascending (lo : Nat) (l : List Nat) : Prop :=
  l.Pairwise (· < ·) ∧ ∀ x ∈ l, lo ≤ x

/-- Two ascending runs one after the other, the second starting no earlier than the first
ends: the shape of the offsets one call inspects. -/
def TwoRuns (lo : Nat) (l : List Nat) : Prop :=
  ∃ A B, l = A ++ B ∧ Ascending lo A ∧ Ascending lo B ∧ ∀ a ∈ A, ∀ x ∈ B, a ≤ x

/-- The offset `idx` is that of the first byte of a number or of a literal met by a call that
resumes at offset `r` of the buffer `b`: the bytes from `r` up to `idx` are whitespace, and
the byte at `idx` is `-`, a digit, `t`, `f` or `n`, the bytes for which `json_scanner_next`
calls `scan_number` or `strncmp`. -/
def FirstOfNumberOrLiteral (b : List Nat) (r idx : Nat) : Prop :=
  r ≤ idx ∧ (∀ j, r ≤ j → j < idx → ∃ d, b[j]? = some d ∧ is_whitespace d = true) ∧
    ∃ c, b[idx]? = some c ∧ (c = 45 ∨ isdigit c = true ∨ c = 116 ∨ c = 102 ∨ c = 110)

/-! ## Theorems -/

theorem json_scanner_init_token (b : List Nat) : (json_scanner_init b).2 = beginToken := rfl

theorem json_scanner_init_scanner (b : List Nat) :
    (json_scanner_init b).1 = scannerOf b ∧ (scannerOf b).len = b.length := ⟨rfl, rfl⟩

theorem scan_number_loop_done (start remaining i : Nat) (st : State) (rest : List Nat)
    (h : ¬ i < remaining) :
    scan_number_loop start remaining st i rest =
      if accepting st then some ⟨JST_NUMBER, start, remaining⟩
      else some ⟨JST_ERR_INCOMPLETE, start, remaining⟩ := by
  unfold scan_number_loop
  cases st <;> simp [h, accepting]

theorem scan_number_loop_cons (start remaining i : Nat) (st : State) (c : Nat) (cs : List Nat)
    (h : i < remaining) :
    scan_number_loop start remaining st i (c :: cs) =
      match num_step st c with
      | some st2 => scan_number_loop start remaining st2 (i + 1) cs
      | none =>
        if accepting st && is_number_delim c then some ⟨JST_NUMBER, start, i⟩
        else some ⟨JST_ERR_UNEXPECTED, start + i, 1⟩ := by
  rw [scan_number_loop.eq_def]
  cases st <;> simp only [h, if_true, num_step, accepting] <;> split_ifs <;> simp_all

theorem isdigit_iff (c : Nat) : isdigit c = true ↔ 48 ≤ c ∧ c ≤ 57 := by
  simp [isdigit]

theorem is_number_delim_iff (c : Nat) :
    is_number_delim c = true ↔
      c = 32 ∨ c = 9 ∨ c = 10 ∨ c = 13 ∨ c = 44 ∨ c = 125 ∨ c = 93 := by
  simp [is_number_delim, is_whitespace, or_assoc]

theorem num_step_not_delim {st st2 : State} {c : Nat} (h : num_step st c = some st2) :
    is_number_delim c = false := by
  have hd : ¬ is_number_delim c = true := by
    rw [is_number_delim_iff]
    cases st <;> simp only [num_step] at h <;> split_ifs at h <;>
      simp_all [isdigit_iff] <;> omega
  simpa using hd

theorem num_run_cons_some {st st2 : State} {c : Nat} (cs : List Nat)
    (h : num_step st c = some st2) : num_run st (c :: cs) = num_run st2 cs := by
  simp [num_run, h]

theorem num_run_cons_none {st : State} {c : Nat} (cs : List Nat)
    (h : num_step st c = none) : num_run st (c :: cs) = none := by
  simp [num_run, h]

theorem loop_number_iff (start : Nat) : ∀ (rest : List Nat) (st : State) (i n : Nat),
    scan_number_loop start (i + rest.length) st i rest = some ⟨JST_NUMBER, start, n⟩ ↔
      ∃ w tail, rest = w ++ tail ∧ n = i + w.length ∧
        (∃ st2, num_run st w = some st2 ∧ accepting st2 = true) ∧
        (tail = [] ∨ ∃ c t, tail = c :: t ∧ is_number_delim c = true) := by
  intro rest
  induction rest with
  | nil =>
    intro st i n
    rw [scan_number_loop_done _ _ _ _ _ (by simp)]
    constructor
    · intro h
      split_ifs at h with hacc
      · refine ⟨[], [], rfl, ?_, ⟨st, rfl, hacc⟩, Or.inl rfl⟩
        simp at h
        simp
        omega
      · simp at h
    · rintro ⟨w, tail, hw, hn, ⟨st2, hrun, hacc⟩, _⟩
      have hw2 : w = [] := by
        cases w with
        | nil => rfl
        | cons a l => simp at hw
      subst hw2
      simp [num_run] at hrun
      subst hrun
      simp [hacc, hn]
  | cons c cs ih =>
    intro st i n
    have hlen : i + (c :: cs).length = (i + 1) + cs.length := by simp; omega
    rw [scan_number_loop_cons _ _ _ _ _ _ (by simp)]
    cases hstep : num_step st c with
    | none =>
      simp only
      constructor
      · intro h
        split_ifs at h with hc
        · simp at hc
          refine ⟨[], c :: cs, rfl, ?_, ⟨st, rfl, hc.1⟩, Or.inr ⟨c, cs, rfl, hc.2⟩⟩
          simp at h
          simp
          omega
        · simp at h
      · rintro ⟨w, tail, hw, hn, ⟨st2, hrun, hacc⟩, htail⟩
        cases w with
        | nil =>
          simp [num_run] at hrun
          subst hrun
          simp at hw
          subst hw
          rcases htail with h0 | ⟨c2, t, hct, hd⟩
          · simp at h0
          · simp at hct
            obtain ⟨rfl, rfl⟩ := hct
            simp [hacc, hd, hn]
        | cons a l =>
          simp at hw
          obtain ⟨rfl, rfl⟩ := hw
          rw [num_run_cons_none _ hstep] at hrun
          simp at hrun
    | some st2 =>
      simp only
      rw [hlen, ih st2 (i + 1) n]
      constructor
      · rintro ⟨w, tail, hw, hn, ⟨st3, hrun, hacc⟩, htail⟩
        refine ⟨c :: w, tail, by simp [hw], by simp; omega, ⟨st3, ?_, hacc⟩, htail⟩
        rw [num_run_cons_some _ hstep]
        exact hrun
      · rintro ⟨w, tail, hw, hn, ⟨st3, hrun, hacc⟩, htail⟩
        cases w with
        | nil =>
          simp at hw
          subst hw
          rcases htail with h0 | ⟨c2, t, hct, hd⟩
          · simp at h0
          · simp at hct
            obtain ⟨rfl, rfl⟩ := hct
            rw [num_step_not_delim hstep] at hd
            simp at hd
        | cons a l =>
          simp at hw
          obtain ⟨rfl, rfl⟩ := hw
          rw [num_run_cons_some _ hstep] at hrun
          exact ⟨l, tail, rfl, by simp at hn; omega, ⟨st3, hrun, hacc⟩, htail⟩

theorem loop_unexpected_iff (start : Nat) : ∀ (rest : List Nat) (st : State) (i : Nat)
    (t : JsonToken),
    (scan_number_loop start (i + rest.length) st i rest = some t ∧
        t.type = JST_ERR_UNEXPECTED) ↔
      ∃ w c tail st2, rest = w ++ c :: tail ∧ t = ⟨JST_ERR_UNEXPECTED, start + (i + w.length), 1⟩ ∧
        num_run st w = some st2 ∧ num_step st2 c = none ∧
        ¬ (accepting st2 = true ∧ is_number_delim c = true) := by
  intro rest
  induction rest with
  | nil =>
    intro st i t
    rw [scan_number_loop_done _ _ _ _ _ (by simp)]
    constructor
    · rintro ⟨h, ht⟩
      split_ifs at h <;> simp at h <;> subst h <;> simp at ht
    · rintro ⟨w, c, tail, st2, hw, _⟩
      simp at hw
  | cons c cs ih =>
    intro st i t
    have hlen : i + (c :: cs).length = (i + 1) + cs.length := by simp; omega
    rw [scan_number_loop_cons _ _ _ _ _ _ (by simp)]
    cases hstep : num_step st c with
    | none =>
      simp only
      constructor
      · rintro ⟨h, ht⟩
        split_ifs at h with hc
        · simp at h
          subst h
          simp at ht
        · simp at h
          subst h
          refine ⟨[], c, cs, st, rfl, by simp, rfl, hstep, ?_⟩
          simpa using hc
      · rintro ⟨w, c2, tail, st2, hw, ht, hrun, hst, hna⟩
        cases w with
        | nil =>
          simp [num_run] at hrun
          subst hrun
          simp at hw
          obtain ⟨rfl, rfl⟩ := hw
          have hc : ¬ ((accepting st && is_number_delim c) = true) := by simpa using hna
          simp [hc, ht]
        | cons a l =>
          simp at hw
          obtain ⟨rfl, rfl⟩ := hw
          rw [num_run_cons_none _ hstep] at hrun
          simp at hrun
    | some st2 =>
      simp only
      rw [hlen, ih st2 (i + 1) t]
      constructor
      · rintro ⟨w, c2, tail, st3, hw, ht, hrun, hst, hna⟩
        refine ⟨c :: w, c2, tail, st3, by simp [hw], ?_, ?_, hst, hna⟩
        · rw [ht]
          simp
          omega
        · rw [num_run_cons_some _ hstep]
          exact hrun
      · rintro ⟨w, c2, tail, st3, hw, ht, hrun, hst, hna⟩
        cases w with
        | nil =>
          simp [num_run] at hrun
          subst hrun
          simp at hw
          obtain ⟨rfl, rfl⟩ := hw
          rw [hstep] at hst
          simp at hst
        | cons a l =>
          simp at hw
          obtain ⟨rfl, rfl⟩ := hw
          rw [num_run_cons_some _ hstep] at hrun
          refine ⟨l, c2, tail, st3, rfl, ?_, hrun, hst, hna⟩
          rw [ht]
          simp
          omega

theorem loop_exhausted (start : Nat) : ∀ (rest : List Nat) (st st2 : State) (i : Nat),
    num_run st rest = some st2 →
    scan_number_loop start (i + rest.length) st i rest =
      if accepting st2 then some ⟨JST_NUMBER, start, i + rest.length⟩
      else some ⟨JST_ERR_INCOMPLETE, start, i + rest.length⟩ := by
  intro rest
  induction rest with
  | nil =>
    intro st st2 i h
    simp [num_run] at h
    subst h
    rw [scan_number_loop_done _ _ _ _ _ (by simp)]
  | cons c cs ih =>
    intro st st2 i h
    have hlen : i + (c :: cs).length = (i + 1) + cs.length := by simp; omega
    rw [scan_number_loop_cons _ _ _ _ _ _ (by simp)]
    cases hstep : num_step st c with
    | none =>
      rw [num_run_cons_none _ hstep] at h
      simp at h
    | some st3 =>
      rw [num_run_cons_some _ hstep] at h
      simp only
      rw [hlen]
      exact ih st3 st2 (i + 1) h

theorem allDigits_nil : AllDigits [] := by
  intro c hc
  simp at hc

theorem allDigits_append_one {ds : List Nat} {c : Nat} (h : AllDigits ds)
    (hc : isdigit c = true) : AllDigits (ds ++ [c]) := by
  intro x hx
  simp at hx
  rcases hx with hx | rfl
  · exact h x hx
  · exact hc

theorem allDigits_one {c : Nat} (hc : isdigit c = true) : AllDigits [c] := by
  simpa using allDigits_append_one allDigits_nil hc

theorem inv_step {st st2 : State} {w : List Nat} {c : Nat} (hinv : Inv st w)
    (h : num_step st c = some st2) : Inv st2 (w ++ [c]) := by
  cases st <;> simp only [num_step] at h <;> simp only [Inv] at hinv
  · -- STATE_START
    subst hinv
    split_ifs at h with h1 h2 h3 <;> simp at h <;> subst h <;> simp only [Inv]
    · simp [h1]
    · exact ⟨[], Or.inl rfl, by simp [h2]⟩
    · rw [isdigit_iff] at h3
      exact ⟨[], c, [], Or.inl rfl, by omega, by omega, allDigits_nil, by simp⟩
  · -- STATE_SIGN_1
    subst hinv
    split_ifs at h with h2 h3 <;> simp at h <;> subst h <;> simp only [Inv]
    · exact ⟨[45], Or.inr rfl, by simp [h2]⟩
    · rw [isdigit_iff] at h3
      exact ⟨[45], c, [], Or.inr rfl, by omega, by omega, allDigits_nil, by simp⟩
  · -- STATE_SIGN_2
    obtain ⟨s, int, frac, e, sg, hs, hi, hf, he, hsg, rfl⟩ := hinv
    split_ifs at h with h3 <;> simp at h
    subst h
    refine ⟨s, int, frac, e, [sg], [c], hs, hi, hf, he, ?_, by simp, allDigits_one h3, by simp⟩
    rcases hsg with rfl | rfl
    · exact Or.inr (Or.inl rfl)
    · exact Or.inr (Or.inr rfl)
  · -- STATE_ZERO
    obtain ⟨s, hs, rfl⟩ := hinv
    split_ifs at h with h1 h2 <;> simp at h <;> subst h <;> simp only [Inv]
    · exact ⟨s, [48], hs, Or.inl rfl, by simp [h1]⟩
    · exact ⟨s, [48], [], c, hs, Or.inl rfl, Or.inl rfl, h2, by simp⟩
  · -- STATE_DIGIT_1
    obtain ⟨s, d, ds, hs, hd1, hd2, hds, rfl⟩ := hinv
    have hint : IntPart (d :: ds) := Or.inr ⟨d, ds, rfl, hd1, hd2, hds⟩
    split_ifs at h with h1 h2 h3 <;> simp at h <;> subst h <;> simp only [Inv]
    · exact ⟨s, d :: ds, hs, hint, by simp [h1]⟩
    · exact ⟨s, d :: ds, [], c, hs, hint, Or.inl rfl, h2, by simp⟩
    · exact ⟨s, d, ds ++ [c], hs, hd1, hd2, allDigits_append_one hds h3, by simp⟩
  · -- STATE_DIGIT_2
    obtain ⟨s, int, ds, hs, hi, hne, hds, rfl⟩ := hinv
    split_ifs at h with h2 h3 <;> simp at h <;> subst h <;> simp only [Inv]
    · exact ⟨s, int, 46 :: ds, c, hs, hi, Or.inr ⟨ds, rfl, hne, hds⟩, h2, by simp⟩
    · exact ⟨s, int, ds ++ [c], hs, hi, by simp, allDigits_append_one hds h3, by simp⟩
  · -- STATE_DIGIT_3
    obtain ⟨s, int, frac, e, sg, ds, hs, hi, hf, he, hsg, hne, hds, rfl⟩ := hinv
    split_ifs at h with h3 <;> simp at h
    subst h
    exact ⟨s, int, frac, e, sg, ds ++ [c], hs, hi, hf, he, hsg, by simp,
      allDigits_append_one hds h3, by simp⟩
  · -- STATE_DOT
    obtain ⟨s, int, hs, hi, rfl⟩ := hinv
    split_ifs at h with h3 <;> simp at h
    subst h
    exact ⟨s, int, [c], hs, hi, by simp, allDigits_one h3, by simp⟩
  · -- STATE_EXP
    obtain ⟨s, int, frac, e, hs, hi, hf, he, rfl⟩ := hinv
    split_ifs at h with h1 h3 <;> simp at h <;> subst h <;> simp only [Inv]
    · exact ⟨s, int, frac, e, c, hs, hi, hf, he, h1, by simp⟩
    · exact ⟨s, int, frac, e, [], [c], hs, hi, hf, he, Or.inl rfl, by simp,
        allDigits_one h3, by simp⟩

theorem inv_run : ∀ (w : List Nat) (st st2 : State) (w0 : List Nat),
    Inv st w0 → num_run st w = some st2 → Inv st2 (w0 ++ w) := by
  intro w
  induction w with
  | nil =>
    intro st st2 w0 hinv h
    simp [num_run] at h
    subst h
    simpa using hinv
  | cons c cs ih =>
    intro st st2 w0 hinv h
    cases hstep : num_step st c with
    | none =>
      rw [num_run_cons_none _ hstep] at h
      simp at h
    | some st3 =>
      rw [num_run_cons_some _ hstep] at h
      have := ih st3 st2 (w0 ++ [c]) (inv_step hinv hstep) h
      simpa using this

theorem inv_accepting {st : State} {w : List Nat} (hinv : Inv st w)
    (hacc : accepting st = true) : JsonNumber w := by
  cases st <;> simp [accepting] at hacc <;> simp only [Inv] at hinv
  · obtain ⟨s, hs, rfl⟩ := hinv
    exact ⟨s, [48], [], [], by simp, hs, Or.inl rfl, Or.inl rfl, Or.inl rfl⟩
  · obtain ⟨s, d, ds, hs, hd1, hd2, hds, rfl⟩ := hinv
    exact ⟨s, d :: ds, [], [], by simp, hs, Or.inr ⟨d, ds, rfl, hd1, hd2, hds⟩, Or.inl rfl,
      Or.inl rfl⟩
  · obtain ⟨s, int, ds, hs, hi, hne, hds, rfl⟩ := hinv
    exact ⟨s, int, 46 :: ds, [], by simp, hs, hi, Or.inr ⟨ds, rfl, hne, hds⟩, Or.inl rfl⟩
  · obtain ⟨s, int, frac, e, sg, ds, hs, hi, hf, he, hsg, hne, hds, rfl⟩ := hinv
    exact ⟨s, int, frac, e :: (sg ++ ds), rfl, hs, hi, hf, Or.inr ⟨e, sg, ds, rfl, he, hsg, hne, hds⟩⟩

theorem run_accepting_number {w : List Nat} {st : State}
    (h : num_run STATE_START w = some st) (hacc : accepting st = true) : JsonNumber w := by
  have := inv_run w STATE_START st [] rfl h
  exact inv_accepting (by simpa using this) hacc

theorem num_run_append : ∀ (a b : List Nat) (st : State),
    num_run st (a ++ b) = (num_run st a).bind (fun s => num_run s b) := by
  intro a
  induction a with
  | nil => intro b st; simp [num_run]
  | cons c cs ih =>
    intro b st
    cases hstep : num_step st c with
    | none => simp [num_run, hstep]
    | some st2 => simp [num_run, hstep, ih]

theorem num_run_append_some {a b : List Nat} {st st2 : State} (h : num_run st a = some st2) :
    num_run st (a ++ b) = num_run st2 b := by
  rw [num_run_append, h]
  rfl

theorem allDigits_cons {c : Nat} {ds : List Nat} (h : AllDigits (c :: ds)) :
    isdigit c = true ∧ AllDigits ds :=
  ⟨h c (by simp), fun x hx => h x (by simp [hx])⟩

theorem run_digits_1 : ∀ ds : List Nat, AllDigits ds →
    num_run STATE_DIGIT_1 ds = some STATE_DIGIT_1 := by
  intro ds
  induction ds with
  | nil => intro _; rfl
  | cons c cs ih =>
    intro h
    obtain ⟨hc, hcs⟩ := allDigits_cons h
    have hc2 := (isdigit_iff c).1 hc
    have hstep : num_step STATE_DIGIT_1 c = some STATE_DIGIT_1 := by
      have h1 : c ≠ 46 := by omega
      have h2 : ¬ (c = 101 ∨ c = 69) := by omega
      simp [num_step, h1, h2, hc]
    rw [num_run_cons_some _ hstep]
    exact ih hcs

theorem run_digits_2 : ∀ ds : List Nat, AllDigits ds →
    num_run STATE_DIGIT_2 ds = some STATE_DIGIT_2 := by
  intro ds
  induction ds with
  | nil => intro _; rfl
  | cons c cs ih =>
    intro h
    obtain ⟨hc, hcs⟩ := allDigits_cons h
    have hc2 := (isdigit_iff c).1 hc
    have hstep : num_step STATE_DIGIT_2 c = some STATE_DIGIT_2 := by
      have h2 : ¬ (c = 101 ∨ c = 69) := by omega
      simp [num_step, h2, hc]
    rw [num_run_cons_some _ hstep]
    exact ih hcs

theorem run_digits_3 : ∀ ds : List Nat, AllDigits ds →
    num_run STATE_DIGIT_3 ds = some STATE_DIGIT_3 := by
  intro ds
  induction ds with
  | nil => intro _; rfl
  | cons c cs ih =>
    intro h
    obtain ⟨hc, hcs⟩ := allDigits_cons h
    have hstep : num_step STATE_DIGIT_3 c = some STATE_DIGIT_3 := by
      simp [num_step, hc]
    rw [num_run_cons_some _ hstep]
    exact ih hcs

theorem run_int {int : List Nat} (h : IntPart int) (st : State)
    (hst : st = STATE_START ∨ st = STATE_SIGN_1) :
    num_run st int = some STATE_ZERO ∨ num_run st int = some STATE_DIGIT_1 := by
  rcases h with rfl | ⟨d, ds, rfl, hd1, hd2, hds⟩
  · left
    rcases hst with rfl | rfl <;> rfl
  · right
    have hd : isdigit d = true := (isdigit_iff d).2 ⟨by omega, hd2⟩
    have h45 : d ≠ 45 := by omega
    have h48 : d ≠ 48 := by omega
    have hstep : num_step st d = some STATE_DIGIT_1 := by
      rcases hst with rfl | rfl <;> simp [num_step, h45, h48, hd]
    rw [num_run_cons_some _ hstep]
    exact run_digits_1 ds hds

theorem run_frac {frac : List Nat} (h : FracOpt frac) (st : State)
    (hst : st = STATE_ZERO ∨ st = STATE_DIGIT_1) :
    num_run st frac = some st ∨ num_run st frac = some STATE_DIGIT_2 := by
  rcases h with rfl | ⟨ds, rfl, hne, hds⟩
  · left; rfl
  · right
    have hstep : num_step st 46 = some STATE_DOT := by
      rcases hst with rfl | rfl <;> simp [num_step]
    rw [num_run_cons_some _ hstep]
    cases ds with
    | nil => exact absurd rfl hne
    | cons c cs =>
      obtain ⟨hc, hcs⟩ := allDigits_cons hds
      have hstep2 : num_step STATE_DOT c = some STATE_DIGIT_2 := by simp [num_step, hc]
      rw [num_run_cons_some _ hstep2]
      exact run_digits_2 cs hcs

theorem run_exp {exp : List Nat} (h : ExpOpt exp) (st : State)
    (hst : st = STATE_ZERO ∨ st = STATE_DIGIT_1 ∨ st = STATE_DIGIT_2) :
    num_run st exp = some st ∨ num_run st exp = some STATE_DIGIT_3 := by
  rcases h with rfl | ⟨e, sg, ds, rfl, he, hsg, hne, hds⟩
  · left; rfl
  · right
    have he46 : e ≠ 46 := by omega
    have hstep : num_step st e = some STATE_EXP := by
      rcases hst with rfl | rfl | rfl <;> simp [num_step, he46, he]
    rw [num_run_cons_some _ hstep]
    cases ds with
    | nil => exact absurd rfl hne
    | cons c cs =>
      obtain ⟨hc, hcs⟩ := allDigits_cons hds
      have hc2 := (isdigit_iff c).1 hc
      have hcs3 : num_run STATE_SIGN_2 (c :: cs) = some STATE_DIGIT_3 := by
        have hstep2 : num_step STATE_SIGN_2 c = some STATE_DIGIT_3 := by simp [num_step, hc]
        rw [num_run_cons_some _ hstep2]
        exact run_digits_3 cs hcs
      rcases hsg with rfl | rfl | rfl
      · have hpm : ¬ (c = 43 ∨ c = 45) := by omega
        have hstep2 : num_step STATE_EXP c = some STATE_DIGIT_3 := by
          simp [num_step, hpm, hc]
        simp only [List.nil_append]
        rw [num_run_cons_some _ hstep2]
        exact run_digits_3 cs hcs
      · have hstep2 : num_step STATE_EXP 43 = some STATE_SIGN_2 := by simp [num_step]
        simp only [List.singleton_append]
        rw [num_run_cons_some _ hstep2]
        exact hcs3
      · have hstep2 : num_step STATE_EXP 45 = some STATE_SIGN_2 := by simp [num_step]
        simp only [List.singleton_append]
        rw [num_run_cons_some _ hstep2]
        exact hcs3

theorem number_run_accepting {w : List Nat} (h : JsonNumber w) :
    ∃ st, num_run STATE_START w = some st ∧ accepting st = true := by
  obtain ⟨sign, int, frac, exp, rfl, hs, hi, hf, he⟩ := h
  have h1 : ∃ st, num_run STATE_START sign = some st ∧
      (st = STATE_START ∨ st = STATE_SIGN_1) := by
    rcases hs with rfl | rfl
    · exact ⟨STATE_START, rfl, Or.inl rfl⟩
    · exact ⟨STATE_SIGN_1, rfl, Or.inr rfl⟩
  obtain ⟨st1, hr1, hst1⟩ := h1
  have h2 : ∃ st, num_run STATE_START (sign ++ int) = some st ∧
      (st = STATE_ZERO ∨ st = STATE_DIGIT_1) := by
    rw [num_run_append_some hr1]
    rcases run_int hi st1 hst1 with h | h
    · exact ⟨_, h, Or.inl rfl⟩
    · exact ⟨_, h, Or.inr rfl⟩
  obtain ⟨st2, hr2, hst2⟩ := h2
  have h3 : ∃ st, num_run STATE_START (sign ++ int ++ frac) = some st ∧
      (st = STATE_ZERO ∨ st = STATE_DIGIT_1 ∨ st = STATE_DIGIT_2) := by
    rw [num_run_append_some hr2]
    rcases run_frac hf st2 hst2 with h | h
    · refine ⟨_, h, ?_⟩
      rcases hst2 with rfl | rfl
      · exact Or.inl rfl
      · exact Or.inr (Or.inl rfl)
    · exact ⟨_, h, Or.inr (Or.inr rfl)⟩
  obtain ⟨st3, hr3, hst3⟩ := h3
  rw [num_run_append_some hr3]
  rcases run_exp he st3 hst3 with h | h
  · refine ⟨_, h, ?_⟩
    rcases hst3 with rfl | rfl | rfl <;> rfl
  · exact ⟨_, h, rfl⟩

theorem jsonNumber_iff_run (w : List Nat) :
    JsonNumber w ↔ ∃ st, num_run STATE_START w = some st ∧ accepting st = true :=
  ⟨number_run_accepting, fun ⟨_, h, hacc⟩ => run_accepting_number h hacc⟩

theorem num_run_of_append {a b : List Nat} {st st2 : State}
    (h : num_run st (a ++ b) = some st2) : ∃ st3, num_run st a = some st3 := by
  rw [num_run_append] at h
  cases hr : num_run st a with
  | none => simp [hr] at h
  | some st3 => exact ⟨st3, rfl⟩

theorem state_completes (st : State) : ∃ v st2, num_run st v = some st2 ∧ accepting st2 = true := by
  cases st
  · exact ⟨[48], STATE_ZERO, rfl, rfl⟩
  · exact ⟨[48], STATE_ZERO, rfl, rfl⟩
  · exact ⟨[48], STATE_DIGIT_3, rfl, rfl⟩
  · exact ⟨[], STATE_ZERO, rfl, rfl⟩
  · exact ⟨[], STATE_DIGIT_1, rfl, rfl⟩
  · exact ⟨[], STATE_DIGIT_2, rfl, rfl⟩
  · exact ⟨[], STATE_DIGIT_3, rfl, rfl⟩
  · exact ⟨[48], STATE_DIGIT_2, rfl, rfl⟩
  · exact ⟨[48], STATE_DIGIT_3, rfl, rfl⟩

theorem numberStart_iff_run (w : List Nat) :
    NumberStart w ↔ ∃ st, num_run STATE_START w = some st := by
  constructor
  · rintro ⟨v, hv⟩
    obtain ⟨st, hrun, _⟩ := number_run_accepting hv
    exact num_run_of_append hrun
  · rintro ⟨st, hrun⟩
    obtain ⟨v, st2, hv, hacc⟩ := state_completes st
    refine ⟨v, run_accepting_number ?_ hacc⟩
    rw [num_run_append_some hrun]
    exact hv

theorem size_sub_of_le {a b : Nat} (ha : a < SIZE_MOD) (hb : b ≤ a) : size_sub a b = a - b := by
  unfold size_sub
  have hb2 : b % SIZE_MOD = b := Nat.mod_eq_of_lt (by omega)
  rw [hb2]
  have : a + SIZE_MOD - b = (a - b) + SIZE_MOD := by omega
  rw [this, Nat.add_mod_right]
  exact Nat.mod_eq_of_lt (by omega)

theorem scan_number_eq (b : List Nat) (p : Nat) (hL : b.length < SIZE_MOD)
    (hp : p ≤ b.length) :
    scan_number (scannerOf b) p =
      scan_number_loop p (0 + (b.drop p).length) STATE_START 0 (b.drop p) := by
  simp only [scan_number, scannerOf, json_scanner_init]
  rw [size_sub_of_le hL hp]
  simp

theorem scan_number_loop_oob (start remaining i : Nat) (st : State) (h : i < remaining) :
    scan_number_loop start remaining st i [] = none := by
  rw [scan_number_loop.eq_def]
  simp [h]

theorem scan_number_past (b : List Nat) (p : Nat) (hp : b.length < p) (t : JsonToken)
    (h : scan_number (scannerOf b) p = some t) : t.type = JST_ERR_INCOMPLETE := by
  simp only [scan_number, scannerOf, json_scanner_init] at h
  rw [List.drop_eq_nil_of_le (by omega)] at h
  by_cases h0 : 0 < size_sub b.length p
  · rw [scan_number_loop_oob _ _ _ _ h0] at h
    simp at h
  · rw [scan_number_loop_done _ _ _ _ _ h0] at h
    simp [accepting] at h
    rw [← h]

theorem drop_split_take {b : List Nat} {p : Nat} {w tail : List Nat}
    (h : b.drop p = w ++ tail) : (b.drop p).take w.length = w := by
  rw [h]
  simp

theorem getElem?_of_drop_cons {b : List Nat} {k c : Nat} {t : List Nat}
    (h : b.drop k = c :: t) : b[k]? = some c := by
  have := congrArg (fun l => l[0]?) h
  simpa using this

theorem drop_of_getElem? {b : List Nat} {k c : Nat} (h : b[k]? = some c) :
    b.drop k = c :: b.drop (k + 1) := by
  have hk : k < b.length := by
    rcases Nat.lt_or_ge k b.length with hlt | hge
    · exact hlt
    · rw [List.getElem?_eq_none hge] at h
      simp at h
  rw [List.drop_eq_getElem_cons hk]
  rw [List.getElem?_eq_getElem hk] at h
  simp at h
  rw [h]


theorem slice_add (b : List Nat) (p n : Nat) : slice b p (p + n) = (b.drop p).take n := by
  simp [slice]

theorem scan_number_number_iff (b : List Nat) (p n : Nat) (hL : b.length < SIZE_MOD) :
    scan_number (scannerOf b) p = some ⟨JST_NUMBER, p, n⟩ ↔
      JsonNumber (slice b p (p + n)) ∧
        (p + n = b.length ∨ ∃ c, b[p + n]? = some c ∧ is_number_delim c = true) := by
  rw [slice_add]
  rcases Nat.lt_or_ge b.length p with hp | hp
  · constructor
    · intro h
      have := scan_number_past b p hp _ h
      simp at this
    · rintro ⟨_, h | ⟨c, hc, _⟩⟩
      · omega
      · have hlt : p + n < b.length := by
          rcases Nat.lt_or_ge (p + n) b.length with hlt | hge
          · exact hlt
          · rw [List.getElem?_eq_none hge] at hc
            simp at hc
        omega
  · rw [scan_number_eq b p hL hp, loop_number_iff]
    constructor
    · rintro ⟨w, tail, hw, hn, ⟨st2, hrun, hacc⟩, htail⟩
      have hn2 : n = w.length := by omega
      subst hn2
      refine ⟨?_, ?_⟩
      · rw [drop_split_take hw]
        exact run_accepting_number hrun hacc
      · rcases htail with rfl | ⟨c, t, rfl, hd⟩
        · left
          have := congrArg List.length hw
          simp at this
          omega
        · right
          refine ⟨c, ?_, hd⟩
          apply getElem?_of_drop_cons (t := t)
          rw [← List.drop_drop, hw]
          simp
    · rintro ⟨hnum, hend⟩
      obtain ⟨st2, hrun, hacc⟩ := number_run_accepting hnum
      have hle : p + n ≤ b.length := by
        rcases hend with h | ⟨c, hc, _⟩
        · omega
        · rcases Nat.lt_or_ge (p + n) b.length with hlt | hge
          · omega
          · rw [List.getElem?_eq_none hge] at hc
            simp at hc
      refine ⟨(b.drop p).take n, (b.drop p).drop n, (List.take_append_drop _ _).symm, ?_,
        ⟨st2, hrun, hacc⟩, ?_⟩
      · simp
        omega
      · rcases hend with h | ⟨c, hc, hd⟩
        · left
          simp
          omega
        · right
          refine ⟨c, b.drop (p + n + 1), ?_, hd⟩
          rw [List.drop_drop]
          exact drop_of_getElem? hc

/-- C2: started at offset `p`, the number sub-scanner returns a `JST_NUMBER` token with
offset `p` and length `n` exactly when the bytes `[p, p + n)` match the JSON number grammar
and position `p + n` is the end of the buffer or holds a delimiter; and each of `0`, `-0`,
`213`, `0.2`, `-3.14e1`, `0E5`, `4e+2`, `3E-4` scans as one `JST_NUMBER` token spanning
its whole text. -/
theorem scan_number_iff_grammar (b : List Nat) (p n : Nat) (hL : b.length < SIZE_MOD) :
    (scan_number (scannerOf b) p = some ⟨JST_NUMBER, p, n⟩ ↔
      JsonNumber (slice b p (p + n)) ∧
        (p + n = b.length ∨ ∃ c, b[p + n]? = some c ∧ is_number_delim c = true)) ∧
    (∀ w ∈ number_examples,
      json_scanner_next (scannerOf w) beginToken = some ⟨JST_NUMBER, 0, w.length⟩) :=
  ⟨scan_number_number_iff b p n hL, by decide⟩

/-- C2, witness: the iff at offset 1 of the nine-byte buffer ` -3.14e1,`. -/
theorem scan_number_iff_grammar_witness :
    [32, 45, 51, 46, 49, 52, 101, 49, 44].length < SIZE_MOD ∧
    ((scan_number (scannerOf [32, 45, 51, 46, 49, 52, 101, 49, 44]) 1 = some ⟨JST_NUMBER, 1, 7⟩ ↔
      JsonNumber (slice [32, 45, 51, 46, 49, 52, 101, 49, 44] 1 (1 + 7)) ∧
        (1 + 7 = [32, 45, 51, 46, 49, 52, 101, 49, 44].length ∨
          ∃ c, [32, 45, 51, 46, 49, 52, 101, 49, 44][1 + 7]? = some c ∧
            is_number_delim c = true)) ∧
    (∀ w ∈ number_examples,
      json_scanner_next (scannerOf w) beginToken = some ⟨JST_NUMBER, 0, w.length⟩)) :=
  ⟨by decide, scan_number_iff_grammar [32, 45, 51, 46, 49, 52, 101, 49, 44] 1 7 (by decide)⟩

theorem num_run_snoc {w : List Nat} {st st2 : State} (c : Nat)
    (h : num_run st w = some st2) : num_run st (w ++ [c]) = num_step st2 c := by
  rw [num_run_append_some h]
  cases hstep : num_step st2 c with
  | none => simp [num_run, hstep]
  | some st3 => simp [num_run, hstep]

theorem unexpectedAt_of_split {b : List Nat} {p : Nat} {w tail : List Nat} {c : Nat}
    {st2 : State} (hp : p ≤ b.length) (hw : b.drop p = w ++ c :: tail)
    (hrun : num_run STATE_START w = some st2) (hstep : num_step st2 c = none)
    (hna : ¬ (accepting st2 = true ∧ is_number_delim c = true)) :
    UnexpectedAt b p (p + w.length) := by
  have hlen := congrArg List.length hw
  simp at hlen
  have hk : b[p + w.length]? = some c := by
    apply getElem?_of_drop_cons (t := tail)
    rw [← List.drop_drop, hw]
    simp
  have hs1 : slice b p (p + w.length) = w := by
    rw [slice_add, hw]
    simp
  have hs2 : slice b p (p + w.length + 1) = w ++ [c] := by
    rw [Nat.add_assoc, slice_add, hw]
    simp [List.take_append_eq_append_take, List.take_of_length_le]
  refine ⟨by omega, by omega, ?_, ?_, ?_⟩
  · rw [hs1, numberStart_iff_run]
    exact ⟨st2, hrun⟩
  · rw [hs2, numberStart_iff_run, num_run_snoc c hrun, hstep]
    simp
  · rw [hs1]
    rintro ⟨hnum, c2, hc2, hd⟩
    rw [hk] at hc2
    simp at hc2
    subst hc2
    obtain ⟨st3, hrun3, hacc⟩ := number_run_accepting hnum
    rw [hrun] at hrun3
    simp at hrun3
    subst hrun3
    exact hna ⟨hacc, hd⟩

theorem split_of_unexpectedAt {b : List Nat} {p k : Nat} (h : UnexpectedAt b p k) :
    ∃ w c tail st2, b.drop p = w ++ c :: tail ∧ k = p + w.length ∧
      num_run STATE_START w = some st2 ∧ num_step st2 c = none ∧
      ¬ (accepting st2 = true ∧ is_number_delim c = true) := by
  obtain ⟨hpk, hk, hs, hns, hnd⟩ := h
  obtain ⟨j, rfl⟩ : ∃ j, k = p + j := ⟨k - p, by omega⟩
  have hc : b[p + j]? = some (b[p + j]) := List.getElem?_eq_getElem hk
  have hdrop : b.drop p = (b.drop p).take j ++ b[p + j] :: b.drop (p + j + 1) := by
    rw [← drop_of_getElem? hc, ← List.drop_drop]
    exact (List.take_append_drop _ _).symm
  have hlenw : ((b.drop p).take j).length = j := by
    simp
    omega
  rw [slice_add, numberStart_iff_run] at hs
  obtain ⟨st2, hrun⟩ := hs
  have hs2 : slice b p (p + j + 1) = (b.drop p).take j ++ [b[p + j]] := by
    rw [Nat.add_assoc, slice_add, List.take_succ, List.getElem?_drop, hc]
    rfl
  refine ⟨(b.drop p).take j, b[p + j], b.drop (p + j + 1), st2, hdrop, by omega, hrun, ?_, ?_⟩
  · rw [hs2, numberStart_iff_run, num_run_snoc _ hrun] at hns
    cases hstep : num_step st2 b[p + j] with
    | none => rfl
    | some st3 =>
      rw [hstep] at hns
      exact absurd ⟨st3, rfl⟩ hns
  · rintro ⟨hacc, hd⟩
    apply hnd
    rw [slice_add]
    exact ⟨run_accepting_number hrun hacc, _, hc, hd⟩

theorem scan_number_unexpected_at (b : List Nat) (p : Nat) (hL : b.length < SIZE_MOD)
    (t : JsonToken) :
    (scan_number (scannerOf b) p = some t ∧ t.type = JST_ERR_UNEXPECTED) ↔
      ∃ k, UnexpectedAt b p k ∧ t = ⟨JST_ERR_UNEXPECTED, k, 1⟩ := by
  rcases Nat.lt_or_ge b.length p with hp | hp
  · constructor
    · rintro ⟨h, ht⟩
      have := scan_number_past b p hp _ h
      rw [ht] at this
      simp at this
    · rintro ⟨k, ⟨h1, h2, _⟩, _⟩
      omega
  · rw [scan_number_eq b p hL hp, loop_unexpected_iff]
    constructor
    · rintro ⟨w, c, tail, st2, hw, ht, hrun, hstep, hna⟩
      refine ⟨p + w.length, unexpectedAt_of_split hp hw hrun hstep hna, ?_⟩
      rw [ht]
      simp
    · rintro ⟨k, hk, ht⟩
      obtain ⟨w, c, tail, st2, hw, hkw, hrun, hstep, hna⟩ := split_of_unexpectedAt hk
      refine ⟨w, c, tail, st2, hw, ?_, hrun, hstep, hna⟩
      rw [ht, hkw]
      simp

/-- C8: started at offset `p`, the number sub-scanner returns `JST_ERR_UNEXPECTED` exactly
when some position `k` of the buffer is such that `[p, k)` can be continued to a number,
`[p, k]` cannot, and `[p, k)` is not a complete number followed by a delimiter; the token
then has length 1 and offset `k`.  So `01` errs at offset 1, `0..2` at offset 2, `-e10` at
offset 1, `1.0e+e0` at offset 5, and `+2` and `e01` given to `json_scanner_next` err at
offset 0 with length 1. -/
theorem scan_number_unexpected_iff (b : List Nat) (p : Nat) (hL : b.length < SIZE_MOD) :
    ((∃ t, scan_number (scannerOf b) p = some t ∧ t.type = JST_ERR_UNEXPECTED) ↔
      ∃ k, UnexpectedAt b p k) ∧
    (∀ t, scan_number (scannerOf b) p = some t → t.type = JST_ERR_UNEXPECTED →
      t.len = 1 ∧ UnexpectedAt b p t.start) ∧
    (∀ k, UnexpectedAt b p k →
      scan_number (scannerOf b) p = some ⟨JST_ERR_UNEXPECTED, k, 1⟩) ∧
    scan_number (scannerOf [48, 49]) 0 = some ⟨JST_ERR_UNEXPECTED, 1, 1⟩ ∧
    scan_number (scannerOf [48, 46, 46, 50]) 0 = some ⟨JST_ERR_UNEXPECTED, 2, 1⟩ ∧
    scan_number (scannerOf [45, 101, 49, 48]) 0 = some ⟨JST_ERR_UNEXPECTED, 1, 1⟩ ∧
    scan_number (scannerOf [49, 46, 48, 101, 43, 101, 48]) 0 =
      some ⟨JST_ERR_UNEXPECTED, 5, 1⟩ ∧
    json_scanner_next (scannerOf [43, 50]) beginToken = some ⟨JST_ERR_UNEXPECTED, 0, 1⟩ ∧
    json_scanner_next (scannerOf [101, 48, 49]) beginToken =
      some ⟨JST_ERR_UNEXPECTED, 0, 1⟩ := by
  refine ⟨?_, ?_, ?_, by decide, by decide, by decide, by decide, by decide, by decide⟩
  · constructor
    · rintro ⟨t, h⟩
      obtain ⟨k, hk, _⟩ := (scan_number_unexpected_at b p hL t).1 h
      exact ⟨k, hk⟩
    · rintro ⟨k, hk⟩
      exact ⟨_, (scan_number_unexpected_at b p hL _).2 ⟨k, hk, rfl⟩⟩
  · intro t h ht
    obtain ⟨k, hk, rfl⟩ := (scan_number_unexpected_at b p hL t).1 ⟨h, ht⟩
    exact ⟨rfl, hk⟩
  · intro k hk
    exact ((scan_number_unexpected_at b p hL _).2 ⟨k, hk, rfl⟩).1

/-- C8, witness: in the buffer `[-1.5x]` the number starts at offset 1 and the byte `x`
at offset 5 is the unexpected one. -/
theorem scan_number_unexpected_iff_witness :
    [91, 45, 49, 46, 53, 120, 93].length < SIZE_MOD ∧
    (∃ t, scan_number (scannerOf [91, 45, 49, 46, 53, 120, 93]) 1 = some t ∧
      t.type = JST_ERR_UNEXPECTED) ∧
    UnexpectedAt [91, 45, 49, 46, 53, 120, 93] 1 5 :=
  ⟨by decide, ⟨⟨JST_ERR_UNEXPECTED, 5, 1⟩, by decide, rfl⟩,
    ((scan_number_unexpected_iff [91, 45, 49, 46, 53, 120, 93] 1 (by decide)).2.1
      ⟨JST_ERR_UNEXPECTED, 5, 1⟩ (by decide) rfl).2⟩
theorem inv_not_accepting {st : State} {w : List Nat} (hinv : Inv st w)
    (hacc : accepting st = false) :
    w = [] ∨ ∃ w2 c, w = w2 ++ [c] ∧ (c = 45 ∨ c = 46 ∨ c = 101 ∨ c = 69 ∨ c = 43) := by
  cases st <;> simp [accepting] at hacc <;> simp only [Inv] at hinv
  · exact Or.inl hinv
  · exact Or.inr ⟨[], 45, by simp [hinv], Or.inl rfl⟩
  · obtain ⟨s, int, frac, e, sg, _, _, _, _, hsg, rfl⟩ := hinv
    refine Or.inr ⟨s ++ int ++ frac ++ [e], sg, by simp, ?_⟩
    rcases hsg with rfl | rfl
    · exact Or.inr (Or.inr (Or.inr (Or.inr rfl)))
    · exact Or.inl rfl
  · obtain ⟨s, int, _, _, rfl⟩ := hinv
    exact Or.inr ⟨s ++ int, 46, rfl, Or.inr (Or.inl rfl)⟩
  · obtain ⟨s, int, frac, e, _, _, _, he, rfl⟩ := hinv
    refine Or.inr ⟨s ++ int ++ frac, e, rfl, ?_⟩
    rcases he with rfl | rfl
    · exact Or.inr (Or.inr (Or.inl rfl))
    · exact Or.inr (Or.inr (Or.inr (Or.inl rfl)))

/-- C9: when the bytes from `p` to the end of the buffer are all consumed by the number
machine (they can be continued to a number text, so no delimiter or illegal byte is met),
the number sub-scanner returns `JST_NUMBER` spanning `[p, end)` if they form a complete
number, and otherwise `JST_ERR_INCOMPLETE` with offset `p` and length `end - p`, the text
then being empty or ending in `-`, `.`, `e`, `E` or `+`.  So `0.`, `1.` and `1e` at the end
of the input are `JST_ERR_INCOMPLETE` spanning the whole text. -/
theorem scan_number_exhausted (b : List Nat) (p : Nat) (hL : b.length < SIZE_MOD)
    (hp : p ≤ b.length) (hpre : NumberStart (b.drop p)) :
    (JsonNumber (b.drop p) →
      scan_number (scannerOf b) p = some ⟨JST_NUMBER, p, b.length - p⟩) ∧
    (¬ JsonNumber (b.drop p) →
      scan_number (scannerOf b) p = some ⟨JST_ERR_INCOMPLETE, p, b.length - p⟩ ∧
      (b.drop p = [] ∨ ∃ w c, b.drop p = w ++ [c] ∧
        (c = 45 ∨ c = 46 ∨ c = 101 ∨ c = 69 ∨ c = 43))) ∧
    json_scanner_next (scannerOf [48, 46]) beginToken = some ⟨JST_ERR_INCOMPLETE, 0, 2⟩ ∧
    json_scanner_next (scannerOf [49, 46]) beginToken = some ⟨JST_ERR_INCOMPLETE, 0, 2⟩ ∧
    json_scanner_next (scannerOf [49, 101]) beginToken = some ⟨JST_ERR_INCOMPLETE, 0, 2⟩ := by
  obtain ⟨st, hrun⟩ := (numberStart_iff_run _).1 hpre
  have hloop := loop_exhausted p (b.drop p) STATE_START st 0 hrun
  rw [← scan_number_eq b p hL hp] at hloop
  have hlen : 0 + (b.drop p).length = b.length - p := by simp
  rw [hlen] at hloop
  refine ⟨?_, ?_, by decide, by decide, by decide⟩
  · intro hnum
    obtain ⟨st2, hrun2, hacc⟩ := number_run_accepting hnum
    rw [hrun] at hrun2
    simp at hrun2
    subst hrun2
    simpa [hacc] using hloop
  · intro hnum
    have hacc : accepting st = false := by
      cases h : accepting st with
      | false => rfl
      | true => exact absurd (run_accepting_number hrun h) hnum
    refine ⟨by simpa [hacc] using hloop, ?_⟩
    have hinv := inv_run (b.drop p) STATE_START st [] rfl hrun
    exact inv_not_accepting (by simpa using hinv) hacc

/-- C9, witness: in the buffer `,1.` the number text `1.` from offset 1 runs to the end of
the buffer and is not a complete number. -/
theorem scan_number_exhausted_witness :
    [44, 49, 46].length < SIZE_MOD ∧ 1 ≤ [44, 49, 46].length ∧
    NumberStart (List.drop 1 [44, 49, 46]) ∧ ¬ JsonNumber (List.drop 1 [44, 49, 46]) ∧
    scan_number (scannerOf [44, 49, 46]) 1 = some ⟨JST_ERR_INCOMPLETE, 1, 2⟩ :=
  have hpre : NumberStart (List.drop 1 [44, 49, 46]) :=
    (numberStart_iff_run _).2 ⟨STATE_DOT, rfl⟩
  have hnot : ¬ JsonNumber (List.drop 1 [44, 49, 46]) := fun h => by
    obtain ⟨st, hrun, hacc⟩ := number_run_accepting h
    have hst : st = STATE_DOT := by
      have : num_run STATE_START (List.drop 1 [44, 49, 46]) = some STATE_DOT := rfl
      rw [this] at hrun
      simpa using hrun.symm
    subst hst
    simp [accepting] at hacc
  ⟨by decide, by decide, hpre, hnot,
    ((scan_number_exhausted [44, 49, 46] 1 (by decide) (by decide) hpre).2.1 hnot).1⟩
/-- C10: `JST_EOF` is absorbing: given a token of kind `JST_EOF`, `json_scanner_next`
returns that very token, and so does every chain of further calls. -/
theorem eof_absorbing (scanner : JsonScanner) (t : JsonToken) (ht : t.type = JST_EOF) :
    json_scanner_next scanner t = some t ∧ ∀ n, next_chain scanner n t = some t := by
  have h1 : json_scanner_next scanner t = some t := by simp [json_scanner_next, ht]
  refine ⟨h1, ?_⟩
  intro n
  induction n with
  | zero => rfl
  | succ n ih => simp [next_chain, h1, ih]

/-- C10, witness: the `JST_EOF` token returned at the end of the buffer `[ ]`. -/
theorem eof_absorbing_witness :
    json_scanner_next (scannerOf [91, 32, 93]) ⟨JST_ARRAY_CLOSE, 2, 1⟩ = some ⟨JST_EOF, 3, 0⟩ ∧
    json_scanner_next (scannerOf [91, 32, 93]) ⟨JST_EOF, 3, 0⟩ = some ⟨JST_EOF, 3, 0⟩ ∧
    ∀ n, next_chain (scannerOf [91, 32, 93]) n ⟨JST_EOF, 3, 0⟩ = some ⟨JST_EOF, 3, 0⟩ :=
  ⟨by decide, eof_absorbing (scannerOf [91, 32, 93]) ⟨JST_EOF, 3, 0⟩ rfl⟩

/-- C3: on the two-byte buffer `tr` the first call returns a `JST_TRUE` token of length 4,
whose end lies past the end of the buffer; on the three-byte buffer ` tx` it returns a
`JST_ERR_UNEXPECTED` token with offset 1 and length 3. -/
theorem literal_token_exceeds_buffer :
    json_scanner_next (scannerOf [116, 114]) beginToken = some ⟨JST_TRUE, 0, 4⟩ ∧
    ¬ (0 + 4 ≤ [116, 114].length) ∧
    json_scanner_next (scannerOf [32, 116, 120]) beginToken =
      some ⟨JST_ERR_UNEXPECTED, 1, 3⟩ ∧
    ¬ (1 + 3 ≤ [32, 116, 120].length) := by
  decide

/-- C4: on the six-byte buffer `"\uabc` the string sub-scanner tests `i + 4 > remaining`
with `i = 1` and `remaining = 5`, goes on to read `s[i + 4]`, the byte at index 6, and so
reads past the end of the buffer; on the two-byte buffer ` t` the literal comparison
reads the byte at index 2. -/
theorem reads_past_buffer_end :
    json_scanner_next (scannerOf [34, 92, 117, 97, 98, 99]) beginToken = none ∧
    scan_string (scannerOf [34, 92, 117, 97, 98, 99]) 1 = none ∧
    json_scanner_next (scannerOf [32, 116]) beginToken = none := by
  decide

/-- C6: on the four-byte buffer `"\z"` the string sub-scanner, started at offset 1,
returns `JST_ERR_BAD_ESCAPE` with offset 1 and length 1: the span is the backslash alone
and leaves the offending byte `z` out.  On `"\uabxd"` the span is again the backslash
alone. -/
theorem bad_escape_span_excludes_offender :
    scan_string (scannerOf [34, 92, 122, 34]) 1 = some ⟨JST_ERR_BAD_ESCAPE, 1, 1⟩ ∧
    json_scanner_next (scannerOf [34, 92, 122, 34]) beginToken =
      some ⟨JST_ERR_BAD_ESCAPE, 1, 1⟩ ∧
    json_scanner_next (scannerOf [34, 92, 117, 97, 98, 120, 100, 34]) beginToken =
      some ⟨JST_ERR_BAD_ESCAPE, 1, 1⟩ := by
  decide

/-- C7: on the two-byte buffer `tr` the literal comparison is cut to two bytes, succeeds,
and `json_scanner_next` returns `JST_TRUE` with length 4 instead of `JST_ERR_UNEXPECTED`
with length 2 (likewise `n` gives `JST_NULL` and `fal` gives `JST_FALSE`); on ` fx` the
error token has the length counted from the resume offset, not from the literal. -/
theorem truncated_literal_is_accepted :
    json_scanner_next (scannerOf [116, 114]) beginToken = some ⟨JST_TRUE, 0, 4⟩ ∧
    json_scanner_next (scannerOf [110]) beginToken = some ⟨JST_NULL, 0, 4⟩ ∧
    json_scanner_next (scannerOf [102, 97, 108]) beginToken = some ⟨JST_FALSE, 0, 5⟩ ∧
    json_scanner_next (scannerOf [32, 102, 120]) beginToken =
      some ⟨JST_ERR_UNEXPECTED, 1, 3⟩ := by
  decide
theorem scan_string_loop_done (start remaining i : Nat) (escaped : Bool) (rest : List Nat)
    (h : ¬ i < remaining) :
    scan_string_loop start remaining i escaped rest =
      some ⟨JST_ERR_INCOMPLETE, start, remaining⟩ := by
  rw [scan_string_loop.eq_def]
  simp [h]

theorem scan_string_loop_oob (start remaining i : Nat) (escaped : Bool) (h : i < remaining) :
    scan_string_loop start remaining i escaped [] = none := by
  rw [scan_string_loop.eq_def]
  simp [h]

theorem scan_string_loop_quote (start remaining i : Nat) (cs : List Nat) (h : i < remaining) :
    scan_string_loop start remaining i false (34 :: cs) = some ⟨JST_STRING, start, i⟩ := by
  rw [scan_string_loop.eq_def]
  simp [h]

theorem scan_string_loop_backslash (start remaining i : Nat) (cs : List Nat)
    (h : i < remaining) :
    scan_string_loop start remaining i false (92 :: cs) =
      scan_string_loop start remaining (i + 1) true cs := by
  rw [scan_string_loop.eq_def]
  simp [h]

theorem scan_string_loop_plain (start remaining i c : Nat) (cs : List Nat) (h : i < remaining)
    (h1 : c ≠ 34) (h2 : c ≠ 92) :
    scan_string_loop start remaining i false (c :: cs) =
      scan_string_loop start remaining (i + 1) false cs := by
  rw [scan_string_loop.eq_def]
  simp [h, h1, h2]

theorem scan_string_loop_simple (start remaining i c : Nat) (cs : List Nat)
    (h : i < remaining) (hc : SimpleEscape c) :
    scan_string_loop start remaining i true (c :: cs) =
      scan_string_loop start remaining (i + 1) false cs := by
  rw [scan_string_loop.eq_def]
  unfold SimpleEscape at hc
  simp [h, hc]

theorem not_simpleEscape_u : ¬ SimpleEscape 117 := by
  unfold SimpleEscape
  omega

theorem scan_string_loop_unicode (start remaining i h1 h2 h3 h4 : Nat) (t : List Nat)
    (h : i < remaining) (h4r : i + 4 ≤ remaining) (x1 : isxdigit h1 = true)
    (x2 : isxdigit h2 = true) (x3 : isxdigit h3 = true) (x4 : isxdigit h4 = true) :
    scan_string_loop start remaining i true (117 :: h1 :: h2 :: h3 :: h4 :: t) =
      scan_string_loop start remaining (i + 4 + 1) false t := by
  rw [scan_string_loop.eq_def]
  have hn : ¬ (i + 4 > remaining) := by omega
  have hu : ¬ (117 = 34 ∨ 117 = 92 ∨ 117 = 47 ∨ 117 = 98 ∨ 117 = 102 ∨ 117 = 110 ∨
      117 = 114 ∨ 117 = 116) := by omega
  simp [h, x1, x2, x3, x4]
  omega

theorem scan_string_loop_body (start : Nat) : ∀ body : List Nat, StringBody body →
    ∀ (tail : List Nat) (i remaining : Nat), i + body.length < remaining →
      scan_string_loop start remaining i false (body ++ 34 :: tail) =
        some ⟨JST_STRING, start, i + body.length⟩ := by
  intro body hbody
  induction hbody with
  | nil =>
    intro tail i remaining h
    simp at h
    simpa using scan_string_loop_quote start remaining i tail h
  | plain c rest h1 h2 _ ih =>
    intro tail i remaining h
    simp at h
    rw [List.cons_append, scan_string_loop_plain _ _ _ _ _ (by omega) h1 h2,
      ih tail (i + 1) remaining (by omega)]
    simp
    omega
  | simple c rest hc _ ih =>
    intro tail i remaining h
    simp at h
    rw [List.cons_append, List.cons_append, scan_string_loop_backslash _ _ _ _ (by omega),
      scan_string_loop_simple _ _ _ _ _ (by omega) hc, ih tail (i + 1 + 1) remaining (by omega)]
    simp
    omega
  | unicode h1 h2 h3 h4 rest x1 x2 x3 x4 _ ih =>
    intro tail i remaining h
    simp at h
    simp only [List.cons_append]
    rw [scan_string_loop_backslash _ _ _ _ (by omega),
      scan_string_loop_unicode _ _ _ _ _ _ _ _ (by omega) (by omega) x1 x2 x3 x4,
      ih tail (i + 1 + 4 + 1) remaining (by omega)]
    simp
    omega
theorem scan_string_loop_escaped_string (start remaining i n : Nat) (rest : List Nat)
    (h : scan_string_loop start remaining i true rest = some ⟨JST_STRING, start, n⟩) :
    (∃ e cs, rest = e :: cs ∧ SimpleEscape e ∧
      scan_string_loop start remaining (i + 1) false cs = some ⟨JST_STRING, start, n⟩) ∨
    (∃ h1 h2 h3 h4 t, rest = 117 :: h1 :: h2 :: h3 :: h4 :: t ∧ isxdigit h1 = true ∧
      isxdigit h2 = true ∧ isxdigit h3 = true ∧ isxdigit h4 = true ∧
      scan_string_loop start remaining (i + 4 + 1) false t = some ⟨JST_STRING, start, n⟩) := by
  by_cases hi : i < remaining
  swap
  · rw [scan_string_loop_done _ _ _ _ _ hi] at h
    simp at h
  cases rest with
  | nil =>
    rw [scan_string_loop_oob _ _ _ _ hi] at h
    simp at h
  | cons e cs =>
    by_cases he : SimpleEscape e
    · left
      rw [scan_string_loop_simple _ _ _ _ _ hi he] at h
      exact ⟨e, cs, rfl, he, h⟩
    · right
      rw [scan_string_loop.eq_def] at h
      unfold SimpleEscape at he
      simp only [hi, if_true, he, if_false] at h
      split_ifs at h with hu h4r
      · simp at h
      · subst hu
        match cs, h with
        | [], h => simp at h
        | [h1], h => simp at h
        | [h1, h2], h =>
          simp at h
          split_ifs at h <;> simp at h
        | [h1, h2, h3], h =>
          simp at h
          split_ifs at h <;> simp at h
        | h1 :: h2 :: h3 :: h4 :: t, h =>
          simp only [] at h
          split_ifs at h with x1 x2 x3 x4 <;> try (simp at h)
          simp at x1 x2 x3 x4
          exact ⟨h1, h2, h3, h4, t, rfl, x1, x2, x3, x4, h⟩
      · simp at h
theorem scan_string_loop_string_inv (start remaining : Nat) : ∀ (m : Nat) (rest : List Nat)
    (i n : Nat), rest.length ≤ m →
    scan_string_loop start remaining i false rest = some ⟨JST_STRING, start, n⟩ →
    ∃ body tail, rest = body ++ 34 :: tail ∧ StringBody body ∧ n = i + body.length := by
  intro m
  induction m with
  | zero =>
    intro rest i n hm h
    have hr : rest = [] := List.length_eq_zero.1 (by omega)
    subst hr
    by_cases hi : i < remaining
    · rw [scan_string_loop_oob _ _ _ _ hi] at h
      simp at h
    · rw [scan_string_loop_done _ _ _ _ _ hi] at h
      simp at h
  | succ m ih =>
    intro rest i n hm h
    by_cases hi : i < remaining
    swap
    · rw [scan_string_loop_done _ _ _ _ _ hi] at h
      simp at h
    cases rest with
    | nil =>
      rw [scan_string_loop_oob _ _ _ _ hi] at h
      simp at h
    | cons c cs =>
      simp at hm
      by_cases hq : c = 34
      · subst hq
        rw [scan_string_loop_quote _ _ _ _ hi] at h
        simp at h
        exact ⟨[], cs, rfl, StringBody.nil, by simp [h]⟩
      by_cases hb : c = 92
      · subst hb
        rw [scan_string_loop_backslash _ _ _ _ hi] at h
        rcases scan_string_loop_escaped_string _ _ _ _ _ h with
          ⟨e, cs2, rfl, he, hl⟩ | ⟨h1, h2, h3, h4, t, rfl, x1, x2, x3, x4, hl⟩
        · simp at hm
          obtain ⟨body, tail, rfl, hbody, hn⟩ := ih cs2 (i + 1 + 1) n (by omega) hl
          exact ⟨92 :: e :: body, tail, by simp, StringBody.simple e body he hbody,
            by simp; omega⟩
        · simp at hm
          obtain ⟨body, tail, rfl, hbody, hn⟩ := ih t (i + 1 + 4 + 1) n (by omega) hl
          exact ⟨92 :: 117 :: h1 :: h2 :: h3 :: h4 :: body, tail, by simp,
            StringBody.unicode h1 h2 h3 h4 body x1 x2 x3 x4 hbody, by simp; omega⟩
      · rw [scan_string_loop_plain _ _ _ _ _ hi hq hb] at h
        obtain ⟨body, tail, rfl, hbody, hn⟩ := ih cs (i + 1) n (by omega) h
        exact ⟨c :: body, tail, by simp, StringBody.plain c body hq hb hbody, by simp; omega⟩

theorem scan_string_eq (b : List Nat) (a : Nat) (hL : b.length < SIZE_MOD)
    (ha : a ≤ b.length) :
    scan_string (scannerOf b) a =
      scan_string_loop a (b.length - a) 0 false (b.drop a) := by
  simp only [scan_string, scannerOf, json_scanner_init]
  rw [size_sub_of_le hL ha]

theorem scan_string_past (b : List Nat) (a : Nat) (ha : b.length < a) (t : JsonToken)
    (h : scan_string (scannerOf b) a = some t) : t.type = JST_ERR_INCOMPLETE := by
  simp only [scan_string, scannerOf, json_scanner_init] at h
  rw [List.drop_eq_nil_of_le (by omega)] at h
  by_cases h0 : 0 < size_sub b.length a
  · rw [scan_string_loop_oob _ _ _ _ h0] at h
    simp at h
  · rw [scan_string_loop_done _ _ _ _ _ h0] at h
    simp at h
    rw [← h]

theorem getElem?_lt {b : List Nat} {k c : Nat} (h : b[k]? = some c) : k < b.length := by
  rcases Nat.lt_or_ge k b.length with hlt | hge
  · exact hlt
  · rw [List.getElem?_eq_none hge] at h
    simp at h

/-- C5: started at offset `a`, just after an opening quote, the string sub-scanner returns a
`JST_STRING` token with offset `a` and length `n` exactly when the bytes `[a, a + n)` are a
concatenation of plain bytes (neither `"` nor `\`), one-byte escapes and `\u` escapes with
four hex digits, and the byte at `a + n` is `"`: the span leaves both quotes out and keeps
the escape sequences as they are written. -/
theorem scan_string_iff_body (b : List Nat) (a n : Nat) (hL : b.length < SIZE_MOD) :
    scan_string (scannerOf b) a = some ⟨JST_STRING, a, n⟩ ↔
      StringBody (slice b a (a + n)) ∧ b[a + n]? = some 34 := by
  rw [slice_add]
  rcases Nat.lt_or_ge b.length a with ha | ha
  · constructor
    · intro h
      have := scan_string_past b a ha _ h
      simp at this
    · rintro ⟨_, hq⟩
      have := getElem?_lt hq
      omega
  · rw [scan_string_eq b a hL ha]
    constructor
    · intro h
      obtain ⟨body, tail, hsplit, hbody, hn⟩ :=
        scan_string_loop_string_inv a (b.length - a) _ (b.drop a) 0 n (le_refl _) h
      have hn2 : n = body.length := by omega
      subst hn2
      refine ⟨?_, ?_⟩
      · rw [drop_split_take hsplit]
        exact hbody
      · apply getElem?_of_drop_cons (t := tail)
        rw [← List.drop_drop, hsplit]
        simp
    · rintro ⟨hbody, hq⟩
      have hlt := getElem?_lt hq
      have hsplit : b.drop a = (b.drop a).take n ++ 34 :: b.drop (a + n + 1) := by
        rw [← drop_of_getElem? hq, ← List.drop_drop]
        exact (List.take_append_drop _ _).symm
      have hlen : ((b.drop a).take n).length = n := by
        simp
        omega
      rw [hsplit, scan_string_loop_body a _ hbody _ 0 (b.length - a) (by omega), hlen]
      simp

/-- C5, witness: the body `a\n` of the string in the seven-byte buffer `["a\n"`. -/
theorem scan_string_iff_body_witness :
    [91, 34, 97, 92, 110, 34, 93].length < SIZE_MOD ∧
    (scan_string (scannerOf [91, 34, 97, 92, 110, 34, 93]) 2 = some ⟨JST_STRING, 2, 3⟩ ↔
      StringBody (slice [91, 34, 97, 92, 110, 34, 93] 2 (2 + 3)) ∧
        [91, 34, 97, 92, 110, 34, 93][2 + 3]? = some 34) ∧
    scan_string (scannerOf [91, 34, 97, 92, 110, 34, 93]) 2 = some ⟨JST_STRING, 2, 3⟩ :=
  ⟨by decide, scan_string_iff_body [91, 34, 97, 92, 110, 34, 93] 2 3 (by decide), by decide⟩
theorem next_loop_done (scanner : JsonScanner) (s remaining i : Nat) (rest : List Nat)
    (h : ¬ i < remaining) :
    next_loop scanner s remaining i rest = some ⟨JST_EOF, s, remaining⟩ := by
  rw [next_loop.eq_def]
  simp [h]

theorem next_loop_skip (scanner : JsonScanner) (s remaining i c : Nat) (cs : List Nat)
    (h : i < remaining) (hc : is_whitespace c = true) :
    next_loop scanner s remaining i (c :: cs) = next_loop scanner s remaining (i + 1) cs := by
  rw [next_loop.eq_def]
  simp [h, hc]

theorem next_loop_ws (scanner : JsonScanner) (s remaining : Nat) : ∀ (ws : List Nat)
    (i : Nat) (rest : List Nat), AllWhitespace ws → i + ws.length ≤ remaining →
    next_loop scanner s remaining i (ws ++ rest) =
      next_loop scanner s remaining (i + ws.length) rest := by
  intro ws
  induction ws with
  | nil => intro i rest _ _; simp
  | cons c cs ih =>
    intro i rest hws hlen
    simp at hlen
    have hc : is_whitespace c = true := hws c (by simp)
    have hcs : AllWhitespace cs := fun x hx => hws x (by simp [hx])
    rw [List.cons_append, next_loop_skip _ _ _ _ _ _ (by omega) hc, ih (i + 1) rest hcs (by omega)]
    congr 1
    simp
    omega

theorem next_eq (b : List Nat) (t : JsonToken) (hL : b.length < SIZE_MOD)
    (ht : t.type ≠ JST_EOF) (hr : resume t ≤ b.length) :
    json_scanner_next (scannerOf b) t =
      next_loop (scannerOf b) (resume t) (b.length - resume t) 0 (b.drop (resume t)) := by
  simp only [json_scanner_next, ht, if_false]
  simp only [scannerOf, json_scanner_init]
  rw [size_sub_of_le hL hr]

theorem slice_mid (x y z : List Nat) : slice (x ++ (y ++ z)) x.length (x.length + y.length) = y := by
  simp [slice]

theorem getElem?_mid (x : List Nat) (c : Nat) (z : List Nat) :
    (x ++ c :: z)[x.length]? = some c := by
  apply getElem?_of_drop_cons (t := z)
  simp

theorem jsonNumber_head {text : List Nat} (h : JsonNumber text) :
    ∃ c cs, text = c :: cs ∧ (c = 45 ∨ (48 ≤ c ∧ c ≤ 57)) := by
  obtain ⟨st, hrun, hacc⟩ := number_run_accepting h
  cases text with
  | nil =>
    simp [num_run] at hrun
    subst hrun
    simp [accepting] at hacc
  | cons c cs =>
    refine ⟨c, cs, rfl, ?_⟩
    cases hstep : num_step STATE_START c with
    | none =>
      rw [num_run_cons_none _ hstep] at hrun
      simp at hrun
    | some st2 =>
      simp only [num_step] at hstep
      split_ifs at hstep with h1 h2 h3
      · exact Or.inl h1
      · exact Or.inr (by omega)
      · exact Or.inr ((isdigit_iff c).1 h3)
theorem next_loop_number (scanner : JsonScanner) (s remaining i c : Nat) (cs : List Nat)
    (hi : i < remaining) (hc : c = 45 ∨ (48 ≤ c ∧ c ≤ 57)) :
    next_loop scanner s remaining i (c :: cs) = scan_number scanner (s + i) := by
  rw [next_loop.eq_def]
  rcases hc with rfl | hc
  · simp [hi, is_whitespace]
  · have hd : isdigit c = true := (isdigit_iff c).2 hc
    have hw : is_whitespace c = false := by
      simp [is_whitespace]
      omega
    have h1 : c ≠ 44 := by omega
    have h2 : c ≠ 58 := by omega
    have h3 : c ≠ 123 := by omega
    have h4 : c ≠ 125 := by omega
    have h5 : c ≠ 91 := by omega
    have h6 : c ≠ 93 := by omega
    have h7 : c ≠ 34 := by omega
    have h8 : c ≠ 45 := by omega
    have h9 : c ≠ 116 := by omega
    have h10 : c ≠ 102 := by omega
    have h11 : c ≠ 110 := by omega
    simp [hi, hw, h1, h2, h3, h4, h5, h6, h7, h8, h9, h10, h11, hd]

theorem next_loop_string (scanner : JsonScanner) (s remaining i : Nat) (cs : List Nat)
    (hi : i < remaining) :
    next_loop scanner s remaining i (34 :: cs) = scan_string scanner (s + i + 1) := by
  rw [next_loop.eq_def]
  simp [hi, is_whitespace]

theorem next_lexeme (pre ws text rest : List Nat) (k : JsonTokenType) (t : JsonToken)
    (hL : (pre ++ (ws ++ (text ++ rest))).length < SIZE_MOD)
    (ht : t.type ≠ JST_EOF) (hr : resume t = pre.length)
    (hws : AllWhitespace ws) (hwf : WfLexeme k text)
    (hnum : k = JST_NUMBER →
      rest = [] ∨ ∃ c r, rest = c :: r ∧ is_number_delim c = true) :
    json_scanner_next (scannerOf (pre ++ (ws ++ (text ++ rest)))) t =
      some (lexeme_token pre.length ⟨ws, k, text⟩) := by
  have hlen : (pre ++ (ws ++ (text ++ rest))).length =
      pre.length + ws.length + text.length + rest.length := by
    simp
    omega
  rw [next_eq _ t hL ht (by rw [hr, hlen]; omega), hr]
  have hdrop : (pre ++ (ws ++ (text ++ rest))).drop pre.length = ws ++ (text ++ rest) := by
    simp
  rw [hdrop, next_loop_ws _ _ _ ws 0 (text ++ rest) hws (by rw [hlen]; omega)]
  have hrem : (pre ++ (ws ++ (text ++ rest))).length - pre.length =
      ws.length + text.length + rest.length := by omega
  rw [hrem, Nat.zero_add]
  have hassoc : pre ++ (ws ++ (text ++ rest)) = (pre ++ ws) ++ (text ++ rest) := by simp
  have hpw : pre.length + ws.length = (pre ++ ws).length := by simp
  cases hwf with
  | comma => rw [next_loop.eq_def]; simp [is_whitespace, lexeme_token]; omega
  | colon => rw [next_loop.eq_def]; simp [is_whitespace, lexeme_token]; omega
  | object_open => rw [next_loop.eq_def]; simp [is_whitespace, lexeme_token]; omega
  | object_close => rw [next_loop.eq_def]; simp [is_whitespace, lexeme_token]; omega
  | array_open => rw [next_loop.eq_def]; simp [is_whitespace, lexeme_token]; omega
  | array_close => rw [next_loop.eq_def]; simp [is_whitespace, lexeme_token]; omega
  | true_lit =>
    have hmin : min 4 (ws.length + lit_true.length + rest.length) = 4 := by
      simp [lit_true]
      omega
    rw [next_loop.eq_def]
    simp only [hmin]
    simp [is_whitespace, lexeme_token, lit_true, strncmp_eq]
    omega
  | false_lit =>
    have hmin : min 5 (ws.length + lit_false.length + rest.length) = 5 := by
      simp [lit_false]
      omega
    rw [next_loop.eq_def]
    simp only [hmin]
    simp [is_whitespace, lexeme_token, lit_false, strncmp_eq]
    omega
  | null_lit =>
    have hmin : min 4 (ws.length + lit_null.length + rest.length) = 4 := by
      simp [lit_null]
      omega
    rw [next_loop.eq_def]
    simp only [hmin]
    simp [is_whitespace, lexeme_token, lit_null, strncmp_eq]
    omega
  | number _ hn =>
    obtain ⟨c, cs, rfl, hc⟩ := jsonNumber_head hn
    have key : scan_number (scannerOf (pre ++ (ws ++ (c :: cs ++ rest)))) (pre.length + ws.length) =
        some ⟨JST_NUMBER, pre.length + ws.length, (c :: cs).length⟩ := by
      rw [scan_number_number_iff _ _ _ hL, hassoc, hpw, slice_mid]
      refine ⟨hn, ?_⟩
      rcases hnum rfl with rfl | ⟨d, r, rfl, hd⟩
      · left
        simp
        omega
      · right
        refine ⟨d, ?_, hd⟩
        have : (pre ++ ws ++ (c :: cs ++ d :: r)) = (pre ++ ws ++ (c :: cs)) ++ d :: r := by simp
        rw [this]
        have hl : (pre ++ ws).length + (c :: cs).length = (pre ++ ws ++ (c :: cs)).length := by
          simp
          omega
        rw [hl]
        exact getElem?_mid _ _ _
    rw [List.cons_append, next_loop_number _ _ _ _ _ _ (by simp; omega) hc]
    have hgoal : lexeme_token pre.length ⟨ws, JST_NUMBER, c :: cs⟩ =
        ⟨JST_NUMBER, pre.length + ws.length, (c :: cs).length⟩ := by
      simp [lexeme_token]
    rw [hgoal]
    exact key
  | string body hbody =>
    have key : scan_string (scannerOf (pre ++ (ws ++ (34 :: (body ++ [34]) ++ rest))))
        (pre.length + ws.length + 1) =
        some ⟨JST_STRING, pre.length + ws.length + 1, body.length⟩ := by
      rw [scan_string_iff_body _ _ _ hL]
      have hb : pre ++ (ws ++ (34 :: (body ++ [34]) ++ rest)) =
          (pre ++ ws ++ [34]) ++ (body ++ 34 :: rest) := by simp
      have hl : pre.length + ws.length + 1 = (pre ++ ws ++ [34]).length := by simp; omega
      rw [hb, hl, slice_mid]
      refine ⟨hbody, ?_⟩
      have : (pre ++ ws ++ [34]) ++ (body ++ 34 :: rest) =
          (pre ++ ws ++ [34] ++ body) ++ 34 :: rest := by
        simp
      rw [this]
      have hl2 : (pre ++ ws ++ [34]).length + body.length =
          (pre ++ ws ++ [34] ++ body).length := by
        simp
        omega
      rw [hl2]
      exact getElem?_mid _ _ _
    rw [List.cons_append, next_loop_string _ _ _ _ _ (by simp; omega)]
    have hgoal : lexeme_token pre.length ⟨ws, JST_STRING, 34 :: (body ++ [34])⟩ =
        ⟨JST_STRING, pre.length + ws.length + 1, body.length⟩ := by
      simp [lexeme_token]
    rw [hgoal]
    exact key
theorem lexeme_token_resume (off : Nat) (ws text : List Nat) (k : JsonTokenType)
    (hwf : WfLexeme k text) :
    (lexeme_token off ⟨ws, k, text⟩).type ≠ JST_EOF ∧
    resume (lexeme_token off ⟨ws, k, text⟩) = off + ws.length + text.length := by
  cases hwf <;>
    simp [lexeme_token, resume, lit_true, lit_false, lit_null] <;> omega

theorem next_done (b : List Nat) (pre trail : List Nat) (t : JsonToken) (hb : b = pre ++ trail)
    (hL : b.length < SIZE_MOD) (ht : t.type ≠ JST_EOF) (hr : resume t = pre.length)
    (hws : AllWhitespace trail) :
    json_scanner_next (scannerOf b) t = some ⟨JST_EOF, pre.length, trail.length⟩ := by
  subst hb
  rw [next_eq _ t hL ht (by rw [hr]; simp), hr]
  have hdrop : (pre ++ trail).drop pre.length = trail ++ [] := by simp
  rw [hdrop, next_loop_ws _ _ _ trail 0 [] hws (by simp)]
  rw [next_loop_done _ _ _ _ _ (by simp)]
  simp

theorem scan_tokens_render : ∀ (ls : List Lexeme) (trail pre : List Nat) (t : JsonToken),
    WellFormed ls trail → (pre ++ render ls trail).length < SIZE_MOD →
    t.type ≠ JST_EOF → resume t = pre.length →
    scan_tokens (scannerOf (pre ++ render ls trail)) (ls.length + 1) t =
      some (expected_tokens pre.length ls ++
        [⟨JST_EOF, (pre ++ render ls trail).length - trail.length, trail.length⟩]) := by
  intro ls
  induction ls with
  | nil =>
    intro trail pre t hwf hL ht hr
    simp only [render] at hL ⊢
    have h := next_done (pre ++ trail) pre trail t rfl hL ht hr hwf
    simp [scan_tokens, h, expected_tokens]
  | cons l ls ih =>
    intro trail pre t hwf hL ht hr
    obtain ⟨ws, k, text⟩ := l
    obtain ⟨hws, hlex, hnum, hrest⟩ := hwf
    simp only [render] at hL ⊢
    have hnext := next_lexeme pre ws text (render ls trail) k t hL ht hr hws hlex hnum
    obtain ⟨htype, hres⟩ := lexeme_token_resume pre.length ws text k hlex
    have hb : pre ++ (ws ++ (text ++ render ls trail)) =
        (pre ++ ws ++ text) ++ render ls trail := by simp
    have hlen : (pre ++ ws ++ text).length = pre.length + ws.length + text.length := by
      simp
      omega
    have hL2 : ((pre ++ ws ++ text) ++ render ls trail).length < SIZE_MOD := by
      rw [← hb]
      exact hL
    have hih := ih trail (pre ++ ws ++ text) _ hrest hL2 htype (by rw [hres, hlen])
    simp only [List.length_cons]
    rw [scan_tokens, hnext]
    simp only
    rw [hb, hih, hlen]
    simp [expected_tokens]

theorem token_text_render : ∀ (ls : List Lexeme) (trail pre : List Nat),
    WellFormed ls trail →
    (expected_tokens pre.length ls).map (token_text (pre ++ render ls trail)) =
      ls.map lexeme_span := by
  intro ls
  induction ls with
  | nil => intro trail pre _; simp [expected_tokens]
  | cons l ls ih =>
    intro trail pre hwf
    obtain ⟨ws, k, text⟩ := l
    obtain ⟨hws, hlex, hnum, hrest⟩ := hwf
    have hb : pre ++ render (⟨ws, k, text⟩ :: ls) trail =
        (pre ++ ws ++ text) ++ render ls trail := by simp [render]
    have hlen : (pre ++ ws ++ text).length = pre.length + ws.length + text.length := by
      simp
      omega
    have hih := ih trail (pre ++ ws ++ text) hrest
    rw [hlen] at hih
    simp only [expected_tokens, List.map_cons]
    rw [hb, hih]
    congr 1
    by_cases hk : k = JST_STRING
    · subst hk
      cases hlex with
      | string body hbody => ?_
      have e1 : pre ++ ws ++ (34 :: (body ++ [34])) ++ render ls trail =
          (pre ++ ws ++ [34]) ++ (body ++ (34 :: render ls trail)) := by simp
      have e2 : pre.length + ws.length + 1 = (pre ++ ws ++ [34]).length := by simp; omega
      simp only [token_text, lexeme_token, lexeme_span, if_true]
      have e3 : (34 :: (body ++ [34])).length - 2 = body.length := by simp
      rw [e3, e1, e2, slice_mid]
      simp
    · have e1 : pre ++ ws ++ text ++ render ls trail =
          (pre ++ ws) ++ (text ++ render ls trail) := by simp
      have e2 : pre.length + ws.length = (pre ++ ws).length := by simp
      simp only [token_text, lexeme_token, lexeme_span, hk, if_false]
      rw [e1, e2, slice_mid]

/-- C1: for an input made of well-formed lexemes, each after any amount of whitespace, with
trailing whitespace, in which every number is directly followed by a delimiter or the end
of the input, the calls of `json_scanner_next` from the `JST_BEGIN` token return one token
per lexeme, in order, each with the kind of its lexeme and spanning the text of its lexeme
(for a string the text between the quotes), and the next call returns `JST_EOF`. -/
theorem scan_wellformed_input (ls : List Lexeme) (trail : List Nat)
    (hwf : WellFormed ls trail) (hL : (render ls trail).length < SIZE_MOD) :
    scan_tokens (scannerOf (render ls trail)) (ls.length + 1) beginToken =
      some (expected_tokens 0 ls ++
        [⟨JST_EOF, (render ls trail).length - trail.length, trail.length⟩]) ∧
    (expected_tokens 0 ls).map JsonToken.type = ls.map Lexeme.kind ∧
    (expected_tokens 0 ls).map (token_text (render ls trail)) = ls.map lexeme_span := by
  refine ⟨?_, ?_, ?_⟩
  · have h := scan_tokens_render ls trail [] beginToken hwf (by simpa using hL)
      (by simp [beginToken, json_scanner_init]) (by simp [resume, beginToken, json_scanner_init])
    simpa using h
  · generalize 0 = off
    induction ls generalizing off with
    | nil => simp [expected_tokens]
    | cons l ls ih =>
      simp only [expected_tokens, List.map_cons]
      rw [ih hwf.2.2.2 (by
        have : (render (l :: ls) trail).length = l.ws.length + l.text.length + (render ls trail).length := by
          simp [render]; omega
        omega)]
      congr 1
      simp only [lexeme_token]
      split_ifs with hk
      · exact hk.symm
      · rfl
  · have h := token_text_render ls trail [] hwf
    simpa using h
theorem allWhitespace_nil : AllWhitespace [] := by
  intro c hc
  simp at hc

theorem allWhitespace_one {c : Nat} (h : is_whitespace c = true) : AllWhitespace [c] := by
  intro x hx
  simp at hx
  subst hx
  exact h

theorem sample_wellFormed : WellFormed sample_lexemes [10] := by
  refine ⟨allWhitespace_nil, ?_, (fun h => absurd h (by decide)), allWhitespace_nil, ?_, ?_,
    allWhitespace_nil, ?_, (fun h => absurd h (by decide)), allWhitespace_one rfl, ?_, (fun h => absurd h (by decide)),
    allWhitespace_one rfl, ?_, (fun h => absurd h (by decide)), allWhitespace_nil, ?_,
    (fun h => absurd h (by decide)), allWhitespace_one rfl⟩
  · exact WfLexeme.array_open
  · exact WfLexeme.number _ ((jsonNumber_iff_run _).2 ⟨STATE_DIGIT_1, rfl, rfl⟩)
  · intro _
    exact Or.inr ⟨44, _, rfl, rfl⟩
  · exact WfLexeme.comma
  · exact WfLexeme.string [97, 92, 110] (StringBody.plain 97 _ (by decide) (by decide)
      (StringBody.simple 110 _ (by unfold SimpleEscape; decide) StringBody.nil))
  · exact WfLexeme.true_lit
  · exact WfLexeme.array_close

/-- C1, witness: the sixteen-byte input `[1, "a\n" true]` with a final line feed scans as
`[`, the number `1`, `,`, the string body `a\n`, `true`, `]` and then `JST_EOF`. -/
theorem scan_wellformed_input_witness :
    WellFormed sample_lexemes [10] ∧ (render sample_lexemes [10]).length < SIZE_MOD ∧
    render sample_lexemes [10] =
      [91, 49, 44, 32, 34, 97, 92, 110, 34, 32, 116, 114, 117, 101, 93, 10] ∧
    scan_tokens (scannerOf (render sample_lexemes [10])) 7 beginToken =
      some [⟨JST_ARRAY_OPEN, 0, 1⟩, ⟨JST_NUMBER, 1, 1⟩, ⟨JST_COMMA, 2, 1⟩, ⟨JST_STRING, 5, 3⟩,
        ⟨JST_TRUE, 10, 4⟩, ⟨JST_ARRAY_CLOSE, 14, 1⟩, ⟨JST_EOF, 15, 1⟩] :=
  ⟨sample_wellFormed, by decide, rfl,
    (scan_wellformed_input sample_lexemes [10] sample_wellFormed (by decide)).1⟩
theorem next_loop_nonws (scanner : JsonScanner) (s remaining i c : Nat) (cs : List Nat)
    (h : i < remaining) (hc : is_whitespace c = false) :
    next_loop scanner s remaining i (c :: cs) = dispatch scanner s remaining i c cs := by
  rw [next_loop.eq_def]
  simp only [h, if_true, hc, dispatch]
  rfl

theorem next_loop_oob (scanner : JsonScanner) (s remaining i : Nat) (h : i < remaining) :
    next_loop scanner s remaining i [] = none := by
  rw [next_loop.eq_def]
  simp [h]

theorem ws_split : ∀ rest : List Nat, AllWhitespace rest ∨
    ∃ ws c cs, rest = ws ++ c :: cs ∧ AllWhitespace ws ∧ is_whitespace c = false := by
  intro rest
  induction rest with
  | nil => exact Or.inl allWhitespace_nil
  | cons c cs ih =>
    cases hc : is_whitespace c with
    | false => exact Or.inr ⟨[], c, cs, rfl, allWhitespace_nil, hc⟩
    | true =>
      rcases ih with h | ⟨ws, d, ds, rfl, hws, hd⟩
      · left
        intro x hx
        simp at hx
        rcases hx with rfl | hx
        · exact hc
        · exact h x hx
      · right
        refine ⟨c :: ws, d, ds, rfl, ?_, hd⟩
        intro x hx
        simp at hx
        rcases hx with rfl | hx
        · exact hc
        · exact hws x hx

theorem next_of_split (b : List Nat) (p : JsonToken) (ws : List Nat) (c : Nat)
    (cs : List Nat) (hL : b.length < SIZE_MOD) (hne : p.type ≠ JST_EOF)
    (hr : resume p ≤ b.length) (hsplit : b.drop (resume p) = ws ++ c :: cs)
    (hws : AllWhitespace ws) (hc : is_whitespace c = false) :
    json_scanner_next (scannerOf b) p =
      dispatch (scannerOf b) (resume p) (b.length - resume p) ws.length c cs := by
  have hlen := congrArg List.length hsplit
  simp at hlen
  rw [next_eq b p hL hne hr, hsplit,
    next_loop_ws _ _ _ ws 0 (c :: cs) hws (by omega), Nat.zero_add,
    next_loop_nonws _ _ _ _ _ _ (by omega) hc]

theorem next_of_ws (b : List Nat) (p : JsonToken) (hL : b.length < SIZE_MOD)
    (hne : p.type ≠ JST_EOF) (hr : resume p ≤ b.length)
    (hws : AllWhitespace (b.drop (resume p))) :
    json_scanner_next (scannerOf b) p = some ⟨JST_EOF, resume p, b.length - resume p⟩ := by
  have h := next_done b (b.take (resume p)) (b.drop (resume p)) p
    (List.take_append_drop _ _).symm hL hne (by simp [hr]) hws
  rw [h]
  simp [hr]

theorem next_past (b : List Nat) (p t : JsonToken) (hne : p.type ≠ JST_EOF)
    (hr : b.length < resume p) (h : json_scanner_next (scannerOf b) p = some t) :
    t.type = JST_EOF := by
  simp only [json_scanner_next, hne, if_false, scannerOf, json_scanner_init] at h
  rw [List.drop_eq_nil_of_le (by omega)] at h
  by_cases h0 : 0 < size_sub b.length (resume p)
  · rw [next_loop_oob _ _ _ _ h0] at h
    simp at h
  · rw [next_loop_done _ _ _ _ _ h0] at h
    simp at h
    rw [← h]

/-- What a call of `json_scanner_next` on a token that is not `JST_EOF` comes to: the
resume offset lies inside the buffer, and either only whitespace is left and the token is
`JST_EOF`, or the first byte that is not whitespace is dispatched on. -/
theorem next_inv (b : List Nat) (p t : JsonToken) (hL : b.length < SIZE_MOD)
    (hne : p.type ≠ JST_EOF) (h : json_scanner_next (scannerOf b) p = some t) :
    t.type = JST_EOF ∨
    (resume p ≤ b.length ∧ ∃ ws c cs, b.drop (resume p) = ws ++ c :: cs ∧ AllWhitespace ws ∧
      is_whitespace c = false ∧
      dispatch (scannerOf b) (resume p) (b.length - resume p) ws.length c cs = some t) := by
  rcases Nat.lt_or_ge b.length (resume p) with hr | hr
  · exact Or.inl (next_past b p t hne hr h)
  · rcases ws_split (b.drop (resume p)) with hws | ⟨ws, c, cs, hsplit, hws, hc⟩
    · rw [next_of_ws b p hL hne hr hws] at h
      simp at h
      left
      rw [← h]
    · right
      rw [next_of_split b p ws c cs hL hne hr hsplit hws hc] at h
      exact ⟨hr, ws, c, cs, hsplit, hws, hc, h⟩
theorem hex_run_eq_four {l : List Nat} (h : hex_run l = 4) :
    ∃ h1 h2 h3 h4 t, l = h1 :: h2 :: h3 :: h4 :: t ∧ isxdigit h1 = true ∧ isxdigit h2 = true ∧
      isxdigit h3 = true ∧ isxdigit h4 = true := by
  unfold hex_run at h
  rcases l with _ | ⟨h1, _ | ⟨h2, _ | ⟨h3, _ | ⟨h4, t⟩⟩⟩⟩
  · simp at h
  · cases x1 : isxdigit h1 <;> simp [List.takeWhile, x1] at h
  · cases x1 : isxdigit h1 <;> cases x2 : isxdigit h2 <;> simp [List.takeWhile, x1, x2] at h
  · cases x1 : isxdigit h1 <;> cases x2 : isxdigit h2 <;> cases x3 : isxdigit h3 <;>
      simp [List.takeWhile, x1, x2, x3] at h
  · cases x1 : isxdigit h1 <;> cases x2 : isxdigit h2 <;> cases x3 : isxdigit h3 <;>
      cases x4 : isxdigit h4 <;> simp [List.takeWhile, x1, x2, x3, x4] at h
    exact ⟨h1, h2, h3, h4, t, rfl, x1, x2, x3, x4⟩

theorem hex_run_four (h1 h2 h3 h4 : Nat) (t : List Nat) (x1 : isxdigit h1 = true)
    (x2 : isxdigit h2 = true) (x3 : isxdigit h3 = true) (x4 : isxdigit h4 = true) :
    hex_run (h1 :: h2 :: h3 :: h4 :: t) = 4 := by
  simp [hex_run, List.takeWhile, x1, x2, x3, x4]

theorem hex_run_le (l : List Nat) : hex_run l ≤ 4 ∧ hex_run l ≤ l.length := by
  unfold hex_run
  have h1 := (List.takeWhile_sublist (l := l.take 4) isxdigit).length_le
  have h2 : (l.take 4).length ≤ 4 := by simp
  have h3 : (l.take 4).length ≤ l.length := by simp
  omega

/-- The `u` case of `scan_string` when the escape is not a valid one: the token is
`JST_ERR_BAD_ESCAPE` if the guard `i + 4 > remaining` holds or a byte that is not a hex
digit is met, and the scan reads past the buffer if the buffer ends first. -/
theorem scan_string_loop_u_bad (start remaining i : Nat) (cs : List Nat) (hi : i < remaining)
    (hrun : hex_run cs < 4) :
    scan_string_loop start remaining i true (117 :: cs) =
      if i + 4 > remaining ∨ hex_run cs < cs.length then
        some ⟨JST_ERR_BAD_ESCAPE, start, i⟩
      else none := by
  rw [scan_string_loop.eq_def]
  have hu : ¬ (117 = 34 ∨ 117 = 92 ∨ 117 = 47 ∨ 117 = 98 ∨ 117 = 102 ∨ 117 = 110 ∨
      117 = 114 ∨ 117 = 116) := by omega
  simp only [hi, if_true, hu, if_false]
  by_cases h4 : i + 4 > remaining
  · simp [h4]
  · simp only [h4, if_false, false_or]
    unfold hex_run at hrun ⊢
    rcases cs with _ | ⟨h1, _ | ⟨h2, _ | ⟨h3, _ | ⟨h4, t⟩⟩⟩⟩
    · simp
    · cases x1 : isxdigit h1 <;> simp [List.takeWhile, x1]
    · cases x1 : isxdigit h1 <;> cases x2 : isxdigit h2 <;> simp [List.takeWhile, x1, x2]
    · cases x1 : isxdigit h1 <;> cases x2 : isxdigit h2 <;> cases x3 : isxdigit h3 <;>
        simp [List.takeWhile, x1, x2, x3]
    · cases x1 : isxdigit h1 <;> cases x2 : isxdigit h2 <;> cases x3 : isxdigit h3 <;>
        cases x4 : isxdigit h4 <;> simp [List.takeWhile, x1, x2, x3, x4] at hrun ⊢

theorem scan_string_loop_other (start remaining i e : Nat) (cs : List Nat)
    (hi : i < remaining) (he : ¬ SimpleEscape e) (hu : e ≠ 117) :
    scan_string_loop start remaining i true (e :: cs) =
      some ⟨JST_ERR_BAD_ESCAPE, start, i⟩ := by
  rw [scan_string_loop.eq_def]
  unfold SimpleEscape at he
  simp [hi, he, hu]
theorem string_split : ∀ (m : Nat) (rest : List Nat), rest.length ≤ m →
    ∃ body tail, rest = body ++ tail ∧ StringBody body ∧ StringStop tail := by
  intro m
  induction m with
  | zero =>
    intro rest hm
    have hr : rest = [] := List.length_eq_zero.1 (by omega)
    exact ⟨[], [], by simp [hr], StringBody.nil, Or.inl rfl⟩
  | succ m ih =>
    intro rest hm
    cases rest with
    | nil => exact ⟨[], [], rfl, StringBody.nil, Or.inl rfl⟩
    | cons c cs =>
      simp at hm
      by_cases hq : c = 34
      · exact ⟨[], c :: cs, rfl, StringBody.nil, Or.inr (Or.inl ⟨cs, by rw [hq]⟩)⟩
      by_cases hb : c = 92
      · subst hb
        cases cs with
        | nil => exact ⟨[], [92], rfl, StringBody.nil, Or.inr (Or.inr (Or.inl rfl))⟩
        | cons e tl =>
          simp at hm
          by_cases he : SimpleEscape e
          · obtain ⟨body, tail, rfl, hbody, hstop⟩ := ih tl (by omega)
            exact ⟨92 :: e :: body, tail, rfl, StringBody.simple e body he hbody, hstop⟩
          by_cases hrun : e = 117 ∧ hex_run tl = 4
          · obtain ⟨rfl, hfour⟩ := hrun
            obtain ⟨h1, h2, h3, h4, t, rfl, x1, x2, x3, x4⟩ := hex_run_eq_four hfour
            simp at hm
            obtain ⟨body, tail, rfl, hbody, hstop⟩ := ih t (by omega)
            exact ⟨92 :: 117 :: h1 :: h2 :: h3 :: h4 :: body, tail, rfl,
              StringBody.unicode h1 h2 h3 h4 body x1 x2 x3 x4 hbody, hstop⟩
          · refine ⟨[], 92 :: e :: tl, rfl, StringBody.nil, Or.inr (Or.inr (Or.inr
              ⟨e, tl, rfl, he, ?_⟩))⟩
            intro hu
            have := (hex_run_le tl).1
            have hne : hex_run tl ≠ 4 := fun h => hrun ⟨hu, h⟩
            omega
      · obtain ⟨body, tail, rfl, hbody, hstop⟩ := ih cs (by omega)
        exact ⟨c :: body, tail, rfl, StringBody.plain c body hq hb hbody, hstop⟩

theorem scan_string_loop_skip (start : Nat) : ∀ body : List Nat, StringBody body →
    ∀ (tail : List Nat) (i remaining : Nat), i + body.length ≤ remaining →
      scan_string_loop start remaining i false (body ++ tail) =
        scan_string_loop start remaining (i + body.length) false tail := by
  intro body hbody
  induction hbody with
  | nil =>
    intro tail i remaining _
    simp
  | plain c rest h1 h2 _ ih =>
    intro tail i remaining h
    simp at h
    rw [List.cons_append, scan_string_loop_plain _ _ _ _ _ (by omega) h1 h2,
      ih tail (i + 1) remaining (by omega)]
    congr 1
    simp
    omega
  | simple c rest hc _ ih =>
    intro tail i remaining h
    simp at h
    rw [List.cons_append, List.cons_append, scan_string_loop_backslash _ _ _ _ (by omega),
      scan_string_loop_simple _ _ _ _ _ (by omega) hc, ih tail (i + 1 + 1) remaining (by omega)]
    congr 1
    simp
    omega
  | unicode h1 h2 h3 h4 rest x1 x2 x3 x4 _ ih =>
    intro tail i remaining h
    simp at h
    simp only [List.cons_append]
    rw [scan_string_loop_backslash _ _ _ _ (by omega),
      scan_string_loop_unicode _ _ _ _ _ _ _ _ (by omega) (by omega) x1 x2 x3 x4,
      ih tail (i + 1 + 4 + 1) remaining (by omega)]
    congr 1
    simp
    omega

/-- The token of `scan_string` at a backslash that starts no valid escape. -/
theorem scan_string_loop_bad (start remaining j e : Nat) (tl : List Nat)
    (hj : j + 1 < remaining) (he : ¬ SimpleEscape e) (hrun : e = 117 → hex_run tl < 4) :
    scan_string_loop start remaining j false (92 :: e :: tl) =
      if e ≠ 117 ∨ j + 1 + 4 > remaining ∨ hex_run tl < tl.length then
        some ⟨JST_ERR_BAD_ESCAPE, start, j + 1⟩
      else none := by
  rw [scan_string_loop_backslash _ _ _ _ (by omega)]
  by_cases hu : e = 117
  · subst hu
    rw [scan_string_loop_u_bad _ _ _ _ hj (hrun rfl)]
    simp
  · rw [scan_string_loop_other _ _ _ _ _ hj he hu]
    simp [hu]

/-- Every result of the loop of `scan_string`, for a loop that starts outside an escape
with `remaining` counting the bytes left: the bytes split into a string body and the place
where the scan stops, and the place decides the token. -/
theorem scan_string_loop_class (start : Nat) (rest : List Nat) (i : Nat) (t : JsonToken)
    (h : scan_string_loop start (i + rest.length) i false rest = some t) :
    ∃ body tail, rest = body ++ tail ∧ StringBody body ∧
      (((∃ tl, tail = 34 :: tl) ∧ t = ⟨JST_STRING, start, i + body.length⟩) ∨
        ((tail = [] ∨ tail = [92]) ∧ t = ⟨JST_ERR_INCOMPLETE, start, i + rest.length⟩) ∨
        ((∃ e tl, tail = 92 :: e :: tl ∧ ¬ SimpleEscape e ∧ (e = 117 → hex_run tl < 4) ∧
            (e ≠ 117 ∨ tl.length < 3 ∨ hex_run tl < tl.length)) ∧
          t = ⟨JST_ERR_BAD_ESCAPE, start, i + body.length + 1⟩)) := by
  obtain ⟨body, tail, rfl, hbody, hstop⟩ := string_split rest.length rest (le_refl _)
  refine ⟨body, tail, rfl, hbody, ?_⟩
  rw [scan_string_loop_skip start body hbody tail i _ (by simp)] at h
  have hlen : i + (body ++ tail).length = i + body.length + tail.length := by
    simp
    omega
  rw [hlen] at h ⊢
  rcases hstop with rfl | ⟨tl, rfl⟩ | rfl | ⟨e, tl, rfl, he, hrun⟩
  · rw [scan_string_loop_done _ _ _ _ _ (by simp)] at h
    right; left
    simp at h ⊢
    exact h.symm
  · rw [scan_string_loop_quote _ _ _ _ (by simp)] at h
    left
    simp at h
    exact ⟨⟨tl, rfl⟩, h.symm⟩
  · rw [scan_string_loop_backslash _ _ _ _ (by simp),
      scan_string_loop_done _ _ _ _ _ (by simp)] at h
    right; left
    simp at h ⊢
    exact h.symm
  · rw [scan_string_loop_bad _ _ _ _ _ (by simp) he hrun] at h
    right; right
    split_ifs at h with hc
    simp at h
    refine ⟨⟨e, tl, rfl, he, hrun, ?_⟩, h.symm⟩
    rcases hc with hc | hc | hc
    · exact Or.inl hc
    · right; left
      simp at hc
      omega
    · exact Or.inr (Or.inr hc)
theorem num_split : ∀ (rest : List Nat) (st : State),
    (∃ st2, num_run st rest = some st2) ∨
    ∃ w c tail st2, rest = w ++ c :: tail ∧ num_run st w = some st2 ∧ num_step st2 c = none := by
  intro rest
  induction rest with
  | nil => intro st; exact Or.inl ⟨st, rfl⟩
  | cons c cs ih =>
    intro st
    cases hstep : num_step st c with
    | none => exact Or.inr ⟨[], c, cs, st, rfl, rfl, hstep⟩
    | some st1 =>
      rcases ih st1 with ⟨st2, h⟩ | ⟨w, d, tail, st2, rfl, hrun, hd⟩
      · left
        exact ⟨st2, by rw [num_run_cons_some _ hstep]; exact h⟩
      · right
        exact ⟨c :: w, d, tail, st2, rfl, by rw [num_run_cons_some _ hstep]; exact hrun, hd⟩

/-- Every result of the loop of `scan_number` when `remaining` counts the bytes left: the
machine runs to the end of the buffer, or it stops at the first byte it has no move for. -/
theorem scan_number_loop_class (start : Nat) (rest : List Nat) (st : State) (i : Nat) :
    (∃ st2, num_run st rest = some st2 ∧
      scan_number_loop start (i + rest.length) st i rest =
        if accepting st2 then some ⟨JST_NUMBER, start, i + rest.length⟩
        else some ⟨JST_ERR_INCOMPLETE, start, i + rest.length⟩) ∨
    ∃ w c tail st2, rest = w ++ c :: tail ∧ num_run st w = some st2 ∧ num_step st2 c = none ∧
      scan_number_loop start (i + rest.length) st i rest =
        if accepting st2 = true ∧ is_number_delim c = true then
          some ⟨JST_NUMBER, start, i + w.length⟩
        else some ⟨JST_ERR_UNEXPECTED, start + (i + w.length), 1⟩ := by
  rcases num_split rest st with ⟨st2, hrun⟩ | ⟨w, c, tail, st2, hsplit, hrun, hstep⟩
  · exact Or.inl ⟨st2, hrun, loop_exhausted start rest st st2 i hrun⟩
  · refine Or.inr ⟨w, c, tail, st2, hsplit, hrun, hstep, ?_⟩
    by_cases hc : accepting st2 = true ∧ is_number_delim c = true
    · rw [if_pos hc, loop_number_iff]
      exact ⟨w, c :: tail, hsplit, rfl, ⟨st2, hrun, hc.1⟩, Or.inr ⟨c, tail, rfl, hc.2⟩⟩
    · rw [if_neg hc]
      exact ((loop_unexpected_iff start rest st i _).2
        ⟨w, c, tail, st2, hsplit, rfl, hrun, hstep, hc⟩).1

theorem num_run_start_nonempty {w : List Nat} {st : State}
    (h : num_run STATE_START w = some st) (hacc : accepting st = true) : w ≠ [] := by
  intro hw
  subst hw
  simp [num_run] at h
  subst h
  simp [accepting] at hacc

/-- The tokens `scan_number` returns when started at a byte of the buffer: a number of at
least one byte inside the buffer, an incomplete number running to the end of the buffer,
or an unexpected byte of the buffer. -/
theorem scan_number_tokens (b : List Nat) (q : Nat) (hL : b.length < SIZE_MOD)
    (hq : q < b.length) :
    ∃ t, scan_number (scannerOf b) q = some t ∧
      ((t.type = JST_NUMBER ∧ t.start = q ∧ 0 < t.len ∧ q + t.len ≤ b.length) ∨
        (t.type = JST_ERR_INCOMPLETE ∧ t.start = q ∧ q + t.len = b.length) ∨
        (t.type = JST_ERR_UNEXPECTED ∧ q ≤ t.start ∧ t.start < b.length ∧ t.len = 1)) := by
  rw [scan_number_eq b q hL (by omega)]
  have hlen : (b.drop q).length = b.length - q := by simp
  rcases scan_number_loop_class q (b.drop q) STATE_START 0 with
    ⟨st2, hrun, h⟩ | ⟨w, c, tail, st2, hsplit, hrun, hstep, h⟩
  · rw [h]
    by_cases hacc : accepting st2 = true
    · rw [if_pos hacc]
      exact ⟨_, rfl, Or.inl ⟨rfl, rfl, by simp; omega, by simp; omega⟩⟩
    · rw [if_neg hacc]
      exact ⟨_, rfl, Or.inr (Or.inl ⟨rfl, rfl, by simp; omega⟩)⟩
  · rw [h]
    have hl := congrArg List.length hsplit
    simp at hl
    by_cases hc : accepting st2 = true ∧ is_number_delim c = true
    · rw [if_pos hc]
      have hw := num_run_start_nonempty hrun hc.1
      have hwl : 0 < w.length := List.length_pos.2 hw
      exact ⟨_, rfl, Or.inl ⟨rfl, rfl, by simp; omega, by simp; omega⟩⟩
    · rw [if_neg hc]
      exact ⟨_, rfl, Or.inr (Or.inr ⟨rfl, by simp, by simp; omega, rfl⟩)⟩
theorem scan_string_class (b : List Nat) (a : Nat) (t : JsonToken) (hL : b.length < SIZE_MOD)
    (ha : a ≤ b.length) (h : scan_string (scannerOf b) a = some t) :
    ∃ body tail, b.drop a = body ++ tail ∧ StringBody body ∧
      (((∃ tl, tail = 34 :: tl) ∧ t = ⟨JST_STRING, a, body.length⟩) ∨
        ((tail = [] ∨ tail = [92]) ∧ t = ⟨JST_ERR_INCOMPLETE, a, b.length - a⟩) ∨
        ((∃ e tl, tail = 92 :: e :: tl ∧ ¬ SimpleEscape e ∧ (e = 117 → hex_run tl < 4) ∧
            (e ≠ 117 ∨ tl.length < 3 ∨ hex_run tl < tl.length)) ∧
          t = ⟨JST_ERR_BAD_ESCAPE, a, body.length + 1⟩)) := by
  rw [scan_string_eq b a hL ha] at h
  have hlen : b.length - a = 0 + (b.drop a).length := by simp
  rw [hlen] at h
  obtain ⟨body, tail, hsplit, hbody, hform⟩ := scan_string_loop_class a (b.drop a) 0 t h
  refine ⟨body, tail, hsplit, hbody, ?_⟩
  rw [hlen]
  simpa using hform

/-- The tokens `scan_string` returns when started inside the buffer or at its end: a string
closed by a quote of the buffer, an incomplete string running to the end of the buffer, or a
bad escape, whose span holds at least the backslash and ends inside the buffer. -/
theorem scan_string_tokens (b : List Nat) (a : Nat) (t : JsonToken) (hL : b.length < SIZE_MOD)
    (ha : a ≤ b.length) (h : scan_string (scannerOf b) a = some t) :
    t.start = a ∧
    ((t.type = JST_STRING ∧ a + t.len < b.length) ∨
      (t.type = JST_ERR_INCOMPLETE ∧ a + t.len = b.length) ∨
      (t.type = JST_ERR_BAD_ESCAPE ∧ 0 < t.len ∧ a + t.len < b.length)) := by
  obtain ⟨body, tail, hsplit, hbody, hform⟩ := scan_string_class b a t hL ha h
  have hl := congrArg List.length hsplit
  simp at hl
  rcases hform with ⟨⟨tl, rfl⟩, rfl⟩ | ⟨_, rfl⟩ | ⟨⟨e, tl, rfl, _⟩, rfl⟩
  · simp at hl
    exact ⟨rfl, Or.inl ⟨rfl, by simp; omega⟩⟩
  · exact ⟨rfl, Or.inr (Or.inl ⟨rfl, by simp; omega⟩)⟩
  · simp at hl
    exact ⟨rfl, Or.inr (Or.inr ⟨rfl, by simp, by simp; omega⟩)⟩

theorem scan_string_incomplete_of_body (b : List Nat) (a : Nat) (hL : b.length < SIZE_MOD)
    (ha : a ≤ b.length)
    (hbody : StringBody (b.drop a) ∨ ∃ body, StringBody body ∧ b.drop a = body ++ [92]) :
    scan_string (scannerOf b) a = some ⟨JST_ERR_INCOMPLETE, a, b.length - a⟩ := by
  rw [scan_string_eq b a hL ha]
  have hlen : (b.drop a).length = b.length - a := by simp
  rcases hbody with hbody | ⟨body, hbody, hsplit⟩
  · have h := scan_string_loop_skip a (b.drop a) hbody [] 0 (b.length - a) (by omega)
    rw [List.append_nil] at h
    rw [h, scan_string_loop_done _ _ _ _ _ (by omega)]
  · have hl := congrArg List.length hsplit
    simp at hl
    rw [hsplit, scan_string_loop_skip a body hbody [92] 0 (b.length - a) (by omega),
      scan_string_loop_backslash _ _ _ _ (by omega),
      scan_string_loop_done _ _ _ _ _ (by omega)]

/-- C16: when the bytes from offset `a`, just after an opening quote, to the end of the
buffer are a string body (plain bytes and valid escapes, so no unescaped quote), or such a
body followed by a last backslash, the string sub-scanner returns `JST_ERR_INCOMPLETE` with
offset `a` and the number of bytes from `a` to the end of the buffer as length. -/
theorem scan_string_incomplete (b : List Nat) (a : Nat) (hL : b.length < SIZE_MOD)
    (ha : a ≤ b.length)
    (hbody : StringBody (b.drop a) ∨ ∃ body, StringBody body ∧ b.drop a = body ++ [92]) :
    scan_string (scannerOf b) a = some ⟨JST_ERR_INCOMPLETE, a, b.length - a⟩ :=
  scan_string_incomplete_of_body b a hL ha hbody

/-- C16, witness: the unterminated string `"a\n` of a four-byte buffer. -/
theorem scan_string_incomplete_witness :
    [34, 97, 92, 110].length < SIZE_MOD ∧ 1 ≤ [34, 97, 92, 110].length ∧
    StringBody (List.drop 1 [34, 97, 92, 110]) ∧
    scan_string (scannerOf [34, 97, 92, 110]) 1 = some ⟨JST_ERR_INCOMPLETE, 1, 3⟩ :=
  have hbody : StringBody (List.drop 1 [34, 97, 92, 110]) :=
    StringBody.plain 97 _ (by decide) (by decide)
      (StringBody.simple 110 _ (by unfold SimpleEscape; decide) StringBody.nil)
  ⟨by decide, by decide, hbody,
    scan_string_incomplete [34, 97, 92, 110] 1 (by decide) (by decide) (Or.inl hbody)⟩
theorem dispatch_class (scanner : JsonScanner) (s remaining i c : Nat) (cs : List Nat)
    (t : JsonToken) (h : dispatch scanner s remaining i c cs = some t) :
    (t.start = s + i ∧ t.len = 1 ∧
      ((c = 44 ∧ t.type = JST_COMMA) ∨ (c = 58 ∧ t.type = JST_COLON) ∨
        (c = 123 ∧ t.type = JST_OBJECT_OPEN) ∨ (c = 125 ∧ t.type = JST_OBJECT_CLOSE) ∨
        (c = 91 ∧ t.type = JST_ARRAY_OPEN) ∨ (c = 93 ∧ t.type = JST_ARRAY_CLOSE))) ∨
    (c = 34 ∧ scan_string scanner (s + i + 1) = some t) ∨
    ((c = 45 ∨ isdigit c = true) ∧ scan_number scanner (s + i) = some t) ∨
    (c = 116 ∧ strncmp_eq lit_true (c :: cs) (min 4 remaining) = some true ∧
      t = ⟨JST_TRUE, s + i, 4⟩) ∨
    (c = 102 ∧ strncmp_eq lit_false (c :: cs) (min 5 remaining) = some true ∧
      t = ⟨JST_FALSE, s + i, 5⟩) ∨
    (c = 110 ∧ strncmp_eq lit_null (c :: cs) (min 4 remaining) = some true ∧
      t = ⟨JST_NULL, s + i, 4⟩) ∨
    (((c = 116 ∧ strncmp_eq lit_true (c :: cs) (min 4 remaining) = some false) ∨
        (c = 102 ∧ strncmp_eq lit_false (c :: cs) (min 5 remaining) = some false) ∨
        (c = 110 ∧ strncmp_eq lit_null (c :: cs) (min 4 remaining) = some false)) ∧
      t = ⟨JST_ERR_UNEXPECTED, s + i, remaining⟩) ∨
    (t = ⟨JST_ERR_UNEXPECTED, s + i, 1⟩ ∧ c ≠ 44 ∧ c ≠ 58 ∧ c ≠ 123 ∧ c ≠ 125 ∧ c ≠ 91 ∧
      c ≠ 93 ∧ c ≠ 34 ∧ c ≠ 45 ∧ c ≠ 116 ∧ c ≠ 102 ∧ c ≠ 110 ∧ isdigit c = false) := by
  unfold dispatch at h
  by_cases h1 : c = 44
  · rw [if_pos h1] at h
    simp at h; subst h; exact Or.inl ⟨rfl, rfl, Or.inl ⟨h1, rfl⟩⟩
  rw [if_neg h1] at h
  by_cases h2 : c = 58
  · rw [if_pos h2] at h
    simp at h; subst h; exact Or.inl ⟨rfl, rfl, Or.inr (Or.inl ⟨h2, rfl⟩)⟩
  rw [if_neg h2] at h
  by_cases h3 : c = 123
  · rw [if_pos h3] at h
    simp at h; subst h; exact Or.inl ⟨rfl, rfl, Or.inr (Or.inr (Or.inl ⟨h3, rfl⟩))⟩
  rw [if_neg h3] at h
  by_cases h4 : c = 125
  · rw [if_pos h4] at h
    simp at h; subst h
    exact Or.inl ⟨rfl, rfl, Or.inr (Or.inr (Or.inr (Or.inl ⟨h4, rfl⟩)))⟩
  rw [if_neg h4] at h
  by_cases h5 : c = 91
  · rw [if_pos h5] at h
    simp at h; subst h
    exact Or.inl ⟨rfl, rfl, Or.inr (Or.inr (Or.inr (Or.inr (Or.inl ⟨h5, rfl⟩))))⟩
  rw [if_neg h5] at h
  by_cases h6 : c = 93
  · rw [if_pos h6] at h
    simp at h; subst h
    exact Or.inl ⟨rfl, rfl, Or.inr (Or.inr (Or.inr (Or.inr (Or.inr ⟨h6, rfl⟩))))⟩
  rw [if_neg h6] at h
  by_cases h7 : c = 34
  · rw [if_pos h7] at h
    exact Or.inr (Or.inl ⟨h7, h⟩)
  rw [if_neg h7] at h
  by_cases h8 : c = 45
  · rw [if_pos h8] at h
    exact Or.inr (Or.inr (Or.inl ⟨Or.inl h8, h⟩))
  rw [if_neg h8] at h
  by_cases h9 : c = 116
  · rw [if_pos h9] at h
    cases hs : strncmp_eq lit_true (c :: cs) (min 4 remaining) with
    | none => rw [hs] at h; simp at h
    | some r =>
      rw [hs] at h
      cases r with
      | true =>
        simp at h
        exact Or.inr (Or.inr (Or.inr (Or.inl ⟨h9, rfl, h.symm⟩)))
      | false =>
        simp at h
        exact Or.inr (Or.inr (Or.inr (Or.inr (Or.inr (Or.inr (Or.inl
          ⟨Or.inl ⟨h9, rfl⟩, h.symm⟩))))))
  rw [if_neg h9] at h
  by_cases h10 : c = 102
  · rw [if_pos h10] at h
    cases hs : strncmp_eq lit_false (c :: cs) (min 5 remaining) with
    | none => rw [hs] at h; simp at h
    | some r =>
      rw [hs] at h
      cases r with
      | true =>
        simp at h
        exact Or.inr (Or.inr (Or.inr (Or.inr (Or.inl ⟨h10, rfl, h.symm⟩))))
      | false =>
        simp at h
        exact Or.inr (Or.inr (Or.inr (Or.inr (Or.inr (Or.inr (Or.inl
          ⟨Or.inr (Or.inl ⟨h10, rfl⟩), h.symm⟩))))))
  rw [if_neg h10] at h
  by_cases h11 : c = 110
  · rw [if_pos h11] at h
    cases hs : strncmp_eq lit_null (c :: cs) (min 4 remaining) with
    | none => rw [hs] at h; simp at h
    | some r =>
      rw [hs] at h
      cases r with
      | true =>
        simp at h
        exact Or.inr (Or.inr (Or.inr (Or.inr (Or.inr (Or.inl ⟨h11, rfl, h.symm⟩)))))
      | false =>
        simp at h
        exact Or.inr (Or.inr (Or.inr (Or.inr (Or.inr (Or.inr (Or.inl
          ⟨Or.inr (Or.inr ⟨h11, rfl⟩), h.symm⟩))))))
  rw [if_neg h11] at h
  by_cases h12 : isdigit c = true
  · rw [if_pos h12] at h
    exact Or.inr (Or.inr (Or.inl ⟨Or.inr h12, h⟩))
  rw [if_neg h12] at h
  simp at h
  simp at h12
  exact Or.inr (Or.inr (Or.inr (Or.inr (Or.inr (Or.inr (Or.inr
    ⟨h.symm, h1, h2, h3, h4, h5, h6, h7, h8, h9, h10, h11, h12⟩))))))
theorem split_index {b : List Nat} {r c : Nat} {ws cs : List Nat}
    (hsplit : b.drop r = ws ++ c :: cs) :
    r + ws.length < b.length ∧ b[r + ws.length]? = some c := by
  have hl := congrArg List.length hsplit
  simp at hl
  refine ⟨by omega, ?_⟩
  apply getElem?_of_drop_cons (t := cs)
  rw [← List.drop_drop, hsplit]
  simp

/-- What a token returned by `json_scanner_next` looks like, `q` being the offset of the
first byte after the resume offset that is not whitespace. -/
theorem next_token_facts (b : List Nat) (p t : JsonToken) (hL : b.length < SIZE_MOD)
    (hne : p.type ≠ JST_EOF) (h : json_scanner_next (scannerOf b) p = some t)
    (hte : t.type ≠ JST_EOF) :
    ∃ q, resume p ≤ q ∧ q < b.length ∧
      ((t.start = q ∧ t.len = 1 ∧
          (t.type = JST_COMMA ∨ t.type = JST_COLON ∨ t.type = JST_OBJECT_OPEN ∨
            t.type = JST_OBJECT_CLOSE ∨ t.type = JST_ARRAY_OPEN ∨ t.type = JST_ARRAY_CLOSE ∨
            t.type = JST_ERR_UNEXPECTED)) ∨
        (b[q]? = some 34 ∧ t.start = q + 1 ∧
          ((t.type = JST_STRING ∧ q + 1 + t.len < b.length ∧
              b[q + 1 + t.len]? = some 34) ∨
            (t.type = JST_ERR_INCOMPLETE ∧ q + 1 + t.len = b.length) ∨
            (t.type = JST_ERR_BAD_ESCAPE ∧ 0 < t.len ∧ q + 1 + t.len < b.length))) ∨
        ((t.type = JST_NUMBER ∧ t.start = q ∧ 0 < t.len ∧ q + t.len ≤ b.length) ∨
          (t.type = JST_ERR_INCOMPLETE ∧ t.start = q ∧ q + t.len = b.length) ∨
          (t.type = JST_ERR_UNEXPECTED ∧ q ≤ t.start ∧ t.start < b.length ∧ t.len = 1)) ∨
        (t.start = q ∧ ((t.type = JST_TRUE ∧ t.len = 4) ∨ (t.type = JST_FALSE ∧ t.len = 5) ∨
          (t.type = JST_NULL ∧ t.len = 4))) ∨
        t = ⟨JST_ERR_UNEXPECTED, q, b.length - resume p⟩) := by
  rcases next_inv b p t hL hne h with heof | ⟨hr, ws, c, cs, hsplit, hws, hc, hd⟩
  · exact absurd heof hte
  obtain ⟨hq, hcq⟩ := split_index hsplit
  refine ⟨resume p + ws.length, by omega, hq, ?_⟩
  rcases dispatch_class _ _ _ _ _ _ _ hd with
    ⟨h1, h2, hk⟩ | ⟨rfl, hs⟩ | ⟨_, hn⟩ | ⟨_, _, rfl⟩ | ⟨_, _, rfl⟩ | ⟨_, _, rfl⟩ |
    ⟨_, rfl⟩ | ⟨rfl, _⟩
  · left
    refine ⟨h1, h2, ?_⟩
    rcases hk with ⟨_, hk⟩ | ⟨_, hk⟩ | ⟨_, hk⟩ | ⟨_, hk⟩ | ⟨_, hk⟩ | ⟨_, hk⟩ <;> simp [hk]
  · right; left
    obtain ⟨hst, hform⟩ := scan_string_tokens b _ t hL (by omega) hs
    refine ⟨hcq, hst, ?_⟩
    rcases hform with ⟨hty, hlen⟩ | ⟨hty, hlen⟩ | ⟨hty, hpos, hlen⟩
    · refine Or.inl ⟨hty, hlen, ?_⟩
      have hs2 : scan_string (scannerOf b) (resume p + ws.length + 1) =
          some ⟨JST_STRING, resume p + ws.length + 1, t.len⟩ := by
        rw [hs]
        congr 1
        cases t
        simp_all
      exact ((scan_string_iff_body b _ _ hL).1 hs2).2
    · exact Or.inr (Or.inl ⟨hty, hlen⟩)
    · exact Or.inr (Or.inr ⟨hty, hpos, hlen⟩)
  · right; right; left
    obtain ⟨t2, ht2, hform⟩ := scan_number_tokens b (resume p + ws.length) hL hq
    rw [hn] at ht2
    simp at ht2
    subst ht2
    exact hform
  · right; right; right; left
    exact ⟨rfl, Or.inl ⟨rfl, rfl⟩⟩
  · right; right; right; left
    exact ⟨rfl, Or.inr (Or.inl ⟨rfl, rfl⟩)⟩
  · right; right; right; left
    exact ⟨rfl, Or.inr (Or.inr ⟨rfl, rfl⟩)⟩
  · right; right; right; right
    rfl
  · left
    exact ⟨rfl, rfl, by simp⟩
theorem index_split (b : List Nat) (r q c : Nat) (hr : r ≤ q) (hq : b[q]? = some c)
    (hws : ∀ j, r ≤ j → j < q → ∃ d, b[j]? = some d ∧ is_whitespace d = true) :
    b.drop r = slice b r q ++ c :: b.drop (q + 1) ∧ AllWhitespace (slice b r q) ∧
      (slice b r q).length = q - r := by
  have hlt := getElem?_lt hq
  refine ⟨?_, ?_, ?_⟩
  · have h1 : b.drop r = (b.drop r).take (q - r) ++ (b.drop r).drop (q - r) :=
      (List.take_append_drop _ _).symm
    have h2 : (b.drop r).drop (q - r) = b.drop q := by
      rw [List.drop_drop]
      congr 1
      omega
    rw [h2, drop_of_getElem? hq] at h1
    exact h1
  · intro x hx
    unfold slice at hx
    obtain ⟨n, hn⟩ := List.mem_iff_getElem?.1 hx
    rw [List.getElem?_take] at hn
    split_ifs at hn with hnq
    rw [List.getElem?_drop] at hn
    obtain ⟨d, hd, hwd⟩ := hws (r + n) (by omega) (by omega)
    rw [hn] at hd
    simp at hd
    rw [hd]
    exact hwd
  · simp [slice]
    omega

/-- C14: when the first byte that is not whitespace at or after the resume offset, at
offset `q`, is one of `, : { } [ ]`, `json_scanner_next` returns the matching structural
token with offset `q` and length 1; when it is none of these and neither a quote, a minus
sign, a digit, `t`, `f` nor `n`, it returns `JST_ERR_UNEXPECTED` with offset `q` and
length 1. -/
theorem next_structural (b : List Nat) (p : JsonToken) (q c : Nat) (hL : b.length < SIZE_MOD)
    (hne : p.type ≠ JST_EOF) (hr : resume p ≤ q) (hq : b[q]? = some c)
    (hws : ∀ j, resume p ≤ j → j < q → ∃ d, b[j]? = some d ∧ is_whitespace d = true)
    (hc : is_whitespace c = false) :
    (c = 44 → json_scanner_next (scannerOf b) p = some ⟨JST_COMMA, q, 1⟩) ∧
    (c = 58 → json_scanner_next (scannerOf b) p = some ⟨JST_COLON, q, 1⟩) ∧
    (c = 123 → json_scanner_next (scannerOf b) p = some ⟨JST_OBJECT_OPEN, q, 1⟩) ∧
    (c = 125 → json_scanner_next (scannerOf b) p = some ⟨JST_OBJECT_CLOSE, q, 1⟩) ∧
    (c = 91 → json_scanner_next (scannerOf b) p = some ⟨JST_ARRAY_OPEN, q, 1⟩) ∧
    (c = 93 → json_scanner_next (scannerOf b) p = some ⟨JST_ARRAY_CLOSE, q, 1⟩) ∧
    (c ≠ 44 → c ≠ 58 → c ≠ 123 → c ≠ 125 → c ≠ 91 → c ≠ 93 → c ≠ 34 → c ≠ 45 →
      isdigit c = false → c ≠ 116 → c ≠ 102 → c ≠ 110 →
      json_scanner_next (scannerOf b) p = some ⟨JST_ERR_UNEXPECTED, q, 1⟩) := by
  obtain ⟨hsplit, hall, hlen⟩ := index_split b (resume p) q c hr hq hws
  have hlt := getElem?_lt hq
  have hnext := next_of_split b p _ c _ hL hne (by omega) hsplit hall hc
  rw [hlen] at hnext
  have hqr : resume p + (q - resume p) = q := by omega
  rw [hnext]
  unfold dispatch
  rw [hqr]
  refine ⟨?_, ?_, ?_, ?_, ?_, ?_, ?_⟩
  · intro h; subst h; rfl
  · intro h; subst h; rfl
  · intro h; subst h; rfl
  · intro h; subst h; rfl
  · intro h; subst h; rfl
  · intro h; subst h; rfl
  · intro h1 h2 h3 h4 h5 h6 h7 h8 h9 h10 h11 h12
    rw [if_neg h1, if_neg h2, if_neg h3, if_neg h4, if_neg h5, if_neg h6, if_neg h7,
      if_neg h8, if_neg h10, if_neg h11, if_neg h12, if_neg (by simp [h9])]

/-- C14, witness: in the buffer ` 1 ]` the token after the number is the closing bracket
at offset 3. -/
theorem next_structural_witness :
    json_scanner_next (scannerOf [32, 49, 32, 93]) ⟨JST_NUMBER, 1, 1⟩ =
      some ⟨JST_ARRAY_CLOSE, 3, 1⟩ :=
  (next_structural [32, 49, 32, 93] ⟨JST_NUMBER, 1, 1⟩ 3 93 (by decide) (by decide)
    (by decide) rfl
    (fun j h1 h2 => by
      have hj : j = 2 := by
        simp [resume] at h1
        omega
      subst hj
      exact ⟨32, rfl, rfl⟩)
    rfl).2.2.2.2.2.1 rfl

theorem dispatch_not_eof (b : List Nat) (r c : Nat) (ws cs : List Nat) (t : JsonToken)
    (hL : b.length < SIZE_MOD) (hsplit : b.drop r = ws ++ c :: cs)
    (h : dispatch (scannerOf b) r (b.length - r) ws.length c cs = some t) :
    t.type ≠ JST_EOF := by
  obtain ⟨hq, _⟩ := split_index hsplit
  rcases dispatch_class _ _ _ _ _ _ _ h with
    ⟨_, _, hk⟩ | ⟨rfl, hs⟩ | ⟨_, hn⟩ | ⟨_, _, rfl⟩ | ⟨_, _, rfl⟩ | ⟨_, _, rfl⟩ |
    ⟨_, rfl⟩ | ⟨rfl, _⟩
  · rcases hk with ⟨_, hk⟩ | ⟨_, hk⟩ | ⟨_, hk⟩ | ⟨_, hk⟩ | ⟨_, hk⟩ | ⟨_, hk⟩ <;> simp [hk]
  · obtain ⟨_, hform⟩ := scan_string_tokens b _ t hL (by omega) hs
    rcases hform with ⟨hty, _⟩ | ⟨hty, _⟩ | ⟨hty, _⟩ <;> simp [hty]
  · obtain ⟨t2, ht2, hform⟩ := scan_number_tokens b (r + ws.length) hL hq
    rw [hn] at ht2
    simp at ht2
    subst ht2
    rcases hform with ⟨hty, _⟩ | ⟨hty, _⟩ | ⟨hty, _⟩ <;> simp [hty]
  · simp
  · simp
  · simp
  · simp
  · simp

/-- C15: for a previous token that is not `JST_EOF` and whose resume offset lies inside the
buffer or at its end, `json_scanner_next` returns `JST_EOF` exactly when every byte from
the resume offset to the end of the buffer is whitespace; the token then starts at the
resume offset and spans those bytes.  On the empty buffer the call on the `JST_BEGIN`
token of `json_scanner_init`, of offset 0 and length 0, returns `JST_EOF`. -/
theorem next_eof_iff (b : List Nat) (p : JsonToken) (hL : b.length < SIZE_MOD)
    (hne : p.type ≠ JST_EOF) (hr : resume p ≤ b.length) :
    ((∃ t, json_scanner_next (scannerOf b) p = some t ∧ t.type = JST_EOF) ↔
      AllWhitespace (b.drop (resume p))) ∧
    (AllWhitespace (b.drop (resume p)) →
      json_scanner_next (scannerOf b) p = some ⟨JST_EOF, resume p, b.length - resume p⟩) ∧
    (json_scanner_init []).2 = ⟨JST_BEGIN, 0, 0⟩ ∧
    json_scanner_next (json_scanner_init []).1 (json_scanner_init []).2 =
      some ⟨JST_EOF, 0, 0⟩ := by
  refine ⟨⟨?_, ?_⟩, next_of_ws b p hL hne hr, rfl, by decide⟩
  · rintro ⟨t, h, hty⟩
    rcases ws_split (b.drop (resume p)) with hws | ⟨ws, c, cs, hsplit, hws, hc⟩
    · exact hws
    · rw [next_of_split b p ws c cs hL hne hr hsplit hws hc] at h
      exact absurd hty (dispatch_not_eof b _ c ws cs t hL hsplit h)
  · intro hws
    exact ⟨_, next_of_ws b p hL hne hr hws, rfl⟩

/-- C15, witness: after the number of the buffer `7` followed by a space and a line feed
only whitespace is left. -/
theorem next_eof_iff_witness :
    [55, 32, 10].length < SIZE_MOD ∧ resume ⟨JST_NUMBER, 0, 1⟩ ≤ [55, 32, 10].length ∧
    AllWhitespace (List.drop (resume ⟨JST_NUMBER, 0, 1⟩) [55, 32, 10]) ∧
    json_scanner_next (scannerOf [55, 32, 10]) ⟨JST_NUMBER, 0, 1⟩ = some ⟨JST_EOF, 1, 2⟩ :=
  have hws : AllWhitespace (List.drop (resume ⟨JST_NUMBER, 0, 1⟩) [55, 32, 10]) := by
    intro c hc
    simp [resume] at hc
    rcases hc with rfl | rfl <;> rfl
  ⟨by decide, by decide, hws,
    (next_eof_iff [55, 32, 10] ⟨JST_NUMBER, 0, 1⟩ (by decide) (by decide) (by decide)).2.1 hws⟩
/-- C13, as the code has it: a token returned by `json_scanner_next` that is not `JST_EOF`
is not `JST_BEGIN` either and has a length above 0, with two exceptions of length 0: the
`JST_STRING` token of an empty string literal (a quote directly followed by a quote) and
the `JST_ERR_INCOMPLETE` token of an opening quote that is the last byte of the buffer. -/
theorem token_length_positive (b : List Nat) (p t : JsonToken) (hL : b.length < SIZE_MOD)
    (h : json_scanner_next (scannerOf b) p = some t) (hte : t.type ≠ JST_EOF) :
    t.type ≠ JST_BEGIN ∧
    (0 < t.len ∨
      (t.type = JST_STRING ∧ t.len = 0 ∧ 0 < t.start ∧ b[t.start - 1]? = some 34 ∧
        b[t.start]? = some 34) ∨
      (t.type = JST_ERR_INCOMPLETE ∧ t.len = 0 ∧ 0 < t.start ∧ b[t.start - 1]? = some 34 ∧
        t.start = b.length)) := by
  have hne : p.type ≠ JST_EOF := by
    intro hp
    simp [json_scanner_next, hp] at h
    rw [← h] at hte
    exact hte hp
  obtain ⟨q, hrq, hq, hform⟩ := next_token_facts b p t hL hne h hte
  rcases hform with ⟨_, hlen, hk⟩ | ⟨hb, hst, hs⟩ | hn | ⟨_, hl⟩ | rfl
  · refine ⟨?_, Or.inl (by omega)⟩
    rcases hk with hk | hk | hk | hk | hk | hk | hk <;> simp [hk]
  · have hq1 : b[t.start - 1]? = some 34 := by
      rw [hst]
      simpa using hb
    rcases hs with ⟨hty, hlt, hclose⟩ | ⟨hty, hend⟩ | ⟨hty, hpos, _⟩
    · refine ⟨by simp [hty], ?_⟩
      rcases Nat.eq_zero_or_pos t.len with h0 | hpos
      · right; left
        refine ⟨hty, h0, by omega, hq1, ?_⟩
        rw [h0] at hclose
        rw [hst]
        simpa using hclose
      · exact Or.inl hpos
    · refine ⟨by simp [hty], ?_⟩
      rcases Nat.eq_zero_or_pos t.len with h0 | hpos
      · right; right
        exact ⟨hty, h0, by omega, hq1, by omega⟩
      · exact Or.inl hpos
    · exact ⟨by simp [hty], Or.inl hpos⟩
  · rcases hn with ⟨hty, _, hpos, _⟩ | ⟨hty, hst, hend⟩ | ⟨hty, _, _, hlen⟩
    · exact ⟨by simp [hty], Or.inl hpos⟩
    · exact ⟨by simp [hty], Or.inl (by omega)⟩
    · exact ⟨by simp [hty], Or.inl (by omega)⟩
  · rcases hl with ⟨hty, hlen⟩ | ⟨hty, hlen⟩ | ⟨hty, hlen⟩ <;>
      exact ⟨by simp [hty], Or.inl (by omega)⟩
  · exact ⟨by simp, Or.inl (by simp; omega)⟩

/-- C13, witness: the bad escape of the buffer `"\z"` has length 1. -/
theorem token_length_positive_witness :
    [34, 92, 122, 34].length < SIZE_MOD ∧
    json_scanner_next (scannerOf [34, 92, 122, 34]) beginToken =
      some ⟨JST_ERR_BAD_ESCAPE, 1, 1⟩ ∧
    (⟨JST_ERR_BAD_ESCAPE, 1, 1⟩ : JsonToken).type ≠ JST_BEGIN :=
  ⟨by decide, by decide,
    (token_length_positive [34, 92, 122, 34] beginToken ⟨JST_ERR_BAD_ESCAPE, 1, 1⟩ (by decide)
      (by decide) (by decide)).1⟩

/-- C13, counterexample: the empty string literal `""` scans as a `JST_STRING` token of
length 0, and a lone opening quote as a `JST_ERR_INCOMPLETE` token of length 0. -/
theorem zero_length_tokens :
    json_scanner_next (scannerOf [34, 34]) beginToken = some ⟨JST_STRING, 1, 0⟩ ∧
    json_scanner_next (scannerOf [34]) beginToken = some ⟨JST_ERR_INCOMPLETE, 1, 0⟩ ∧
    ¬ (∀ (b : List Nat) (p t : JsonToken), json_scanner_next (scannerOf b) p = some t →
      t.type ≠ JST_BEGIN → t.type ≠ JST_EOF → 0 < t.len) := by
  refine ⟨by decide, by decide, ?_⟩
  intro hall
  have := hall [34, 34] beginToken ⟨JST_STRING, 1, 0⟩ (by decide) (by decide) (by decide)
  simp at this

theorem resume_string (t : JsonToken) (h : t.type = JST_STRING) :
    resume t = t.start + t.len + 1 := by
  simp [resume, h]

theorem resume_other (t : JsonToken) (h1 : t.type ≠ JST_BEGIN) (h2 : t.type ≠ JST_STRING) :
    resume t = t.start + t.len := by
  simp [resume, h1, h2]

theorem next_progress (b : List Nat) (p t : JsonToken) (hL : b.length < SIZE_MOD)
    (hne : p.type ≠ JST_EOF) (h : json_scanner_next (scannerOf b) p = some t)
    (hte : t.type ≠ JST_EOF) : resume p ≤ b.length ∧ resume p < resume t := by
  obtain ⟨q, hrq, hq, hform⟩ := next_token_facts b p t hL hne h hte
  refine ⟨by omega, ?_⟩
  rcases hform with ⟨hst, hlen, hk⟩ | ⟨hb, hst, hs⟩ | hn | ⟨hst, hl⟩ | rfl
  · have hr : resume t = t.start + t.len := by
      rcases hk with hk | hk | hk | hk | hk | hk | hk <;>
        exact resume_other t (by simp [hk]) (by simp [hk])
    omega
  · rcases hs with ⟨hty, _⟩ | ⟨hty, _⟩ | ⟨hty, _⟩
    · rw [resume_string t hty]
      omega
    · rw [resume_other t (by simp [hty]) (by simp [hty])]
      omega
    · rw [resume_other t (by simp [hty]) (by simp [hty])]
      omega
  · have hr : resume t = t.start + t.len := by
      rcases hn with ⟨hty, _⟩ | ⟨hty, _⟩ | ⟨hty, _⟩ <;>
        exact resume_other t (by simp [hty]) (by simp [hty])
    rcases hn with ⟨_, _, _, _⟩ | ⟨_, _, _⟩ | ⟨_, _, _, _⟩ <;> omega
  · have hr : resume t = t.start + t.len := by
      rcases hl with ⟨hty, _⟩ | ⟨hty, _⟩ | ⟨hty, _⟩ <;>
        exact resume_other t (by simp [hty]) (by simp [hty])
    rcases hl with ⟨_, _⟩ | ⟨_, _⟩ | ⟨_, _⟩ <;> omega
  · rw [resume_other ⟨JST_ERR_UNEXPECTED, q, b.length - resume p⟩ (by simp) (by simp)]
    show resume p < q + (b.length - resume p)
    omega
theorem drop_append_le (b x : List Nat) (r : Nat) (hr : r ≤ b.length) :
    (b ++ x).drop r = b.drop r ++ x := by
  rw [List.drop_append_of_le_length hr]

theorem slice_append_le (b x : List Nat) (p k : Nat) (hk : k ≤ b.length) :
    slice (b ++ x) p k = slice b p k := by
  unfold slice
  rcases Nat.lt_or_ge k p with hpk | hpk
  · have h0 : k - p = 0 := by omega
    simp [h0]
  · rw [drop_append_le b x p (by omega), List.take_append_of_le_length]
    simp
    omega

theorem getElem?_append_lt (b x : List Nat) (k : Nat) (hk : k < b.length) :
    (b ++ x)[k]? = b[k]? := by
  rw [List.getElem?_append_left hk]

theorem strncmp_eq_append : ∀ (lit l : List Nat) (n : Nat) (r : Bool) (x : List Nat),
    strncmp_eq lit l n = some r → strncmp_eq lit (l ++ x) n = some r := by
  intro lit
  induction lit with
  | nil =>
    intro l n r x h
    cases n with
    | zero => simpa [strncmp_eq] using h
    | succ n =>
      cases l with
      | nil => simp [strncmp_eq] at h
      | cons c cs => simpa [strncmp_eq] using h
  | cons a as ih =>
    intro l n r x h
    cases n with
    | zero => simpa [strncmp_eq] using h
    | succ n =>
      cases l with
      | nil => simp [strncmp_eq] at h
      | cons c cs =>
        simp only [List.cons_append, strncmp_eq] at h ⊢
        split_ifs at h ⊢ with hac
        · exact ih cs n r x h
        · exact h

theorem strncmp_eq_false_mono : ∀ (lit l : List Nat) (n m : Nat), n ≤ m → m ≤ lit.length →
    strncmp_eq lit l n = some false → strncmp_eq lit l m = some false := by
  intro lit
  induction lit with
  | nil =>
    intro l n m hnm hm h
    simp at hm
    have hn : n = 0 := by omega
    subst hn
    simp [strncmp_eq] at h
  | cons a as ih =>
    intro l n m hnm hm h
    cases n with
    | zero => simp [strncmp_eq] at h
    | succ n =>
      cases m with
      | zero => omega
      | succ m =>
        cases l with
        | nil => simp [strncmp_eq] at h
        | cons c cs =>
          simp at hm
          simp only [strncmp_eq] at h ⊢
          split_ifs at h ⊢ with hac
          · exact ih cs n m (by omega) hm h
          · rfl
theorem dispatch_string (scanner : JsonScanner) (s remaining i : Nat) (cs : List Nat) :
    dispatch scanner s remaining i 34 cs = scan_string scanner (s + i + 1) := by
  simp [dispatch]

theorem dispatch_number (scanner : JsonScanner) (s remaining i c : Nat) (cs : List Nat)
    (hc : c = 45 ∨ isdigit c = true) :
    dispatch scanner s remaining i c cs = scan_number scanner (s + i) := by
  unfold dispatch
  rcases hc with rfl | hd
  · simp
  · have hc2 := (isdigit_iff c).1 hd
    have hne : c ≠ 44 ∧ c ≠ 58 ∧ c ≠ 123 ∧ c ≠ 125 ∧ c ≠ 91 ∧ c ≠ 93 ∧ c ≠ 34 ∧ c ≠ 45 ∧
        c ≠ 116 ∧ c ≠ 102 ∧ c ≠ 110 := by omega
    obtain ⟨h1, h2, h3, h4, h5, h6, h7, h8, h9, h10, h11⟩ := hne
    rw [if_neg h1, if_neg h2, if_neg h3, if_neg h4, if_neg h5, if_neg h6, if_neg h7,
      if_neg h8, if_neg h9, if_neg h10, if_neg h11, if_pos hd]

theorem dispatch_true (scanner : JsonScanner) (s remaining i : Nat) (cs : List Nat) :
    dispatch scanner s remaining i 116 cs =
      match strncmp_eq lit_true (116 :: cs) (min 4 remaining) with
      | none => none
      | some true => some ⟨JST_TRUE, s + i, 4⟩
      | some false => some ⟨JST_ERR_UNEXPECTED, s + i, remaining⟩ := by
  simp [dispatch]

theorem dispatch_false (scanner : JsonScanner) (s remaining i : Nat) (cs : List Nat) :
    dispatch scanner s remaining i 102 cs =
      match strncmp_eq lit_false (102 :: cs) (min 5 remaining) with
      | none => none
      | some true => some ⟨JST_FALSE, s + i, 5⟩
      | some false => some ⟨JST_ERR_UNEXPECTED, s + i, remaining⟩ := by
  simp [dispatch]

theorem dispatch_null (scanner : JsonScanner) (s remaining i : Nat) (cs : List Nat) :
    dispatch scanner s remaining i 110 cs =
      match strncmp_eq lit_null (110 :: cs) (min 4 remaining) with
      | none => none
      | some true => some ⟨JST_NULL, s + i, 4⟩
      | some false => some ⟨JST_ERR_UNEXPECTED, s + i, remaining⟩ := by
  simp [dispatch]

theorem dispatch_punct (scanner : JsonScanner) (s remaining i c : Nat) (cs : List Nat)
    (t : JsonToken) (hst : t.start = s + i) (hlen : t.len = 1)
    (hk : (c = 44 ∧ t.type = JST_COMMA) ∨ (c = 58 ∧ t.type = JST_COLON) ∨
      (c = 123 ∧ t.type = JST_OBJECT_OPEN) ∨ (c = 125 ∧ t.type = JST_OBJECT_CLOSE) ∨
      (c = 91 ∧ t.type = JST_ARRAY_OPEN) ∨ (c = 93 ∧ t.type = JST_ARRAY_CLOSE)) :
    dispatch scanner s remaining i c cs = some t := by
  obtain ⟨ty, st, ln⟩ := t
  simp only at hst hlen hk
  subst hst hlen
  rcases hk with ⟨rfl, rfl⟩ | ⟨rfl, rfl⟩ | ⟨rfl, rfl⟩ | ⟨rfl, rfl⟩ | ⟨rfl, rfl⟩ | ⟨rfl, rfl⟩ <;>
    simp [dispatch]

theorem dispatch_default (scanner : JsonScanner) (s remaining i c : Nat) (cs : List Nat)
    (h : c ≠ 44 ∧ c ≠ 58 ∧ c ≠ 123 ∧ c ≠ 125 ∧ c ≠ 91 ∧ c ≠ 93 ∧ c ≠ 34 ∧ c ≠ 45 ∧ c ≠ 116 ∧
      c ≠ 102 ∧ c ≠ 110 ∧ isdigit c = false) :
    dispatch scanner s remaining i c cs = some ⟨JST_ERR_UNEXPECTED, s + i, 1⟩ := by
  obtain ⟨h1, h2, h3, h4, h5, h6, h7, h8, h9, h10, h11, h12⟩ := h
  unfold dispatch
  rw [if_neg h1, if_neg h2, if_neg h3, if_neg h4, if_neg h5, if_neg h6, if_neg h7,
    if_neg h8, if_neg h9, if_neg h10, if_neg h11, if_neg (by simp [h12])]

theorem next_append_dispatch (b x : List Nat) (p : JsonToken) (ws : List Nat) (c : Nat)
    (cs : List Nat) (hL : (b ++ x).length < SIZE_MOD) (hne : p.type ≠ JST_EOF)
    (hr : resume p ≤ b.length) (hsplit : b.drop (resume p) = ws ++ c :: cs)
    (hws : AllWhitespace ws) (hc : is_whitespace c = false) :
    json_scanner_next (scannerOf (b ++ x)) p =
      dispatch (scannerOf (b ++ x)) (resume p) ((b ++ x).length - resume p) ws.length c
        (cs ++ x) := by
  have hsplit2 : (b ++ x).drop (resume p) = ws ++ c :: (cs ++ x) := by
    rw [drop_append_le b x _ hr, hsplit]
    simp
  exact next_of_split (b ++ x) p ws c (cs ++ x) hL hne (by simp; omega) hsplit2 hws hc

theorem length_lt_of_append {b x : List Nat} (h : (b ++ x).length < SIZE_MOD) :
    b.length < SIZE_MOD := by
  simp at h
  omega
theorem next_eof_of_eof (scanner : JsonScanner) (p t : JsonToken) (hp : p.type = JST_EOF)
    (h : json_scanner_next scanner p = some t) : t.type = JST_EOF := by
  simp [json_scanner_next, hp] at h
  rw [← h]
  exact hp

theorem token_eta (t : JsonToken) : t = ⟨t.type, t.start, t.len⟩ := by
  cases t
  rfl

theorem scan_string_append (b x : List Nat) (a : Nat) (t : JsonToken)
    (hL : (b ++ x).length < SIZE_MOD) (ha : a ≤ b.length)
    (h : scan_string (scannerOf b) a = some t) (hty : t.type = JST_STRING) :
    scan_string (scannerOf (b ++ x)) a = some t := by
  have hLb := length_lt_of_append hL
  obtain ⟨hst, hform⟩ := scan_string_tokens b a t hLb ha h
  have hlt : a + t.len < b.length := by
    rcases hform with ⟨_, hlt⟩ | ⟨hty2, _⟩ | ⟨hty2, _⟩
    · exact hlt
    · rw [hty] at hty2; simp at hty2
    · rw [hty] at hty2; simp at hty2
  have ht : t = ⟨JST_STRING, a, t.len⟩ := by
    rw [← hty, ← hst]
  rw [ht] at h ⊢
  obtain ⟨hbody, hq⟩ := (scan_string_iff_body b a t.len hLb).1 h
  rw [scan_string_iff_body (b ++ x) a t.len hL, slice_append_le b x _ _ (by omega),
    getElem?_append_lt b x _ hlt]
  exact ⟨hbody, hq⟩

theorem scan_number_append (b x : List Nat) (q : Nat) (t : JsonToken)
    (hL : (b ++ x).length < SIZE_MOD) (hq : q < b.length)
    (h : scan_number (scannerOf b) q = some t) (hty : t.type = JST_NUMBER)
    (hlt : t.start + t.len < b.length) :
    scan_number (scannerOf (b ++ x)) q = some t := by
  have hLb := length_lt_of_append hL
  obtain ⟨t2, ht2, hform⟩ := scan_number_tokens b q hLb hq
  rw [h] at ht2
  simp at ht2
  subst ht2
  have hst : t.start = q := by
    rcases hform with ⟨_, hst, _⟩ | ⟨hty2, _⟩ | ⟨hty2, _⟩
    · exact hst
    · rw [hty] at hty2; simp at hty2
    · rw [hty] at hty2; simp at hty2
  have ht : t = ⟨JST_NUMBER, q, t.len⟩ := by
    rw [← hty, ← hst]
  rw [ht] at h ⊢
  obtain ⟨hnum, hend⟩ := (scan_number_number_iff b q t.len hLb).1 h
  rw [scan_number_number_iff (b ++ x) q t.len hL, slice_append_le b x _ _ (by omega),
    getElem?_append_lt b x _ (by omega)]
  refine ⟨hnum, ?_⟩
  rcases hend with hend | hend
  · omega
  · exact Or.inr hend

/-- C20: a token that is neither an error nor `JST_EOF` and ends before the last byte of
the buffer is returned unchanged when more bytes are appended to the buffer. -/
theorem token_stable_under_append (b x : List Nat) (p t : JsonToken)
    (hL : (b ++ x).length < SIZE_MOD) (h : json_scanner_next (scannerOf b) p = some t)
    (hte : t.type ≠ JST_EOF) (he1 : t.type ≠ JST_ERR_UNEXPECTED)
    (he2 : t.type ≠ JST_ERR_INCOMPLETE) (he3 : t.type ≠ JST_ERR_BAD_ESCAPE)
    (hlt : t.start + t.len < b.length) :
    json_scanner_next (scannerOf (b ++ x)) p = some t := by
  have hLb := length_lt_of_append hL
  have hne : p.type ≠ JST_EOF := fun hp => hte (next_eof_of_eof _ p t hp h)
  rcases next_inv b p t hLb hne h with heof | ⟨hr, ws, c, cs, hsplit, hws, hc, hd⟩
  · exact absurd heof hte
  obtain ⟨hq, _⟩ := split_index hsplit
  rw [next_append_dispatch b x p ws c cs hL hne hr hsplit hws hc]
  rcases dispatch_class _ _ _ _ _ _ _ hd with
    ⟨h1, h2, hk⟩ | ⟨rfl, hs⟩ | ⟨hcn, hn⟩ | ⟨rfl, hs, rfl⟩ | ⟨rfl, hs, rfl⟩ | ⟨rfl, hs, rfl⟩ |
    ⟨_, rfl⟩ | ⟨rfl, _⟩
  · exact dispatch_punct _ _ _ _ _ _ t h1 h2 hk
  · rw [dispatch_string]
    have hty : t.type = JST_STRING := by
      obtain ⟨_, hform⟩ := scan_string_tokens b _ t hLb (by omega) hs
      rcases hform with ⟨hty, _⟩ | ⟨hty, _⟩ | ⟨hty, _⟩
      · exact hty
      · exact absurd hty he2
      · exact absurd hty he3
    exact scan_string_append b x _ t hL (by omega) hs hty
  · rw [dispatch_number _ _ _ _ _ _ hcn]
    have hty : t.type = JST_NUMBER := by
      obtain ⟨t2, ht2, hform⟩ := scan_number_tokens b (resume p + ws.length) hLb hq
      rw [hn] at ht2
      simp at ht2
      subst ht2
      rcases hform with ⟨hty, _⟩ | ⟨hty, _⟩ | ⟨hty, _⟩
      · exact hty
      · exact absurd hty he2
      · exact absurd hty he1
    exact scan_number_append b x _ t hL hq hn hty hlt
  · simp only at hlt
    have hm1 : min 4 (b.length - resume p) = 4 := by omega
    have hm2 : min 4 ((b ++ x).length - resume p) = 4 := by simp; omega
    rw [hm1] at hs
    rw [dispatch_true, hm2, ← List.cons_append, strncmp_eq_append _ _ _ _ x hs]
  · simp only at hlt
    have hm1 : min 5 (b.length - resume p) = 5 := by omega
    have hm2 : min 5 ((b ++ x).length - resume p) = 5 := by simp; omega
    rw [hm1] at hs
    rw [dispatch_false, hm2, ← List.cons_append, strncmp_eq_append _ _ _ _ x hs]
  · simp only at hlt
    have hm1 : min 4 (b.length - resume p) = 4 := by omega
    have hm2 : min 4 ((b ++ x).length - resume p) = 4 := by simp; omega
    rw [hm1] at hs
    rw [dispatch_null, hm2, ← List.cons_append, strncmp_eq_append _ _ _ _ x hs]
  · simp at he1
  · simp at he1

/-- C20, witness: the number `12` of the buffer `12,` is still the first token after the
bytes `3]` are appended. -/
theorem token_stable_under_append_witness :
    ([49, 50, 44] ++ [51, 93]).length < SIZE_MOD ∧
    json_scanner_next (scannerOf [49, 50, 44]) beginToken = some ⟨JST_NUMBER, 0, 2⟩ ∧
    json_scanner_next (scannerOf ([49, 50, 44] ++ [51, 93])) beginToken =
      some ⟨JST_NUMBER, 0, 2⟩ :=
  ⟨by decide, by decide,
    token_stable_under_append [49, 50, 44] [51, 93] beginToken ⟨JST_NUMBER, 0, 2⟩ (by decide)
      (by decide) (by decide) (by decide) (by decide) (by decide) (by decide)⟩
theorem hex_run_append (tl x : List Nat) (h : hex_run tl < tl.length) :
    hex_run (tl ++ x) = hex_run tl := by
  unfold hex_run at h ⊢
  rcases tl with _ | ⟨h1, _ | ⟨h2, _ | ⟨h3, _ | ⟨h4, t⟩⟩⟩⟩
  · simp at h
  · cases x1 : isxdigit h1 <;> simp [List.takeWhile, x1] at h ⊢
  · cases x1 : isxdigit h1 <;> cases x2 : isxdigit h2 <;>
      simp [List.takeWhile, x1, x2] at h ⊢
  · cases x1 : isxdigit h1 <;> cases x2 : isxdigit h2 <;> cases x3 : isxdigit h3 <;>
      simp [List.takeWhile, x1, x2, x3] at h ⊢
  · simp

theorem unexpectedAt_append (b x : List Nat) (p k : Nat) (h : UnexpectedAt b p k) :
    UnexpectedAt (b ++ x) p k := by
  obtain ⟨h1, h2, h3, h4, h5⟩ := h
  refine ⟨h1, by simp; omega, ?_, ?_, ?_⟩
  · rw [slice_append_le b x _ _ (by omega)]
    exact h3
  · rw [slice_append_le b x _ _ (by omega)]
    exact h4
  · rw [slice_append_le b x _ _ (by omega), getElem?_append_lt b x _ h2]
    exact h5

theorem scan_number_unexpected_append (b x : List Nat) (q : Nat) (t : JsonToken)
    (hL : (b ++ x).length < SIZE_MOD) (h : scan_number (scannerOf b) q = some t)
    (hty : t.type = JST_ERR_UNEXPECTED) : scan_number (scannerOf (b ++ x)) q = some t := by
  have hLb := length_lt_of_append hL
  obtain ⟨k, hk, ht⟩ := (scan_number_unexpected_at b q hLb t).1 ⟨h, hty⟩
  exact ((scan_number_unexpected_at (b ++ x) q hL t).2
    ⟨k, unexpectedAt_append b x q k hk, ht⟩).1

theorem literal_mismatch_append (lit : List Nat) (c : Nat) (cs x : List Nat) (k r1 r2 : Nat)
    (hk : k = lit.length) (hr : r1 ≤ r2)
    (h : strncmp_eq lit (c :: cs) (min k r1) = some false) :
    strncmp_eq lit (c :: (cs ++ x)) (min k r2) = some false := by
  have h1 := strncmp_eq_append lit (c :: cs) _ false x h
  rw [List.cons_append] at h1
  exact strncmp_eq_false_mono lit _ (min k r1) (min k r2) (by omega) (by omega) h1

theorem stringBody_append {a c : List Nat} (ha : StringBody a) (hc : StringBody c) :
    StringBody (a ++ c) := by
  induction ha with
  | nil => simpa using hc
  | plain d rest h1 h2 _ ih => exact StringBody.plain d _ h1 h2 ih
  | simple d rest hd _ ih => exact StringBody.simple d _ hd ih
  | unicode h1 h2 h3 h4 rest x1 x2 x3 x4 _ ih =>
    exact StringBody.unicode h1 h2 h3 h4 _ x1 x2 x3 x4 ih

theorem step_zero_accepting (st : State) (h : accepting st = false) :
    ∃ st2, num_step st 48 = some st2 ∧ accepting st2 = true := by
  cases st <;> simp [accepting] at h
  · exact ⟨STATE_ZERO, rfl, rfl⟩
  · exact ⟨STATE_ZERO, rfl, rfl⟩
  · exact ⟨STATE_DIGIT_3, rfl, rfl⟩
  · exact ⟨STATE_DIGIT_2, rfl, rfl⟩
  · exact ⟨STATE_DIGIT_3, rfl, rfl⟩

theorem scan_string_complete (b : List Nat) (a : Nat) (t : JsonToken)
    (hL : b.length + 2 < SIZE_MOD) (ha : a ≤ b.length)
    (h : scan_string (scannerOf b) a = some t) (hty : t.type = JST_ERR_INCOMPLETE) :
    ∃ x, x ≠ [] ∧ x.length ≤ 2 ∧ ∃ n, scan_string (scannerOf (b ++ x)) a =
      some ⟨JST_STRING, a, n⟩ := by
  have hLb : b.length < SIZE_MOD := by omega
  obtain ⟨body, tail, hsplit, hbody, hform⟩ := scan_string_class b a t hLb ha h
  have hl := congrArg List.length hsplit
  simp at hl
  rcases hform with ⟨_, rfl⟩ | ⟨htail, _⟩ | ⟨_, rfl⟩
  · simp at hty
  · rcases htail with rfl | rfl
    · refine ⟨[34], by simp, by simp, body.length, ?_⟩
      have hL2 : (b ++ [34]).length < SIZE_MOD := by simp; omega
      rw [scan_string_iff_body _ _ _ hL2, slice_add, drop_append_le b _ a ha, hsplit]
      simp at hl
      refine ⟨by simpa using hbody, ?_⟩
      apply getElem?_of_drop_cons (t := [])
      rw [← List.drop_drop, drop_append_le b _ a ha, hsplit]
      simp
    · refine ⟨[34, 34], by simp, by simp, body.length + 2, ?_⟩
      have hL2 : (b ++ [34, 34]).length < SIZE_MOD := by simp; omega
      have hb2 : StringBody (body ++ [92, 34]) :=
        stringBody_append hbody (StringBody.simple 34 [] (Or.inl rfl) StringBody.nil)
      have hd : (b ++ [34, 34]).drop a = (body ++ [92, 34]) ++ [34] := by
        rw [drop_append_le b _ a ha, hsplit]
        simp
      have hlen2 : (body ++ [92, 34]).length = body.length + 2 := by simp
      rw [scan_string_iff_body _ _ _ hL2, slice_add, hd]
      refine ⟨?_, ?_⟩
      · rw [← hlen2, List.take_left]
        exact hb2
      · apply getElem?_of_drop_cons (t := [])
        rw [← List.drop_drop, hd, ← hlen2, List.drop_left]
  · simp at hty

theorem scan_number_complete (b : List Nat) (q : Nat) (t : JsonToken)
    (hL : b.length + 2 < SIZE_MOD) (hq : q ≤ b.length)
    (h : scan_number (scannerOf b) q = some t) (hty : t.type = JST_ERR_INCOMPLETE) :
    ∃ n, scan_number (scannerOf (b ++ [48])) q = some ⟨JST_NUMBER, q, n⟩ := by
  have hLb : b.length < SIZE_MOD := by omega
  rw [scan_number_eq b q hLb hq] at h
  rcases scan_number_loop_class q (b.drop q) STATE_START 0 with
    ⟨st2, hrun, hres⟩ | ⟨w, c, tail, st2, _, _, _, hres⟩
  · rw [hres] at h
    by_cases hacc : accepting st2 = true
    · rw [if_pos hacc] at h
      simp at h
      rw [← h] at hty
      simp at hty
    · have hacc2 : accepting st2 = false := by simpa using hacc
      obtain ⟨st3, hstep, hacc3⟩ := step_zero_accepting st2 hacc2
      have hL2 : (b ++ [48]).length < SIZE_MOD := by simp; omega
      have hrun2 : num_run STATE_START ((b ++ [48]).drop q) = some st3 := by
        rw [drop_append_le b _ q hq, num_run_snoc 48 hrun]
        exact hstep
      refine ⟨0 + ((b ++ [48]).drop q).length, ?_⟩
      rw [scan_number_eq (b ++ [48]) q hL2 (by simp; omega),
        loop_exhausted q _ STATE_START st3 0 hrun2, if_pos hacc3]
  · rw [hres] at h
    split_ifs at h <;> simp at h <;> rw [← h] at hty <;> simp at hty

/-- C12: when `json_scanner_next` returns `JST_ERR_INCOMPLETE`, the span of the token ends
at the end of the buffer, and some bytes can be appended to the buffer after which the
same call returns a `JST_STRING` or `JST_NUMBER` token with the same offset. -/
theorem incomplete_can_be_completed (b : List Nat) (p t : JsonToken)
    (hL : b.length + 2 < SIZE_MOD) (h : json_scanner_next (scannerOf b) p = some t)
    (hty : t.type = JST_ERR_INCOMPLETE) :
    t.start + t.len = b.length ∧
    ∃ x, x ≠ [] ∧ ∃ t2, json_scanner_next (scannerOf (b ++ x)) p = some t2 ∧
      (t2.type = JST_STRING ∨ t2.type = JST_NUMBER) ∧ t2.start = t.start := by
  have hLb : b.length < SIZE_MOD := by omega
  have hte : t.type ≠ JST_EOF := by rw [hty]; simp
  have hne : p.type ≠ JST_EOF := fun hp => hte (next_eof_of_eof _ p t hp h)
  rcases next_inv b p t hLb hne h with heof | ⟨hr, ws, c, cs, hsplit, hws, hc, hd⟩
  · exact absurd heof hte
  obtain ⟨hq, _⟩ := split_index hsplit
  rcases dispatch_class _ _ _ _ _ _ _ hd with
    ⟨_, _, hk⟩ | ⟨rfl, hs⟩ | ⟨hcn, hn⟩ | ⟨_, _, rfl⟩ | ⟨_, _, rfl⟩ | ⟨_, _, rfl⟩ |
    ⟨_, rfl⟩ | ⟨rfl, _⟩
  · rcases hk with ⟨_, hk⟩ | ⟨_, hk⟩ | ⟨_, hk⟩ | ⟨_, hk⟩ | ⟨_, hk⟩ | ⟨_, hk⟩ <;>
      rw [hk] at hty <;> simp at hty
  · obtain ⟨hst, hform⟩ := scan_string_tokens b _ t hLb (by omega) hs
    constructor
    · rcases hform with ⟨hty2, _⟩ | ⟨_, hend⟩ | ⟨hty2, _⟩
      · rw [hty] at hty2; simp at hty2
      · omega
      · rw [hty] at hty2; simp at hty2
    · obtain ⟨x, hx, hxl, n, hres⟩ := scan_string_complete b _ t hL (by omega) hs hty
      have hL2 : (b ++ x).length < SIZE_MOD := by simp; omega
      refine ⟨x, hx, ⟨JST_STRING, resume p + ws.length + 1, n⟩, ?_, Or.inl rfl, hst.symm⟩
      rw [next_append_dispatch b x p ws 34 cs hL2 hne hr hsplit hws hc, dispatch_string]
      exact hres
  · obtain ⟨t2, ht2, hform⟩ := scan_number_tokens b (resume p + ws.length) hLb hq
    rw [hn] at ht2
    simp at ht2
    subst ht2
    have hfacts : t.start = resume p + ws.length ∧ t.start + t.len = b.length := by
      rcases hform with ⟨hty2, _⟩ | ⟨_, hst, hend⟩ | ⟨hty2, _⟩
      · rw [hty] at hty2; simp at hty2
      · exact ⟨hst, by omega⟩
      · rw [hty] at hty2; simp at hty2
    refine ⟨hfacts.2, ?_⟩
    obtain ⟨n, hres⟩ := scan_number_complete b _ t hL (by omega) hn hty
    have hL2 : (b ++ [48]).length < SIZE_MOD := by simp; omega
    refine ⟨[48], by simp, ⟨JST_NUMBER, resume p + ws.length, n⟩, ?_, Or.inr rfl,
      hfacts.1.symm⟩
    rw [next_append_dispatch b [48] p ws c cs hL2 hne hr hsplit hws hc,
      dispatch_number _ _ _ _ _ _ hcn]
    exact hres
  · simp at hty
  · simp at hty
  · simp at hty
  · simp at hty
  · simp at hty

/-- C12, witness: the incomplete number `-` of the buffer `[-` spans to the end of the
buffer, and some appended bytes make the call return a number or a string there. -/
theorem incomplete_can_be_completed_witness :
    [91, 45].length + 2 < SIZE_MOD ∧
    json_scanner_next (scannerOf [91, 45]) ⟨JST_ARRAY_OPEN, 0, 1⟩ =
      some ⟨JST_ERR_INCOMPLETE, 1, 1⟩ ∧
    ∃ x, x ≠ [] ∧ ∃ t2, json_scanner_next (scannerOf ([91, 45] ++ x)) ⟨JST_ARRAY_OPEN, 0, 1⟩ =
      some t2 ∧ (t2.type = JST_STRING ∨ t2.type = JST_NUMBER) ∧ t2.start = 1 :=
  ⟨by decide, by decide,
    (incomplete_can_be_completed [91, 45] ⟨JST_ARRAY_OPEN, 0, 1⟩ ⟨JST_ERR_INCOMPLETE, 1, 1⟩
      (by decide) (by decide) rfl).2⟩
theorem takeWhile_allWhitespace : ∀ (ws rest : List Nat), AllWhitespace ws →
    (ws ++ rest).takeWhile is_whitespace = ws ++ rest.takeWhile is_whitespace := by
  intro ws
  induction ws with
  | nil => intro rest _; rfl
  | cons c cs ih =>
    intro rest h
    have hc : is_whitespace c = true := h c (by simp)
    have hcs : AllWhitespace cs := fun x hx => h x (by simp [hx])
    simp [List.takeWhile, hc, ih rest hcs]

theorem slice_self (b : List Nat) (p : Nat) : slice b p p = [] := by
  simp [slice]

theorem slice_prefix (x y z : List Nat) :
    slice (x ++ (y ++ z)) x.length (x.length + y.length) = y :=
  slice_mid x y z

theorem quoted_text_lexeme (pre ws text rest : List Nat) (k : JsonTokenType)
    (hwf : WfLexeme k text) :
    quoted_text (pre ++ (ws ++ (text ++ rest))) (lexeme_token pre.length ⟨ws, k, text⟩) =
      text := by
  have hassoc : pre ++ (ws ++ (text ++ rest)) = (pre ++ ws) ++ (text ++ rest) := by simp
  have hpw : pre.length + ws.length = (pre ++ ws).length := by simp
  by_cases hk : k = JST_STRING
  · subst hk
    cases hwf with
    | string body hbody =>
      simp only [quoted_text, lexeme_token, if_true]
      have e1 : pre.length + ws.length + 1 - 1 = (pre ++ ws).length := by simp
      have e2 : pre.length + ws.length + 1 + ((34 :: (body ++ [34])).length - 2) + 1 =
          (pre ++ ws).length + (34 :: (body ++ [34])).length := by
        simp
        omega
      rw [e1, e2, hassoc, slice_mid]
  · simp only [quoted_text, lexeme_token, hk, if_false, token_text]
    rw [hassoc, hpw, slice_mid]

theorem skipped_lexeme (pre ws text rest : List Nat) (k : JsonTokenType) (p : JsonToken)
    (hr : resume p = pre.length) (hws : AllWhitespace ws) (hwf : WfLexeme k text) :
    skipped (pre ++ (ws ++ (text ++ rest))) p (lexeme_token pre.length ⟨ws, k, text⟩) =
      ws := by
  unfold skipped
  rw [hr]
  by_cases hk : k = JST_STRING
  · subst hk
    cases hwf with
    | string body hbody =>
      simp only [lexeme_token, if_true]
      have e1 : pre ++ (ws ++ (34 :: (body ++ [34]) ++ rest)) =
          pre ++ ((ws ++ [34]) ++ (body ++ [34] ++ rest)) := by simp
      have e2 : pre.length + ws.length + 1 = pre.length + (ws ++ [34]).length := by
        simp
        omega
      rw [e1, e2, slice_mid, takeWhile_allWhitespace ws [34] hws]
      simp [List.takeWhile, is_whitespace]
  · simp only [lexeme_token, hk, if_false]
    have e1 : pre ++ (ws ++ (text ++ rest)) = pre ++ (ws ++ (text ++ rest)) := rfl
    rw [slice_mid]
    have := takeWhile_allWhitespace ws [] hws
    simpa using this

theorem reassemble_render : ∀ (ls : List Lexeme) (trail pre : List Nat) (p : JsonToken),
    WellFormed ls trail → resume p = pre.length →
    reassemble quoted_text (pre ++ render ls trail) p
      (expected_tokens pre.length ls ++
        [⟨JST_EOF, (pre ++ render ls trail).length - trail.length, trail.length⟩]) =
      render ls trail := by
  intro ls
  induction ls with
  | nil =>
    intro trail pre p _ hr
    have hs : (pre ++ trail).length - trail.length = pre.length := by simp
    simp only [render, expected_tokens, List.nil_append, reassemble, hs]
    have h1 : skipped (pre ++ trail) p ⟨JST_EOF, pre.length, trail.length⟩ = [] := by
      simp [skipped, hr, slice_self]
    have h2 : quoted_text (pre ++ trail) ⟨JST_EOF, pre.length, trail.length⟩ = trail := by
      simp only [quoted_text, token_text]
      have := slice_mid pre trail []
      simpa using this
    rw [h1, h2]
    simp
  | cons l ls ih =>
    intro trail pre p hwf hr
    obtain ⟨ws, k, text⟩ := l
    obtain ⟨hws, hlex, _, hrest⟩ := hwf
    obtain ⟨_, hres⟩ := lexeme_token_resume pre.length ws text k hlex
    have hb : pre ++ (ws ++ (text ++ render ls trail)) =
        (pre ++ ws ++ text) ++ render ls trail := by simp
    have hlen : (pre ++ ws ++ text).length = pre.length + ws.length + text.length := by
      simp
      omega
    have hih := ih trail (pre ++ ws ++ text) (lexeme_token pre.length ⟨ws, k, text⟩) hrest
      (by rw [hres, hlen])
    rw [hlen, ← hb] at hih
    simp only [render, expected_tokens, List.cons_append, reassemble]
    rw [skipped_lexeme pre ws text _ k p hr hws hlex, quoted_text_lexeme pre ws text _ k hlex]
    change ws ++ text ++ reassemble quoted_text _ _ (expected_tokens _ ls ++ _) = _
    rw [hih]
    simp

/-- C18, as the code has it: for an input made of well-formed lexemes and whitespace,
scanning from `json_scanner_init` until `JST_EOF` and concatenating, in order, the
whitespace skipped before each token and the span of each token, the final `JST_EOF` token
included and the span of a `JST_STRING` token taken with its two delimiting quotes, gives
back the input. -/
theorem reassemble_wellformed_input (ls : List Lexeme) (trail : List Nat)
    (hwf : WellFormed ls trail) (hL : (render ls trail).length < SIZE_MOD) :
    ∃ toks, scan_tokens (scannerOf (render ls trail)) (ls.length + 1) beginToken = some toks ∧
      reassemble quoted_text (render ls trail) beginToken toks = render ls trail := by
  have h1 := scan_tokens_render ls trail [] beginToken hwf (by simpa using hL)
    (by simp [beginToken, json_scanner_init]) (by simp [resume, beginToken, json_scanner_init])
  have h2 := reassemble_render ls trail [] beginToken hwf
    (by simp [resume, beginToken, json_scanner_init])
  simp only [List.nil_append] at h1 h2
  exact ⟨_, h1, h2⟩

/-- C18, witness: the sample input `[1, "a\n" true]` with its final line feed. -/
theorem reassemble_wellformed_input_witness :
    WellFormed sample_lexemes [10] ∧ (render sample_lexemes [10]).length < SIZE_MOD ∧
    ∃ toks, scan_tokens (scannerOf (render sample_lexemes [10])) 7 beginToken = some toks ∧
      reassemble quoted_text (render sample_lexemes [10]) beginToken toks =
        render sample_lexemes [10] :=
  ⟨sample_wellFormed, by decide,
    reassemble_wellformed_input sample_lexemes [10] sample_wellFormed (by decide)⟩

/-- C18, counterexample: the input `"a"` is one well-formed lexeme; its tokens are the
`JST_STRING` token of the byte `a` and `JST_EOF`; no whitespace is skipped, and the spans
put together are the one byte `a`, not the three bytes of the input. -/
theorem reassemble_drops_quotes :
    WellFormed [⟨[], JST_STRING, [34, 97, 34]⟩] [] ∧
    render [⟨[], JST_STRING, [34, 97, 34]⟩] [] = [34, 97, 34] ∧
    scan_tokens (scannerOf [34, 97, 34]) 2 beginToken =
      some [⟨JST_STRING, 1, 1⟩, ⟨JST_EOF, 3, 0⟩] ∧
    reassemble token_text [34, 97, 34] beginToken [⟨JST_STRING, 1, 1⟩, ⟨JST_EOF, 3, 0⟩] =
      [97] ∧
    reassemble token_text [34, 97, 34] beginToken [⟨JST_STRING, 1, 1⟩, ⟨JST_EOF, 3, 0⟩] ≠
      [34, 97, 34] := by
  refine ⟨⟨allWhitespace_nil, ?_, fun h => absurd h (by decide), allWhitespace_nil⟩,
    rfl, by decide, by decide, by decide⟩
  exact WfLexeme.string [97] (StringBody.plain 97 [] (by decide) (by decide) StringBody.nil)
/-- C17: for the `JST_ERR_UNEXPECTED` token of the two bytes `tx` and an output buffer of
64 bytes, `json_scanner_strerror` leaves the C string `txexpected character: ` in the
buffer, the token content written over the head of the prefix and not after it; for the
one-byte token of the buffer `+2` it leaves the prefix alone, without the content.  A token
of another kind gives `No error`. -/
theorem strerror_overwrites_prefix :
    json_scanner_next (scannerOf [116, 120]) beginToken = some ⟨JST_ERR_UNEXPECTED, 0, 2⟩ ∧
    (json_scanner_strerror (scannerOf [116, 120]) ⟨JST_ERR_UNEXPECTED, 0, 2⟩
        (List.replicate 64 0) 64).map c_string =
      some ([116, 120] ++ msg_unexpected.drop 2) ∧
    msg_unexpected ++ token_content (scannerOf [116, 120]) ⟨JST_ERR_UNEXPECTED, 0, 2⟩ ≠
      [116, 120] ++ msg_unexpected.drop 2 ∧
    (json_scanner_strerror (scannerOf [43, 50]) ⟨JST_ERR_UNEXPECTED, 0, 1⟩
        (List.replicate 64 0) 64).map c_string = some msg_unexpected ∧
    (json_scanner_strerror (scannerOf [43, 50]) ⟨JST_NUMBER, 0, 1⟩
        (List.replicate 64 0) 64).map c_string = some msg_no_error := by
  decide
theorem ascending_nil (lo : Nat) : Ascending lo [] := by
  simp [Ascending]

theorem ascending_cons (a b : Nat) (l : List Nat) (h : Ascending b l) (hab : a < b) :
    Ascending a (a :: l) := by
  obtain ⟨hp, hlo⟩ := h
  refine ⟨List.pairwise_cons.2 ⟨fun x hx => ?_, hp⟩, fun x hx => ?_⟩
  · have := hlo x hx
    omega
  · rcases List.mem_cons.1 hx with rfl | hx
    · exact Nat.le_refl _
    · have := hlo x hx
      omega

theorem ascending_mono (a b : Nat) (l : List Nat) (h : Ascending b l) (hab : a ≤ b) :
    Ascending a l :=
  ⟨h.1, fun x hx => Nat.le_trans hab (h.2 x hx)⟩

theorem ascending_count (lo idx : Nat) (l : List Nat) (h : Ascending lo l) :
    l.count idx ≤ 1 := by
  have hnd : l.Nodup := h.1.imp (fun hab => Nat.ne_of_lt hab)
  exact List.nodup_iff_count_le_one.1 hnd idx

theorem scan_number_traced_fst (start remaining : Nat) : ∀ (rest : List Nat) (st : State)
    (i : Nat),
    (scan_number_traced start remaining st i rest).1 =
      scan_number_loop start remaining st i rest ∧
    Ascending (start + i) (scan_number_traced start remaining st i rest).2 := by
  intro rest
  induction rest with
  | nil =>
    intro st i
    rw [scan_number_traced.eq_def]
    by_cases hi : i < remaining
    · rw [scan_number_loop_oob _ _ _ _ hi]
      simp only [hi, if_true]
      exact ⟨trivial, ascending_cons _ _ _ (ascending_nil (start + i + 1)) (by omega)⟩
    · rw [scan_number_loop_done _ _ _ _ _ hi]
      simp only [hi, if_false]
      split_ifs <;> exact ⟨rfl, ascending_nil _⟩
  | cons c cs ih =>
    intro st i
    rw [scan_number_traced.eq_def]
    by_cases hi : i < remaining
    · rw [scan_number_loop_cons _ _ _ _ _ _ hi]
      simp only [hi, if_true]
      cases hstep : num_step st c with
      | none =>
        simp only
        split_ifs <;> exact ⟨rfl, ascending_cons _ _ _ (ascending_nil (start + i + 1)) (by omega)⟩
      | some st2 =>
        simp only
        exact ⟨(ih st2 (i + 1)).1, ascending_cons _ _ _ (ih st2 (i + 1)).2 (by omega)⟩
    · rw [scan_number_loop_done _ _ _ _ _ hi]
      simp only [hi, if_false]
      split_ifs <;> exact ⟨rfl, ascending_nil _⟩

theorem strncmp_traced_fst : ∀ (lit p : List Nat) (n pos : Nat),
    (strncmp_traced pos lit p n).1 = strncmp_eq lit p n ∧
    Ascending pos (strncmp_traced pos lit p n).2 := by
  intro lit p n
  induction n generalizing lit p with
  | zero =>
    intro pos
    simp only [strncmp_traced, strncmp_eq]
    exact ⟨trivial, ascending_nil _⟩
  | succ n ih =>
    intro pos
    rcases p with _ | ⟨c, cs⟩
    · simp only [strncmp_traced, strncmp_eq]
      exact ⟨trivial, ascending_cons _ _ _ (ascending_nil (pos + 1)) (by omega)⟩
    · rcases lit with _ | ⟨l, ls⟩
      · simp only [strncmp_traced, strncmp_eq]
        exact ⟨trivial, ascending_cons _ _ _ (ascending_nil (pos + 1)) (by omega)⟩
      · simp only [strncmp_traced, strncmp_eq]
        by_cases hl : l = c
        · rw [if_pos hl, if_pos hl]
          exact ⟨(ih ls cs (pos + 1)).1, ascending_cons _ _ _ (ih ls cs (pos + 1)).2 (by omega)⟩
        · rw [if_neg hl, if_neg hl]
          exact ⟨rfl, ascending_cons _ _ _ (ascending_nil (pos + 1)) (by omega)⟩
theorem ascending_one (a : Nat) : Ascending a [a] :=
  ascending_cons a (a + 1) [] (ascending_nil _) (by omega)

set_option maxHeartbeats 4000000 in
theorem scan_string_traced_fst (start remaining : Nat) : ∀ (m : Nat) (rest : List Nat)
    (i : Nat) (escaped : Bool), rest.length ≤ m →
    (scan_string_traced start remaining i escaped rest).1 =
      scan_string_loop start remaining i escaped rest ∧
    Ascending (start + i) (scan_string_traced start remaining i escaped rest).2 := by
  intro m
  induction m with
  | zero =>
    intro rest i escaped hlen
    have hnil : rest = [] := List.length_eq_zero.1 (by omega)
    subst hnil
    rewrite [scan_string_traced.eq_def, scan_string_loop.eq_def]
    by_cases hi : i < remaining
    · simp only [hi, if_true]
      exact ⟨trivial, ascending_one _⟩
    · simp only [hi, if_false]
      exact ⟨trivial, ascending_nil _⟩
  | succ m ih =>
    intro rest i escaped hlen
    rewrite [scan_string_traced.eq_def, scan_string_loop.eq_def]
    by_cases hi : i < remaining
    · simp only [hi, if_true]
      rcases rest with _ | ⟨c, cs⟩
      · simp only
        exact ⟨trivial, ascending_one _⟩
      · have hcs : cs.length ≤ m := by
          simp only [List.length_cons] at hlen
          omega
        have ih1 := fun e => ih cs (i + 1) e hcs
        simp only
        cases escaped with
        | false =>
          simp only [Bool.false_eq_true, if_false]
          by_cases h34 : c = 34
          · rw [if_pos h34, if_pos h34]
            exact ⟨rfl, ascending_one _⟩
          · rw [if_neg h34, if_neg h34]
            by_cases h92 : c = 92
            · rw [if_pos h92, if_pos h92]
              exact ⟨(ih1 true).1, ascending_cons _ _ _ (ih1 true).2 (by omega)⟩
            · rw [if_neg h92, if_neg h92]
              exact ⟨(ih1 false).1, ascending_cons _ _ _ (ih1 false).2 (by omega)⟩
        | true =>
          simp only [if_true]
          by_cases hs : c = 34 ∨ c = 92 ∨ c = 47 ∨ c = 98 ∨ c = 102 ∨ c = 110 ∨ c = 114 ∨ c = 116
          · rw [if_pos hs, if_pos hs]
            exact ⟨(ih1 false).1, ascending_cons _ _ _ (ih1 false).2 (by omega)⟩
          · rw [if_neg hs, if_neg hs]
            by_cases hu : c = 117
            · rw [if_pos hu, if_pos hu]
              by_cases h4 : i + 4 > remaining
              · rw [if_pos h4, if_pos h4]
                exact ⟨rfl, ascending_one _⟩
              · rw [if_neg h4, if_neg h4]
                rcases cs with _ | ⟨h1, t1⟩
                · exact ⟨rfl, ascending_cons _ _ _ (ascending_one (start + i + 1)) (by omega)⟩
                · simp only
                  cases x1 : isxdigit h1
                  · exact ⟨rfl, ascending_cons _ _ _ (ascending_one (start + i + 1)) (by omega)⟩
                  · simp only [Bool.not_true, Bool.false_eq_true, if_false]
                    rcases t1 with _ | ⟨h2, t2⟩
                    · exact ⟨rfl, ascending_cons _ _ _ (ascending_cons _ _ _
                        (ascending_one (start + i + 2)) (Nat.lt_succ_self _)) (by omega)⟩
                    · simp only
                      cases x2 : isxdigit h2
                      · exact ⟨rfl, ascending_cons _ _ _ (ascending_cons _ _ _
                          (ascending_one (start + i + 2)) (Nat.lt_succ_self _)) (by omega)⟩
                      · simp only [Bool.not_true, Bool.false_eq_true, if_false]
                        rcases t2 with _ | ⟨h3, t3⟩
                        · exact ⟨rfl, ascending_cons _ _ _ (ascending_cons _ _ _
                            (ascending_cons _ _ _ (ascending_one (start + i + 3))
                              (Nat.lt_succ_self _)) (Nat.lt_succ_self _)) (by omega)⟩
                        · simp only
                          cases x3 : isxdigit h3
                          · exact ⟨rfl, ascending_cons _ _ _ (ascending_cons _ _ _
                              (ascending_cons _ _ _ (ascending_one (start + i + 3))
                                (Nat.lt_succ_self _)) (Nat.lt_succ_self _)) (by omega)⟩
                          · simp only [Bool.not_true, Bool.false_eq_true, if_false]
                            rcases t3 with _ | ⟨h4, t4⟩
                            · exact ⟨rfl, ascending_cons _ _ _ (ascending_cons _ _ _
                                (ascending_cons _ _ _ (ascending_cons _ _ _
                                  (ascending_one (start + i + 4)) (Nat.lt_succ_self _))
                                  (Nat.lt_succ_self _)) (Nat.lt_succ_self _)) (by omega)⟩
                            · simp only
                              cases x4 : isxdigit h4
                              · exact ⟨rfl, ascending_cons _ _ _ (ascending_cons _ _ _
                                  (ascending_cons _ _ _ (ascending_cons _ _ _
                                    (ascending_one (start + i + 4)) (Nat.lt_succ_self _))
                                    (Nat.lt_succ_self _)) (Nat.lt_succ_self _)) (by omega)⟩
                              · simp only [Bool.not_true, Bool.false_eq_true, if_false]
                                have ih4 := ih t4 (i + 4 + 1) false (by
                                  simp only [List.length_cons] at hcs
                                  omega)
                                exact ⟨ih4.1, ascending_cons _ _ _ (ascending_cons _ _ _
                                  (ascending_cons _ _ _ (ascending_cons _ _ _
                                    (ascending_cons _ _ _ ih4.2 (by omega))
                                    (Nat.lt_succ_self _)) (Nat.lt_succ_self _))
                                    (Nat.lt_succ_self _)) (by omega)⟩
            · rw [if_neg hu, if_neg hu]
              exact ⟨rfl, ascending_one _⟩
    · simp only [hi, if_false]
      exact ⟨trivial, ascending_nil _⟩
theorem two_runs_nil (lo : Nat) : TwoRuns lo [] :=
  ⟨[], [], rfl, ascending_nil _, ascending_nil _, fun _ ha => absurd ha (List.not_mem_nil _)⟩

theorem two_runs_one (a : Nat) : TwoRuns a [a] :=
  ⟨[a], [], rfl, ascending_one a, ascending_nil a, fun _ _ _ hx => absurd hx (List.not_mem_nil _)⟩

theorem two_runs_sub (a lo : Nat) (l : List Nat) (h : Ascending lo l) (hlo : a ≤ lo) :
    TwoRuns a (a :: l) := by
  refine ⟨[a], l, rfl, ascending_one a, ascending_mono a lo l h hlo, fun x hx y hy => ?_⟩
  rcases List.mem_singleton.1 hx with rfl
  exact Nat.le_trans hlo (h.2 y hy)

theorem two_runs_cons (a lo : Nat) (l : List Nat) (h : TwoRuns lo l) (hlo : a < lo) :
    TwoRuns a (a :: l) := by
  obtain ⟨A, B, hAB, hA, hB, hle⟩ := h
  refine ⟨a :: A, B, by simp only [hAB, List.cons_append], ascending_cons _ _ _ hA hlo,
    ascending_mono a lo B hB (Nat.le_of_lt hlo), fun x hx y hy => ?_⟩
  rcases List.mem_cons.1 hx with rfl | hx
  · have := hB.2 y hy
    omega
  · exact hle x hx y hy

theorem two_runs_facts (lo : Nat) (l : List Nat) (h : TwoRuns lo l) :
    l.Pairwise (· ≤ ·) ∧ (∀ x ∈ l, lo ≤ x) ∧ ∀ idx, l.count idx ≤ 2 := by
  obtain ⟨A, B, rfl, hA, hB, hle⟩ := h
  refine ⟨List.pairwise_append.2 ⟨hA.1.imp (fun hab => Nat.le_of_lt hab),
    hB.1.imp (fun hab => Nat.le_of_lt hab), hle⟩, fun x hx => ?_, fun idx => ?_⟩
  · rcases List.mem_append.1 hx with hx | hx
    · exact hA.2 x hx
    · exact hB.2 x hx
  · rw [List.count_append]
    have h1 := ascending_count _ idx A hA
    have h2 := ascending_count _ idx B hB
    omega

theorem count_one (a idx : Nat) : ¬ 1 < [a].count idx := by
  simp only [List.count_cons, List.count_nil]
  split_ifs <;> omega

theorem count_cons_sub (a lo idx : Nat) (l : List Nat) (h : Ascending lo l) (hlo : a < lo) :
    ¬ 1 < (a :: l).count idx := by
  have h1 := ascending_count _ idx _ (ascending_cons a lo l h hlo)
  omega

theorem count_cons_first (a lo idx : Nat) (l : List Nat) (h : Ascending lo l)
    (h2 : 1 < (a :: l).count idx) : idx = a := by
  have h1 := ascending_count _ idx _ h
  rw [List.count_cons] at h2
  by_cases he : a = idx
  · exact he.symm
  · simp only [beq_iff_eq, he, if_false] at h2
    omega

theorem count_cons_runs (a lo idx : Nat) (l : List Nat) (h : TwoRuns lo l) (hlo : a < lo)
    (h2 : 1 < (a :: l).count idx) : 1 < l.count idx := by
  rw [List.count_cons] at h2
  by_cases he : a = idx
  · have h0 : l.count idx = 0 := by
      apply List.count_eq_zero.2
      intro hmem
      have := (two_runs_facts lo l h).2.1 idx hmem
      omega
    simp only [beq_iff_eq, he, if_true] at h2
    omega
  · simp only [beq_iff_eq, he, if_false] at h2
    omega

set_option maxHeartbeats 4000000 in
theorem next_traced_fst (scanner : JsonScanner) (s remaining : Nat) : ∀ (rest : List Nat)
    (i : Nat),
    (next_traced scanner s remaining i rest).1 = next_loop scanner s remaining i rest ∧
    TwoRuns (s + i) (next_traced scanner s remaining i rest).2 ∧
    ∀ idx, 1 < (next_traced scanner s remaining i rest).2.count idx →
      ∃ ws c tl, rest = ws ++ c :: tl ∧ AllWhitespace ws ∧ idx = s + i + ws.length ∧
        (c = 45 ∨ isdigit c = true ∨ c = 116 ∨ c = 102 ∨ c = 110) := by
  intro rest
  induction rest with
  | nil =>
    intro i
    rewrite [next_traced.eq_def, next_loop.eq_def]
    by_cases hi : i < remaining
    · simp only [hi, if_true]
      exact ⟨trivial, two_runs_one _, fun idx h => absurd h (count_one _ idx)⟩
    · simp only [hi, if_false]
      exact ⟨trivial, two_runs_nil _, fun idx h => absurd h (by simp)⟩
  | cons c cs ih =>
    intro i
    rewrite [next_traced.eq_def, next_loop.eq_def]
    by_cases hi : i < remaining
    · simp only [hi, if_true]
      by_cases hw : is_whitespace c = true
      · rw [if_pos hw, if_pos hw]
        refine ⟨(ih (i + 1)).1, two_runs_cons _ _ _ (ih (i + 1)).2.1 (by omega), fun idx h => ?_⟩
        obtain ⟨ws, d, tl, hsplit, hall, hidx, hd⟩ :=
          (ih (i + 1)).2.2 idx (count_cons_runs _ _ idx _ (ih (i + 1)).2.1 (by omega) h)
        refine ⟨c :: ws, d, tl, by rw [hsplit, List.cons_append], ?_, ?_, hd⟩
        · intro x hx
          rcases List.mem_cons.1 hx with rfl | hx
          · exact hw
          · exact hall x hx
        · simp only [List.length_cons]
          omega
      · rw [if_neg hw, if_neg hw]
        by_cases h1 : c = 44
        · rw [if_pos h1, if_pos h1]
          exact ⟨rfl, two_runs_one _, fun idx h => absurd h (count_one _ idx)⟩
        rw [if_neg h1, if_neg h1]
        by_cases h2 : c = 58
        · rw [if_pos h2, if_pos h2]
          exact ⟨rfl, two_runs_one _, fun idx h => absurd h (count_one _ idx)⟩
        rw [if_neg h2, if_neg h2]
        by_cases h3 : c = 123
        · rw [if_pos h3, if_pos h3]
          exact ⟨rfl, two_runs_one _, fun idx h => absurd h (count_one _ idx)⟩
        rw [if_neg h3, if_neg h3]
        by_cases h4 : c = 125
        · rw [if_pos h4, if_pos h4]
          exact ⟨rfl, two_runs_one _, fun idx h => absurd h (count_one _ idx)⟩
        rw [if_neg h4, if_neg h4]
        by_cases h5 : c = 91
        · rw [if_pos h5, if_pos h5]
          exact ⟨rfl, two_runs_one _, fun idx h => absurd h (count_one _ idx)⟩
        rw [if_neg h5, if_neg h5]
        by_cases h6 : c = 93
        · rw [if_pos h6, if_pos h6]
          exact ⟨rfl, two_runs_one _, fun idx h => absurd h (count_one _ idx)⟩
        rw [if_neg h6, if_neg h6]
        by_cases h7 : c = 34
        · rw [if_pos h7, if_pos h7]
          have hs := scan_string_traced_fst (s + i + 1) (size_sub scanner.len (s + i + 1))
            (scanner.start.drop (s + i + 1)).length (scanner.start.drop (s + i + 1)) 0 false
            (Nat.le_refl _)
          exact ⟨hs.1, two_runs_sub _ _ _ hs.2 (by omega),
            fun idx h => absurd h (count_cons_sub _ _ idx _ hs.2 (by omega))⟩
        rw [if_neg h7, if_neg h7]
        by_cases h8 : c = 45
        · rw [if_pos h8, if_pos h8]
          have hn := scan_number_traced_fst (s + i) (size_sub scanner.len (s + i))
            (scanner.start.drop (s + i)) STATE_START 0
          exact ⟨hn.1, two_runs_sub _ _ _ hn.2 (by omega), fun idx h =>
            ⟨[], c, cs, rfl, allWhitespace_nil, count_cons_first _ _ idx _ hn.2 h, Or.inl h8⟩⟩
        rw [if_neg h8, if_neg h8]
        by_cases h9 : c = 116
        · rw [if_pos h9, if_pos h9]
          have hc := strncmp_traced_fst lit_true (c :: cs) (min 4 remaining) (s + i)
          simp only [hc.1]
          exact ⟨trivial, two_runs_sub _ _ _ hc.2 (by omega), fun idx h =>
            ⟨[], c, cs, rfl, allWhitespace_nil, count_cons_first _ _ idx _ hc.2 h,
              Or.inr (Or.inr (Or.inl h9))⟩⟩
        rw [if_neg h9, if_neg h9]
        by_cases h10 : c = 102
        · rw [if_pos h10, if_pos h10]
          have hc := strncmp_traced_fst lit_false (c :: cs) (min 5 remaining) (s + i)
          simp only [hc.1]
          exact ⟨trivial, two_runs_sub _ _ _ hc.2 (by omega), fun idx h =>
            ⟨[], c, cs, rfl, allWhitespace_nil, count_cons_first _ _ idx _ hc.2 h,
              Or.inr (Or.inr (Or.inr (Or.inl h10)))⟩⟩
        rw [if_neg h10, if_neg h10]
        by_cases h11 : c = 110
        · rw [if_pos h11, if_pos h11]
          have hc := strncmp_traced_fst lit_null (c :: cs) (min 4 remaining) (s + i)
          simp only [hc.1]
          exact ⟨trivial, two_runs_sub _ _ _ hc.2 (by omega), fun idx h =>
            ⟨[], c, cs, rfl, allWhitespace_nil, count_cons_first _ _ idx _ hc.2 h,
              Or.inr (Or.inr (Or.inr (Or.inr h11)))⟩⟩
        rw [if_neg h11, if_neg h11]
        by_cases hd : isdigit c = true
        · rw [if_pos hd, if_pos hd]
          have hn := scan_number_traced_fst (s + i) (size_sub scanner.len (s + i))
            (scanner.start.drop (s + i)) STATE_START 0
          exact ⟨hn.1, two_runs_sub _ _ _ hn.2 (by omega), fun idx h =>
            ⟨[], c, cs, rfl, allWhitespace_nil, count_cons_first _ _ idx _ hn.2 h,
              Or.inr (Or.inl hd)⟩⟩
        · rw [if_neg hd, if_neg hd]
          exact ⟨rfl, two_runs_one _, fun idx h => absurd h (count_one _ idx)⟩
    · simp only [hi, if_false]
      exact ⟨trivial, two_runs_nil _, fun idx h => absurd h (by simp)⟩

theorem next_traced_agrees (scanner : JsonScanner) (last_token : JsonToken) :
    (json_scanner_next_traced scanner last_token).1 = json_scanner_next scanner last_token := by
  unfold json_scanner_next_traced json_scanner_next
  by_cases he : last_token.type = JST_EOF
  · rw [if_pos he, if_pos he]
  · rw [if_neg he, if_neg he]
    exact (next_traced_fst _ _ _ _ _).1

theorem next_traced_runs (scanner : JsonScanner) (last_token : JsonToken) :
    TwoRuns (resume last_token) (json_scanner_next_traced scanner last_token).2 := by
  unfold json_scanner_next_traced
  by_cases he : last_token.type = JST_EOF
  · rw [if_pos he]
    exact two_runs_nil _
  · rw [if_neg he]
    exact (next_traced_fst scanner (resume last_token)
      (size_sub scanner.len (resume last_token)) (scanner.start.drop (resume last_token)) 0).2.1

theorem next_eof_fixed (scanner : JsonScanner) (t : JsonToken) (h : t.type = JST_EOF) :
    ∀ n, next_chain scanner n t = some t := by
  intro n
  induction n with
  | zero => rfl
  | succ n ih =>
    have h1 : json_scanner_next scanner t = some t := by
      simp [json_scanner_next, h]
    simp [next_chain, h1, ih]

theorem chain_progress (b : List Nat) (hL : b.length < SIZE_MOD) : ∀ (n : Nat)
    (p t : JsonToken), p.type ≠ JST_EOF → next_chain (scannerOf b) (n + 1) p = some t →
    t.type ≠ JST_EOF → resume p < resume t := by
  intro n
  induction n with
  | zero =>
    intro p t hne h hte
    rw [next_chain] at h
    cases hn : json_scanner_next (scannerOf b) p with
    | none => simp [hn] at h
    | some t2 =>
      rw [hn] at h
      simp only [next_chain, Option.some.injEq] at h
      subst h
      exact (next_progress b p t2 hL hne hn hte).2
  | succ n ih =>
    intro p t hne h hte
    rw [next_chain] at h
    cases hn : json_scanner_next (scannerOf b) p with
    | none => simp [hn] at h
    | some t2 =>
      rw [hn] at h
      simp only at h
      have h2 : t2.type ≠ JST_EOF := by
        intro he
        rw [next_eof_fixed (scannerOf b) t2 he (n + 1)] at h
        simp only [Option.some.injEq] at h
        subst h
        exact hte he
      have h3 := (next_progress b p t2 hL hne hn h2).2
      have h4 := ih t2 t h2 h hte
      omega
theorem scan_number_traced_head (start remaining c : Nat) (cs : List Nat) (st : State)
    (h : 0 < remaining) :
    ∃ l, (scan_number_traced start remaining st 0 (c :: cs)).2 = (start + 0) :: l := by
  rewrite [scan_number_traced.eq_def]
  simp only [h, if_true]
  cases num_step st c with
  | none =>
    simp only
    split_ifs <;> exact ⟨_, rfl⟩
  | some st2 => exact ⟨_, rfl⟩

theorem strncmp_traced_head (pos l0 c n : Nat) (ls cs : List Nat) (h : 0 < n) :
    ∃ l, (strncmp_traced pos (l0 :: ls) (c :: cs) n).2 = pos :: l := by
  obtain ⟨k, rfl⟩ : ∃ k, n = k + 1 := ⟨n - 1, by omega⟩
  simp only [strncmp_traced]
  split_ifs <;> exact ⟨_, rfl⟩

theorem count_twice (a idx : Nat) (l l2 : List Nat) (h : l = a :: l2) (ha : a = idx) :
    1 < (a :: l).count idx := by
  subst h
  subst ha
  simp only [List.count_cons_self]
  omega

theorem next_traced_first_twice (b : List Nat) (hL : b.length < SIZE_MOD) (r : Nat) :
    ∀ (ws : List Nat) (i c : Nat) (tl : List Nat), b.drop (r + i) = ws ++ c :: tl →
    AllWhitespace ws → (c = 45 ∨ isdigit c = true ∨ c = 116 ∨ c = 102 ∨ c = 110) →
    1 < (next_traced (scannerOf b) r (b.length - r) i (ws ++ c :: tl)).2.count
      (r + i + ws.length) := by
  intro ws
  induction ws with
  | nil =>
    intro i c tl hdrop _ hc
    have hlt : r + i < b.length := by
      have := (@split_index b (r + i) c [] tl hdrop).1
      simpa using this
    have hi : i < b.length - r := by omega
    have hsz : size_sub b.length (r + i) = b.length - (r + i) := size_sub_of_le hL (by omega)
    have hrem : 0 < b.length - (r + i) := by omega
    have hnum : 1 < ((r + i) :: (scan_number_traced (r + i) (size_sub (scannerOf b).len (r + i))
        STATE_START 0 ((scannerOf b).start.drop (r + i))).2).count (r + i) := by
      simp only [scannerOf, json_scanner_init, hsz, hdrop, List.nil_append]
      obtain ⟨l, hl⟩ := scan_number_traced_head (r + i) (b.length - (r + i)) c tl STATE_START hrem
      exact count_twice _ _ _ _ hl rfl
    have hmin4 : 0 < min 4 (b.length - r) := by omega
    have hmin5 : 0 < min 5 (b.length - r) := by omega
    rewrite [next_traced.eq_def]
    simp only [hi, if_true, List.nil_append, List.length_nil, Nat.add_zero]
    rcases hc with rfl | hd | rfl | rfl | rfl
    · simp +decide only [if_false, if_true]
      exact hnum
    · have hb := (isdigit_iff c).1 hd
      have hw : is_whitespace c = false := by
        simp only [is_whitespace]
        simp
        omega
      have hne : c ≠ 44 ∧ c ≠ 58 ∧ c ≠ 123 ∧ c ≠ 125 ∧ c ≠ 91 ∧ c ≠ 93 ∧ c ≠ 34 ∧ c ≠ 45 ∧
          c ≠ 116 ∧ c ≠ 102 ∧ c ≠ 110 := by omega
      obtain ⟨h1, h2, h3, h4, h5, h6, h7, h8, h9, h10, h11⟩ := hne
      simp only [hw, h1, h2, h3, h4, h5, h6, h7, h8, h9, h10, h11, hd, if_false, if_true,
        Bool.false_eq_true]
      exact hnum
    · simp +decide only [if_false, if_true]
      obtain ⟨l, hl⟩ := strncmp_traced_head (r + i) 116 116 (min 4 (b.length - r))
        [114, 117, 101] tl hmin4
      exact count_twice _ _ _ _ hl rfl
    · simp +decide only [if_false, if_true]
      obtain ⟨l, hl⟩ := strncmp_traced_head (r + i) 102 102 (min 5 (b.length - r))
        [97, 108, 115, 101] tl hmin5
      exact count_twice _ _ _ _ hl rfl
    · simp +decide only [if_false, if_true]
      obtain ⟨l, hl⟩ := strncmp_traced_head (r + i) 110 110 (min 4 (b.length - r))
        [117, 108, 108] tl hmin4
      exact count_twice _ _ _ _ hl rfl
  | cons w ws ih =>
    intro i c tl hdrop hws hc
    have hlt : r + i < b.length := by
      have h1 := congrArg List.length hdrop
      simp only [List.length_drop, List.cons_append, List.length_cons] at h1
      omega
    have hi : i < b.length - r := by omega
    have hw : is_whitespace w = true := hws w (List.mem_cons_self _ _)
    have hdrop2 : b.drop (r + (i + 1)) = ws ++ c :: tl := by
      have h1 : b.drop (r + (i + 1)) = (b.drop (r + i)).drop 1 := by
        rw [List.drop_drop, Nat.add_assoc]
      rw [h1, hdrop]
      rfl
    have h2 := ih (i + 1) c tl hdrop2 (fun x hx => hws x (List.mem_cons_of_mem _ hx)) hc
    rewrite [next_traced.eq_def]
    simp only [hi, if_true, List.cons_append, hw, List.length_cons]
    have h3 : r + i + (ws.length + 1) = r + (i + 1) + ws.length := by omega
    rw [h3, List.count_cons]
    omega

theorem first_inspected_twice (b : List Nat) (p : JsonToken) (idx : Nat)
    (hL : b.length < SIZE_MOD) (hne : p.type ≠ JST_EOF)
    (h : FirstOfNumberOrLiteral b (resume p) idx) :
    1 < (json_scanner_next_traced (scannerOf b) p).2.count idx := by
  obtain ⟨hr, hws, c, hq, hc⟩ := h
  obtain ⟨hsplit, hall, hlen⟩ := index_split b (resume p) idx c hr hq hws
  have hlt : idx < b.length := by
    by_contra hge
    rw [List.getElem?_eq_none (by omega)] at hq
    exact absurd hq (by simp)
  have h1 := next_traced_first_twice b hL (resume p) (slice b (resume p) idx) 0 c
    (b.drop (idx + 1)) hsplit hall hc
  unfold json_scanner_next_traced
  rw [if_neg hne]
  simp only [scannerOf, json_scanner_init]
  rw [size_sub_of_le hL (by omega), hsplit]
  have h2 : resume p + 0 + (slice b (resume p) idx).length = idx := by omega
  rw [h2] at h1
  exact h1

theorem twice_is_first (b : List Nat) (p : JsonToken) (idx : Nat)
    (h : 1 < (json_scanner_next_traced (scannerOf b) p).2.count idx) :
    FirstOfNumberOrLiteral b (resume p) idx := by
  unfold json_scanner_next_traced at h
  by_cases he : p.type = JST_EOF
  · rw [if_pos he] at h
    simp at h
  · rw [if_neg he] at h
    obtain ⟨ws, c, tl, hsplit, hall, hidx, hc⟩ := (next_traced_fst _ _ _ _ _).2.2 idx h
    have hsplit2 : b.drop (resume p) = ws ++ c :: tl := hsplit
    obtain ⟨_, hq⟩ := split_index hsplit2
    have hidx2 : idx = resume p + ws.length := by omega
    refine ⟨by omega, fun j hj1 hj2 => ?_, c, by rw [hidx2]; exact hq, hc⟩
    have hj : j - resume p < ws.length := by omega
    have h1 : b[j]? = (b.drop (resume p))[j - resume p]? := by
      rw [List.getElem?_drop]
      congr 1
      omega
    rw [h1, hsplit2, List.getElem?_append_left hj, List.getElem?_eq_getElem hj]
    exact ⟨_, rfl, hall _ (List.getElem_mem _)⟩

/-- C19 (amended): scanning always makes progress.  For every buffer shorter than 2^64 bytes
and every previous token `p` that is not `JST_EOF`: a token other than `JST_EOF` returned by
`json_scanner_next` has a resume offset strictly greater than that of `p`, and so has every
token other than `JST_EOF` reached by a chain of one or more calls, so the chain never
repeats a position.  The offsets one call inspects, recorded by `json_scanner_next_traced`
(which returns the same token), never decrease, all lie at or after the resume offset of
`p`, and no offset is inspected more than twice: the first byte of a number or of a literal
is inspected exactly twice, every other byte at most once. -/
theorem scan_makes_progress (b : List Nat) (p : JsonToken) (hL : b.length < SIZE_MOD)
    (hne : p.type ≠ JST_EOF) :
    (∀ t, json_scanner_next (scannerOf b) p = some t → t.type ≠ JST_EOF →
      resume p < resume t) ∧
    (∀ n t, next_chain (scannerOf b) (n + 1) p = some t → t.type ≠ JST_EOF →
      resume p < resume t) ∧
    (json_scanner_next_traced (scannerOf b) p).1 = json_scanner_next (scannerOf b) p ∧
    (json_scanner_next_traced (scannerOf b) p).2.Pairwise (· ≤ ·) ∧
    (∀ x ∈ (json_scanner_next_traced (scannerOf b) p).2, resume p ≤ x) ∧
    (∀ idx, (json_scanner_next_traced (scannerOf b) p).2.count idx ≤ 2) ∧
    (∀ idx, FirstOfNumberOrLiteral b (resume p) idx →
      (json_scanner_next_traced (scannerOf b) p).2.count idx = 2) ∧
    ∀ idx, ¬ FirstOfNumberOrLiteral b (resume p) idx →
      (json_scanner_next_traced (scannerOf b) p).2.count idx ≤ 1 := by
  have hfacts := two_runs_facts _ _ (next_traced_runs (scannerOf b) p)
  refine ⟨fun t h hte => (next_progress b p t hL hne h hte).2,
    fun n t h hte => chain_progress b hL n p t hne h hte,
    next_traced_agrees (scannerOf b) p, hfacts.1, hfacts.2.1, hfacts.2.2, fun idx h => ?_,
    fun idx h => ?_⟩
  · have h1 := first_inspected_twice b p idx hL hne h
    have h2 := hfacts.2.2 idx
    omega
  · by_contra hgt
    exact h (twice_is_first b p idx (by omega))

/-- C19, witness: the first call on the buffer ` 12,` returns the number at offset 1 and
inspects the offsets 0, 1, 1, 2, 3; offset 1, the first byte of the number, is inspected
twice. -/
theorem scan_makes_progress_witness :
    [32, 49, 50, 44].length < SIZE_MOD ∧ beginToken.type ≠ JST_EOF ∧
    json_scanner_next (scannerOf [32, 49, 50, 44]) beginToken = some ⟨JST_NUMBER, 1, 2⟩ ∧
    (json_scanner_next_traced (scannerOf [32, 49, 50, 44]) beginToken).2 = [0, 1, 1, 2, 3] ∧
    resume beginToken < resume ⟨JST_NUMBER, 1, 2⟩ ∧
    FirstOfNumberOrLiteral [32, 49, 50, 44] (resume beginToken) 1 ∧
    (json_scanner_next_traced (scannerOf [32, 49, 50, 44]) beginToken).2.count 1 = 2 :=
  have hfirst : FirstOfNumberOrLiteral [32, 49, 50, 44] (resume beginToken) 1 :=
    ⟨by decide, fun j _ hj => by
      obtain rfl : j = 0 := by omega
      exact ⟨32, rfl, rfl⟩, 49, rfl, Or.inr (Or.inl rfl)⟩
  ⟨by decide, by decide, by decide, by decide,
    (scan_makes_progress [32, 49, 50, 44] beginToken (by decide) (by decide)).1
      ⟨JST_NUMBER, 1, 2⟩ (by decide) (by decide),
    hfirst,
    (scan_makes_progress [32, 49, 50, 44] beginToken (by decide) (by decide)).2.2.2.2.2.2.1 1
      hfirst⟩

/-- C19, counterexample to the last part of the claim as written: on the one-byte buffer
`1` the first call inspects offset 0 twice, once in the switch of `json_scanner_next` and
once more in the start state of `scan_number`; on `true` it does so in the switch and in
`strncmp`. -/
theorem first_byte_inspected_twice :
    json_scanner_next (scannerOf [49]) beginToken = some ⟨JST_NUMBER, 0, 1⟩ ∧
    (json_scanner_next_traced (scannerOf [49]) beginToken).2 = [0, 0] ∧
    (json_scanner_next_traced (scannerOf [49]) beginToken).2.count 0 = 2 ∧
    json_scanner_next (scannerOf [116, 114, 117, 101]) beginToken = some ⟨JST_TRUE, 0, 4⟩ ∧
    (json_scanner_next_traced (scannerOf [116, 114, 117, 101]) beginToken).2 =
      [0, 0, 1, 2, 3] := by
  decide
theorem scan_number_loop_within (start remaining : Nat) (x : List Nat) (t : JsonToken) :
    ∀ (rest : List Nat) (st : State) (i : Nat),
    scan_number_loop start remaining st i rest = some t →
    scan_number_loop start remaining st i (rest ++ x) = some t := by
  intro rest
  induction rest with
  | nil =>
    intro st i h
    by_cases hi : i < remaining
    · rw [scan_number_loop_oob _ _ _ _ hi] at h
      exact absurd h (by simp)
    · rw [scan_number_loop_done _ _ _ _ _ hi] at h
      rw [scan_number_loop_done _ _ _ _ _ hi]
      exact h
  | cons c cs ih =>
    intro st i h
    by_cases hi : i < remaining
    · rw [scan_number_loop_cons _ _ _ _ _ _ hi] at h
      rw [List.cons_append, scan_number_loop_cons _ _ _ _ _ _ hi]
      cases hstep : num_step st c with
      | none =>
        rw [hstep] at h
        exact h
      | some st2 =>
        rw [hstep] at h
        exact ih st2 (i + 1) h
    · rw [scan_number_loop_done _ _ _ _ _ hi] at h
      rw [scan_number_loop_done _ _ _ _ _ hi]
      exact h

theorem scan_string_loop_guard (start remaining i : Nat) (cs : List Nat) (hi : i < remaining)
    (hg : i + 4 > remaining) :
    scan_string_loop start remaining i true (117 :: cs) =
      some ⟨JST_ERR_BAD_ESCAPE, start, i⟩ := by
  rw [scan_string_loop.eq_def]
  simp [hi, hg]

theorem scan_string_loop_within (start remaining : Nat) (x : List Nat) (t : JsonToken)
    (rest : List Nat) (i : Nat) (hrem : remaining = i + rest.length)
    (h : scan_string_loop start remaining i false rest = some t) :
    scan_string_loop start remaining i false (rest ++ x) = some t := by
  rw [hrem] at h
  obtain ⟨body, tail, hsplit, hbody, hform⟩ := scan_string_loop_class start rest i t h
  subst hsplit
  simp only [List.length_append] at hrem
  rw [List.append_assoc]
  rcases hform with ⟨⟨tl, rfl⟩, rfl⟩ | ⟨htail, rfl⟩ | ⟨⟨e, tl, rfl, he, hrun, hbad⟩, rfl⟩
  · simp only [List.length_cons] at hrem
    rw [List.cons_append]
    exact scan_string_loop_body start body hbody _ i _ (by omega)
  · rw [scan_string_loop_skip start body hbody _ i _ (by omega)]
    rcases htail with rfl | rfl
    · simp only [List.length_nil] at hrem
      rw [scan_string_loop_done _ _ _ _ _ (by omega)]
      simp only [List.append_nil]
      rw [hrem]
      rfl
    · simp only [List.length_cons, List.length_nil] at hrem
      rw [List.cons_append, scan_string_loop_backslash _ _ _ _ (by omega),
        scan_string_loop_done _ _ _ _ _ (by omega)]
      simp only [List.length_append, List.length_cons, List.length_nil]
      rw [hrem]
  · simp only [List.length_cons] at hrem
    rw [scan_string_loop_skip start body hbody _ i _ (by omega)]
    simp only [List.cons_append]
    rw [scan_string_loop_backslash _ _ _ _ (by omega)]
    by_cases hu : e = 117
    · subst hu
      by_cases hg : i + body.length + 1 + 4 > remaining
      · exact scan_string_loop_guard _ _ _ _ (by omega) hg
      · have hlt : hex_run tl < tl.length := by
          rcases hbad with hb | hb | hb
          · exact absurd rfl hb
          · omega
          · exact hb
        rw [scan_string_loop_u_bad _ _ _ _ (by omega)
          (by rw [hex_run_append tl x hlt]; exact hrun rfl), if_pos]
        right
        rw [hex_run_append tl x hlt]
        simp only [List.length_append]
        omega
    · exact scan_string_loop_other _ _ _ _ _ (by omega) he hu
theorem scan_string_within_eq (b m : List Nat) (a : Nat) (hL : b.length < SIZE_MOD)
    (ha : a ≤ b.length) :
    scan_string (scannerWithin b m) a =
      scan_string_loop a (b.length - a) 0 false (b.drop a ++ m) := by
  simp only [scan_string, scannerWithin]
  rw [size_sub_of_le hL ha, drop_append_le b m a ha]

theorem scan_number_within_eq (b m : List Nat) (q : Nat) (hL : b.length < SIZE_MOD)
    (hq : q ≤ b.length) :
    scan_number (scannerWithin b m) q =
      scan_number_loop q (b.length - q) STATE_START 0 (b.drop q ++ m) := by
  simp only [scan_number, scannerWithin]
  rw [size_sub_of_le hL hq, drop_append_le b m q hq]

theorem next_within_eq (b m : List Nat) (p : JsonToken) (hL : b.length < SIZE_MOD)
    (hne : p.type ≠ JST_EOF) (hr : resume p ≤ b.length) :
    json_scanner_next (scannerWithin b m) p =
      next_loop (scannerWithin b m) (resume p) (b.length - resume p) 0
        (b.drop (resume p) ++ m) := by
  simp only [json_scanner_next, hne, if_false]
  simp only [scannerWithin]
  rw [size_sub_of_le hL hr, drop_append_le b m _ hr]

theorem next_within_split (b m : List Nat) (p : JsonToken) (ws : List Nat) (c : Nat)
    (cs : List Nat) (hL : b.length < SIZE_MOD) (hne : p.type ≠ JST_EOF)
    (hr : resume p ≤ b.length) (hsplit : b.drop (resume p) = ws ++ c :: cs)
    (hws : AllWhitespace ws) (hc : is_whitespace c = false) :
    json_scanner_next (scannerWithin b m) p =
      dispatch (scannerWithin b m) (resume p) (b.length - resume p) ws.length c
        (cs ++ m) := by
  have hlen := congrArg List.length hsplit
  simp at hlen
  rw [next_within_eq b m p hL hne hr, hsplit, List.append_assoc, List.cons_append,
    next_loop_ws _ _ _ ws 0 (c :: (cs ++ m)) hws (by omega), Nat.zero_add,
    next_loop_nonws _ _ _ _ _ _ (by omega) hc]

theorem next_within_ws (b m : List Nat) (p : JsonToken) (hL : b.length < SIZE_MOD)
    (hne : p.type ≠ JST_EOF) (hr : resume p ≤ b.length)
    (hws : AllWhitespace (b.drop (resume p))) :
    json_scanner_next (scannerWithin b m) p =
      some ⟨JST_EOF, resume p, b.length - resume p⟩ := by
  rw [next_within_eq b m p hL hne hr,
    next_loop_ws _ _ _ (b.drop (resume p)) 0 m hws (by simp),
    next_loop_done _ _ _ _ _ (by simp)]

theorem scan_string_within (b m : List Nat) (a : Nat) (t : JsonToken)
    (hL : b.length < SIZE_MOD) (ha : a ≤ b.length)
    (h : scan_string (scannerOf b) a = some t) :
    scan_string (scannerWithin b m) a = some t := by
  rw [scan_string_eq b a hL ha] at h
  rw [scan_string_within_eq b m a hL ha]
  exact scan_string_loop_within a _ m t _ 0 (by simp) h

theorem scan_number_within (b m : List Nat) (q : Nat) (t : JsonToken)
    (hL : b.length < SIZE_MOD) (hq : q ≤ b.length)
    (h : scan_number (scannerOf b) q = some t) :
    scan_number (scannerWithin b m) q = some t := by
  rw [scan_number_eq b q hL hq] at h
  rw [scan_number_within_eq b m q hL hq]
  have h2 : 0 + (b.drop q).length = b.length - q := by simp
  rw [h2] at h
  exact scan_number_loop_within q _ m t _ _ _ h

theorem dispatch_within (b m : List Nat) (r rem i c : Nat) (cs : List Nat) (t : JsonToken)
    (hL : b.length < SIZE_MOD) (hq : r + i < b.length)
    (h : dispatch (scannerOf b) r rem i c cs = some t) :
    dispatch (scannerWithin b m) r rem i c (cs ++ m) = some t := by
  rcases dispatch_class _ _ _ _ _ _ _ h with
    ⟨h1, h2, hk⟩ | ⟨rfl, hs⟩ | ⟨hcn, hn⟩ | ⟨rfl, hs, rfl⟩ | ⟨rfl, hs, rfl⟩ | ⟨rfl, hs, rfl⟩ |
    ⟨hm, rfl⟩ | ⟨rfl, hdef⟩
  · exact dispatch_punct _ _ _ _ _ _ t h1 h2 hk
  · rw [dispatch_string]
    exact scan_string_within b m _ t hL (by omega) hs
  · rw [dispatch_number _ _ _ _ _ _ hcn]
    exact scan_number_within b m _ t hL (by omega) hn
  · rw [dispatch_true, ← List.cons_append, strncmp_eq_append _ _ _ _ m hs]
  · rw [dispatch_false, ← List.cons_append, strncmp_eq_append _ _ _ _ m hs]
  · rw [dispatch_null, ← List.cons_append, strncmp_eq_append _ _ _ _ m hs]
  · rcases hm with ⟨rfl, hs⟩ | ⟨rfl, hs⟩ | ⟨rfl, hs⟩
    · rw [dispatch_true, ← List.cons_append, strncmp_eq_append _ _ _ _ m hs]
    · rw [dispatch_false, ← List.cons_append, strncmp_eq_append _ _ _ _ m hs]
    · rw [dispatch_null, ← List.cons_append, strncmp_eq_append _ _ _ _ m hs]
  · exact dispatch_default _ _ _ _ _ _ hdef

theorem next_within_of_exact (b m : List Nat) (p t : JsonToken) (hL : b.length < SIZE_MOD)
    (hr : resume p ≤ b.length) (h : json_scanner_next (scannerOf b) p = some t) :
    json_scanner_next (scannerWithin b m) p = some t := by
  by_cases hne : p.type = JST_EOF
  · simp only [json_scanner_next, hne, if_true] at h ⊢
    exact h
  rcases ws_split (b.drop (resume p)) with hws | ⟨ws, c, cs, hsplit, hws, hc⟩
  · rw [next_of_ws b p hL hne hr hws] at h
    rw [next_within_ws b m p hL hne hr hws]
    exact h
  · rw [next_of_split b p ws c cs hL hne hr hsplit hws hc] at h
    rw [next_within_split b m p ws c cs hL hne hr hsplit hws hc]
    exact dispatch_within b m _ _ _ _ _ t hL (split_index hsplit).1 h
theorem strncmp_eq_none : ∀ (l lit : List Nat) (n : Nat), strncmp_eq lit l n = none →
    l.length < n ∧ l <+: lit := by
  intro l
  induction l with
  | nil =>
    intro lit n h
    cases n with
    | zero => simp [strncmp_eq] at h
    | succ k => exact ⟨by simp, List.nil_prefix⟩
  | cons c cs ih =>
    intro lit n h
    cases n with
    | zero => simp [strncmp_eq] at h
    | succ k =>
      cases lit with
      | nil => simp [strncmp_eq] at h
      | cons l0 ls =>
        simp only [strncmp_eq] at h
        by_cases hl : l0 = c
        · rw [if_pos hl] at h
          obtain ⟨h1, h2⟩ := ih ls k h
          subst hl
          exact ⟨by simp only [List.length_cons]; omega, (List.cons_prefix_cons).2 ⟨rfl, h2⟩⟩
        · rw [if_neg hl] at h
          exact absurd h (by simp)

theorem hex_run_all (tl : List Nat) (h : hex_run tl = tl.length) (j d : Nat)
    (hj : tl[j]? = some d) : isxdigit d = true := by
  unfold hex_run at h
  have h1 : ((tl.take 4).takeWhile isxdigit).length ≤ (tl.take 4).length :=
    (List.takeWhile_sublist (l := tl.take 4) isxdigit).length_le
  have h2 : (tl.take 4).length ≤ tl.length := by
    simp only [List.length_take]
    omega
  have h3 : tl.take 4 = tl := by
    apply List.take_of_length_le
    simp only [List.length_take] at h1
    omega
  rw [h3] at h
  have h4 : tl.takeWhile isxdigit = tl :=
    (List.takeWhile_sublist (l := tl) isxdigit).eq_of_length h
  have hmem : d ∈ tl := List.mem_iff_getElem?.2 ⟨j, hj⟩
  exact (List.takeWhile_eq_self_iff.1 h4) d hmem

theorem getElem?_of_drop (b l : List Nat) (k j : Nat) (h : b.drop k = l) :
    b[k + j]? = l[j]? := by
  rw [← h, List.getElem?_drop]
theorem escape_bytes (b : List Nat) (a e : Nat) (body tl : List Nat)
    (hsplit : b.drop a = body ++ 92 :: e :: tl) :
    b[a + (body.length + 1)]? = some e ∧
      ∀ j, b[a + (body.length + 1) + 1 + j]? = tl[j]? := by
  have h2 : body ++ 92 :: e :: tl = (body ++ [92]) ++ e :: tl := by simp
  have h3 : b.drop (a + (body.length + 1)) = e :: tl := by
    rw [← List.drop_drop, hsplit, h2]
    have : body.length + 1 = (body ++ [92]).length := by simp
    rw [this, List.drop_left]
  refine ⟨getElem?_of_drop_cons h3, fun j => ?_⟩
  have h4 : b.drop (a + (body.length + 1) + 1) = tl := by
    rw [← List.drop_drop, h3]
    rfl
  exact getElem?_of_drop b tl _ j h4

theorem scan_string_cut (b m : List Nat) (a : Nat) (t : JsonToken) (hL : b.length < SIZE_MOD)
    (ha : a ≤ b.length) (hex : scan_string (scannerOf b) a = none)
    (h : scan_string (scannerWithin b m) a = some t) :
    t.type = JST_ERR_INCOMPLETE ∨ (t.type = JST_ERR_BAD_ESCAPE ∧ HexCutShort b t) := by
  obtain ⟨body, tail, hsplit, hbody, hstop⟩ := string_split _ (b.drop a) (Nat.le_refl _)
  have hl := congrArg List.length hsplit
  simp only [List.length_drop, List.length_append] at hl
  rw [scan_string_eq b a hL ha, hsplit,
    scan_string_loop_skip a body hbody _ 0 _ (by omega), Nat.zero_add] at hex
  rw [scan_string_within_eq b m a hL ha, hsplit, List.append_assoc,
    scan_string_loop_skip a body hbody _ 0 _ (by omega), Nat.zero_add] at h
  rcases hstop with rfl | ⟨tl, rfl⟩ | rfl | ⟨e, tl, rfl, he, hrun⟩
  · simp only [List.length_nil] at hl
    rw [scan_string_loop_done _ _ _ _ _ (by omega)] at hex
    exact absurd hex (by simp)
  · simp only [List.length_cons] at hl
    rw [scan_string_loop_quote _ _ _ _ (by omega)] at hex
    exact absurd hex (by simp)
  · simp only [List.length_cons, List.length_nil] at hl
    rw [scan_string_loop_backslash _ _ _ _ (by omega),
      scan_string_loop_done _ _ _ _ _ (by omega)] at hex
    exact absurd hex (by simp)
  · simp only [List.length_cons] at hl
    rw [scan_string_loop_bad _ _ _ _ _ (by omega) he hrun] at hex
    have hcond : ¬ (e ≠ 117 ∨ body.length + 1 + 4 > b.length - a ∨ hex_run tl < tl.length) := by
      intro hc
      rw [if_pos hc] at hex
      exact absurd hex (by simp)
    have he117 : e = 117 := by
      by_contra hne
      exact hcond (Or.inl hne)
    subst he117
    have hrun4 := hrun rfl
    have hle := (hex_run_le tl).2
    have hall : hex_run tl = tl.length := by
      by_contra hne
      exact hcond (Or.inr (Or.inr (by omega)))
    have hguard : body.length + 1 + 4 ≤ b.length - a := by
      by_contra hgt
      exact hcond (Or.inr (Or.inl (by omega)))
    obtain ⟨hbe, hbt⟩ := escape_bytes b a 117 body tl hsplit
    simp only [List.cons_append] at h
    rw [scan_string_loop_backslash _ _ _ _ (by omega)] at h
    by_cases hfour : hex_run (tl ++ m) < 4
    · rw [scan_string_loop_u_bad _ _ _ _ (by omega) hfour] at h
      split_ifs at h
      simp only [Option.some.injEq] at h
      subst h
      right
      refine ⟨rfl, hbe, fun j d _ hj => ?_⟩
      rw [hbt j] at hj
      exact hex_run_all tl hall j d hj
    · have h4 : hex_run (tl ++ m) = 4 := by
        have := (hex_run_le (tl ++ m)).1
        omega
      obtain ⟨h1, h2, h3, h4, t4, heq, x1, x2, x3, x4⟩ := hex_run_eq_four h4
      rw [heq, scan_string_loop_unicode _ _ _ _ _ _ _ _ (by omega) (by omega) x1 x2 x3 x4,
        scan_string_loop_done _ _ _ _ _ (by omega)] at h
      simp only [Option.some.injEq] at h
      subst h
      exact Or.inl rfl
theorem literal_cut (lit cs m : List Nat) (c k rem : Nat) (v : Bool)
    (hex : strncmp_eq lit (c :: cs) (min k rem) = none)
    (_h : strncmp_eq lit (c :: (cs ++ m)) (min k rem) = some v) :
    rem ≠ 1 ∧ c :: cs <+: lit := by
  obtain ⟨h1, h2⟩ := strncmp_eq_none _ _ _ hex
  simp only [List.length_cons] at h1
  exact ⟨by omega, h2⟩

theorem within_cut_short (b m : List Nat) (p t : JsonToken) (hL : b.length < SIZE_MOD)
    (hr : resume p ≤ b.length) (hex : json_scanner_next (scannerOf b) p = none)
    (h : json_scanner_next (scannerWithin b m) p = some t) :
    (t.type = JST_ERR_UNEXPECTED → LiteralCutShort b t) ∧
    (t.type = JST_ERR_BAD_ESCAPE → HexCutShort b t) := by
  by_cases hne : p.type = JST_EOF
  · simp [json_scanner_next, hne] at hex
  rcases ws_split (b.drop (resume p)) with hws | ⟨ws, c, cs, hsplit, hws, hc⟩
  · rw [next_of_ws b p hL hne hr hws] at hex
    exact absurd hex (by simp)
  obtain ⟨hq, _⟩ := split_index hsplit
  have hdrop : b.drop (resume p + ws.length) = c :: cs := by
    rw [← List.drop_drop, hsplit, List.drop_left]
  rw [next_of_split b p ws c cs hL hne hr hsplit hws hc] at hex
  rw [next_within_split b m p ws c cs hL hne hr hsplit hws hc] at h
  by_cases h34 : c = 34
  · subst h34
    rw [dispatch_string] at hex h
    rcases scan_string_cut b m _ t hL (by omega) hex h with hty | ⟨hty, hcut⟩
    · exact ⟨fun hu => by rw [hty] at hu; simp at hu, fun hb => by rw [hty] at hb; simp at hb⟩
    · exact ⟨fun hu => by rw [hty] at hu; simp at hu, fun _ => hcut⟩
  by_cases hnum : c = 45 ∨ isdigit c = true
  · rw [dispatch_number _ _ _ _ _ _ hnum] at hex
    obtain ⟨t2, ht2, _⟩ := scan_number_tokens b (resume p + ws.length) hL hq
    rw [ht2] at hex
    exact absurd hex (by simp)
  by_cases h116 : c = 116
  · subst h116
    rw [dispatch_true] at hex h
    cases hx : strncmp_eq lit_true (116 :: cs) (min 4 (b.length - resume p)) with
    | some v => rw [hx] at hex; cases v <;> simp at hex
    | none =>
      cases hv : strncmp_eq lit_true (116 :: (cs ++ m)) (min 4 (b.length - resume p)) with
      | none => rw [hv] at h; simp at h
      | some v =>
        obtain ⟨h1, h2⟩ := literal_cut _ _ _ _ _ _ v hx hv
        rw [hv] at h
        cases v
        · simp only [Option.some.injEq] at h
          subst h
          exact ⟨fun _ => ⟨h1, Or.inl (by rw [hdrop]; exact h2)⟩, fun hb => by simp at hb⟩
        · simp only [Option.some.injEq] at h
          subst h
          exact ⟨fun hu => by simp at hu, fun hb => by simp at hb⟩
  by_cases h102 : c = 102
  · subst h102
    rw [dispatch_false] at hex h
    cases hx : strncmp_eq lit_false (102 :: cs) (min 5 (b.length - resume p)) with
    | some v => rw [hx] at hex; cases v <;> simp at hex
    | none =>
      cases hv : strncmp_eq lit_false (102 :: (cs ++ m)) (min 5 (b.length - resume p)) with
      | none => rw [hv] at h; simp at h
      | some v =>
        obtain ⟨h1, h2⟩ := literal_cut _ _ _ _ _ _ v hx hv
        rw [hv] at h
        cases v
        · simp only [Option.some.injEq] at h
          subst h
          exact ⟨fun _ => ⟨h1, Or.inr (Or.inl (by rw [hdrop]; exact h2))⟩,
            fun hb => by simp at hb⟩
        · simp only [Option.some.injEq] at h
          subst h
          exact ⟨fun hu => by simp at hu, fun hb => by simp at hb⟩
  by_cases h110 : c = 110
  · subst h110
    rw [dispatch_null] at hex h
    cases hx : strncmp_eq lit_null (110 :: cs) (min 4 (b.length - resume p)) with
    | some v => rw [hx] at hex; cases v <;> simp at hex
    | none =>
      cases hv : strncmp_eq lit_null (110 :: (cs ++ m)) (min 4 (b.length - resume p)) with
      | none => rw [hv] at h; simp at h
      | some v =>
        obtain ⟨h1, h2⟩ := literal_cut _ _ _ _ _ _ v hx hv
        rw [hv] at h
        cases v
        · simp only [Option.some.injEq] at h
          subst h
          exact ⟨fun _ => ⟨h1, Or.inr (Or.inr (by rw [hdrop]; exact h2))⟩,
            fun hb => by simp at hb⟩
        · simp only [Option.some.injEq] at h
          subst h
          exact ⟨fun hu => by simp at hu, fun hb => by simp at hb⟩
  exfalso
  have hd : isdigit c = false := by
    cases hdc : isdigit c
    · rfl
    · exact absurd (Or.inr hdc) hnum
  have h45 : c ≠ 45 := fun hc45 => hnum (Or.inl hc45)
  by_cases hp : c = 44 ∨ c = 58 ∨ c = 123 ∨ c = 125 ∨ c = 91 ∨ c = 93
  · rcases hp with rfl | rfl | rfl | rfl | rfl | rfl <;> simp [dispatch] at hex
  · have hp2 : c ≠ 44 ∧ c ≠ 58 ∧ c ≠ 123 ∧ c ≠ 125 ∧ c ≠ 91 ∧ c ≠ 93 := by
      refine ⟨?_, ?_, ?_, ?_, ?_, ?_⟩ <;> intro hk <;> simp [hk] at hp
    obtain ⟨q1, q2, q3, q4, q5, q6⟩ := hp2
    rw [dispatch_default _ _ _ _ _ _
      ⟨q1, q2, q3, q4, q5, q6, h34, h45, h116, h102, h110, hd⟩] at hex
    exact absurd hex (by simp)
theorem scan_string_bad_stable (b x : List Nat) (a : Nat) (t : JsonToken)
    (hL : (b ++ x).length < SIZE_MOD) (ha : a ≤ b.length)
    (h : scan_string (scannerOf b) a = some t) (hty : t.type = JST_ERR_BAD_ESCAPE)
    (hu : ¬ HexCutShort b t) :
    scan_string (scannerOf (b ++ x)) a = some t := by
  have hLb := length_lt_of_append hL
  obtain ⟨body, tail, hsplit, hbody, hform⟩ := scan_string_class b a t hLb ha h
  rcases hform with ⟨_, rfl⟩ | ⟨_, rfl⟩ | ⟨⟨e, tl, rfl, he, hrun, _⟩, rfl⟩
  · simp at hty
  · simp at hty
  have hl := congrArg List.length hsplit
  simp at hl
  obtain ⟨hbe, hbt⟩ := escape_bytes b a e body tl hsplit
  have hstable : e ≠ 117 ∨ hex_run tl < tl.length := by
    by_contra hcon
    have he117 : e = 117 := by
      by_contra hne
      exact hcon (Or.inl hne)
    have hall : hex_run tl = tl.length := by
      have := (hex_run_le tl).2
      by_contra hne
      exact hcon (Or.inr (by omega))
    apply hu
    refine ⟨by rw [← he117]; exact hbe, fun j d _ hj => ?_⟩
    have hj2 : tl[j]? = some d := by
      rw [← hbt j]
      exact hj
    exact hex_run_all tl hall j d hj2
  have hsplit2 : (b ++ x).drop a = body ++ 92 :: e :: (tl ++ x) := by
    rw [drop_append_le b x a ha, hsplit]
    simp
  have hlen2 : (b ++ x).length - a = body.length + 1 + 1 + tl.length + x.length := by
    simp
    omega
  rw [scan_string_eq (b ++ x) a hL (by simp; omega), hsplit2,
    scan_string_loop_skip a body hbody _ 0 _ (by omega), Nat.zero_add,
    scan_string_loop_bad _ _ _ _ _ (by omega) he, if_pos]
  · rcases hstable with hs | hs
    · exact Or.inl hs
    · right; right
      rw [hex_run_append tl x hs]
      simp
      omega
  · intro he117
    rcases hstable with hs | hs
    · exact absurd he117 hs
    · rw [hex_run_append tl x hs]
      exact hrun he117

theorem error_stable_exact (b x : List Nat) (p t : JsonToken)
    (hL : (b ++ x).length < SIZE_MOD) (h : json_scanner_next (scannerOf b) p = some t) :
    (t.type = JST_ERR_UNEXPECTED →
      ∃ t2, json_scanner_next (scannerOf (b ++ x)) p = some t2 ∧
        t2.type = JST_ERR_UNEXPECTED ∧ t2.start = t.start) ∧
    (t.type = JST_ERR_BAD_ESCAPE → ¬ HexCutShort b t →
      json_scanner_next (scannerOf (b ++ x)) p = some t) := by
  have hLb := length_lt_of_append hL
  by_cases hte : t.type = JST_EOF
  · constructor
    · intro hty; rw [hte] at hty; simp at hty
    · intro hty; rw [hte] at hty; simp at hty
  have hne : p.type ≠ JST_EOF := fun hp => hte (next_eof_of_eof _ p t hp h)
  rcases next_inv b p t hLb hne h with heof | ⟨hr, ws, c, cs, hsplit, hws, hc, hd⟩
  · exact absurd heof hte
  obtain ⟨hq, _⟩ := split_index hsplit
  rw [next_append_dispatch b x p ws c cs hL hne hr hsplit hws hc]
  have hrem : b.length - resume p ≤ (b ++ x).length - resume p := by simp; omega
  rcases dispatch_class _ _ _ _ _ _ _ hd with
    ⟨h1, h2, hk⟩ | ⟨rfl, hs⟩ | ⟨hcn, hn⟩ | ⟨_, _, rfl⟩ | ⟨_, _, rfl⟩ | ⟨_, _, rfl⟩ |
    ⟨hm, rfl⟩ | ⟨rfl, hdef⟩
  · constructor
    · intro hty
      rcases hk with ⟨_, hk⟩ | ⟨_, hk⟩ | ⟨_, hk⟩ | ⟨_, hk⟩ | ⟨_, hk⟩ | ⟨_, hk⟩ <;>
        rw [hk] at hty <;> simp at hty
    · intro hty
      rcases hk with ⟨_, hk⟩ | ⟨_, hk⟩ | ⟨_, hk⟩ | ⟨_, hk⟩ | ⟨_, hk⟩ | ⟨_, hk⟩ <;>
        rw [hk] at hty <;> simp at hty
  · rw [dispatch_string]
    obtain ⟨_, hform⟩ := scan_string_tokens b _ t hLb (by omega) hs
    constructor
    · intro hty
      rcases hform with ⟨hty2, _⟩ | ⟨hty2, _⟩ | ⟨hty2, _⟩ <;> rw [hty] at hty2 <;>
        simp at hty2
    · intro hty hu
      exact scan_string_bad_stable b x _ t hL (by omega) hs hty hu
  · rw [dispatch_number _ _ _ _ _ _ hcn]
    constructor
    · intro hty
      exact ⟨t, scan_number_unexpected_append b x _ t hL hn hty, hty, rfl⟩
    · intro hty
      obtain ⟨t2, ht2, hform⟩ := scan_number_tokens b (resume p + ws.length) hLb hq
      rw [hn] at ht2
      simp at ht2
      subst ht2
      rcases hform with ⟨hty2, _⟩ | ⟨hty2, _⟩ | ⟨hty2, _⟩ <;> rw [hty] at hty2 <;>
        simp at hty2
  · simp
  · simp
  · simp
  · constructor
    · intro _
      rcases hm with ⟨rfl, hs⟩ | ⟨rfl, hs⟩ | ⟨rfl, hs⟩
      · rw [dispatch_true, literal_mismatch_append lit_true _ cs x 4 _ _ rfl hrem hs]
        exact ⟨_, rfl, rfl, rfl⟩
      · rw [dispatch_false, literal_mismatch_append lit_false _ cs x 5 _ _ rfl hrem hs]
        exact ⟨_, rfl, rfl, rfl⟩
      · rw [dispatch_null, literal_mismatch_append lit_null _ cs x 4 _ _ rfl hrem hs]
        exact ⟨_, rfl, rfl, rfl⟩
    · intro hty
      simp at hty
  · constructor
    · intro _
      rw [dispatch_default _ _ _ _ _ _ hdef]
      exact ⟨_, rfl, rfl, rfl⟩
    · intro hty
      simp at hty

/-- C11 (amended): whatever bytes `m1`, `m2` the memory holds after the buffer, when
`json_scanner_next` on the buffer `b` returns `JST_ERR_UNEXPECTED` and the token is not a
literal cut short by the end of `b`, it returns `JST_ERR_UNEXPECTED` at the same offset on
every buffer `b ++ x` that extends `b`; when it returns `JST_ERR_BAD_ESCAPE` and the token
is not a `u` escape cut short by the end of `b`, it returns the same token on every buffer
that extends `b`. -/
theorem error_stable_under_append (b x m1 m2 : List Nat) (p t : JsonToken)
    (hL : (b ++ x).length < SIZE_MOD) (hr : resume p ≤ b.length)
    (h : json_scanner_next (scannerWithin b m1) p = some t) :
    (t.type = JST_ERR_UNEXPECTED → ¬ LiteralCutShort b t →
      ∃ t2, json_scanner_next (scannerWithin (b ++ x) m2) p = some t2 ∧
        t2.type = JST_ERR_UNEXPECTED ∧ t2.start = t.start) ∧
    (t.type = JST_ERR_BAD_ESCAPE → ¬ HexCutShort b t →
      json_scanner_next (scannerWithin (b ++ x) m2) p = some t) := by
  have hLb := length_lt_of_append hL
  have hr2 : resume p ≤ (b ++ x).length := by
    simp only [List.length_append]
    omega
  cases hex : json_scanner_next (scannerOf b) p with
  | none =>
    obtain ⟨h1, h2⟩ := within_cut_short b m1 p t hLb hr hex h
    exact ⟨fun hty hn => absurd (h1 hty) hn, fun hty hn => absurd (h2 hty) hn⟩
  | some t0 =>
    have h0 := next_within_of_exact b m1 p t0 hLb hr hex
    rw [h] at h0
    simp only [Option.some.injEq] at h0
    subst h0
    obtain ⟨h1, h2⟩ := error_stable_exact b x p t hL hex
    constructor
    · intro hty _
      obtain ⟨t2, ht2, hk, hs⟩ := h1 hty
      exact ⟨t2, next_within_of_exact (b ++ x) m2 p t2 hL hr2 ht2, hk, hs⟩
    · intro hty hn
      exact next_within_of_exact (b ++ x) m2 p t hL hr2 (h2 hty hn)

/-- C11, witness: with a NUL after the buffer, the unexpected byte `x` of the buffer `1x`
stays unexpected when `]` is appended, and the bad escape of the buffer `"\u1z` stays the
same token when `23"` is appended. -/
theorem error_stable_under_append_witness :
    ([49, 120] ++ [93]).length < SIZE_MOD ∧ resume beginToken ≤ [49, 120].length ∧
    json_scanner_next (scannerWithin [49, 120] [0]) beginToken =
      some ⟨JST_ERR_UNEXPECTED, 1, 1⟩ ∧
    ¬ LiteralCutShort [49, 120] ⟨JST_ERR_UNEXPECTED, 1, 1⟩ ∧
    (∃ t2, json_scanner_next (scannerWithin ([49, 120] ++ [93]) [0]) beginToken = some t2 ∧
      t2.type = JST_ERR_UNEXPECTED ∧ t2.start = 1) ∧
    json_scanner_next (scannerWithin [34, 92, 117, 49, 122] [0]) beginToken =
      some ⟨JST_ERR_BAD_ESCAPE, 1, 1⟩ ∧
    ¬ HexCutShort [34, 92, 117, 49, 122] ⟨JST_ERR_BAD_ESCAPE, 1, 1⟩ ∧
    json_scanner_next (scannerWithin ([34, 92, 117, 49, 122] ++ [50, 51, 34]) [0])
      beginToken = some ⟨JST_ERR_BAD_ESCAPE, 1, 1⟩ :=
  ⟨by decide, by decide, by decide, fun hc => hc.1 rfl,
    (error_stable_under_append [49, 120] [93] [0] [0] beginToken ⟨JST_ERR_UNEXPECTED, 1, 1⟩
      (by decide) (by decide) (by decide)).1 rfl (fun hc => hc.1 rfl),
    by decide, fun hc => absurd (hc.2 1 122 (by decide) rfl) (by decide),
    (error_stable_under_append [34, 92, 117, 49, 122] [50, 51, 34] [0] [0] beginToken
      ⟨JST_ERR_BAD_ESCAPE, 1, 1⟩ (by decide) (by decide) (by decide)).2 rfl
      (fun hc => absurd (hc.2 1 122 (by decide) rfl) (by decide))⟩

/-- C11, counterexample: on the five-byte buffer `"\u12` the scanner returns
`JST_ERR_BAD_ESCAPE`, and on its extension by the three bytes `34"` it returns the
`JST_STRING` token of the six-byte body, a `u` escape with the hex digits `1234`; the same
holds with a NUL in memory after the buffer.  With a NUL after the buffer, the four bytes
of two blanks and `tr` give `JST_ERR_UNEXPECTED`, and their extension by `ue` gives
`JST_TRUE`. -/
theorem bad_escape_resolved_by_more_bytes :
    json_scanner_next (scannerOf [34, 92, 117, 49, 50]) beginToken =
      some ⟨JST_ERR_BAD_ESCAPE, 1, 1⟩ ∧
    json_scanner_next (scannerOf ([34, 92, 117, 49, 50] ++ [51, 52, 34])) beginToken =
      some ⟨JST_STRING, 1, 6⟩ ∧
    json_scanner_next (scannerWithin [34, 92, 117, 49, 50] [0]) beginToken =
      some ⟨JST_ERR_BAD_ESCAPE, 1, 1⟩ ∧
    json_scanner_next (scannerWithin ([34, 92, 117, 49, 50] ++ [51, 52, 34]) [0]) beginToken =
      some ⟨JST_STRING, 1, 6⟩ ∧
    HexCutShort [34, 92, 117, 49, 50] ⟨JST_ERR_BAD_ESCAPE, 1, 1⟩ ∧
    json_scanner_next (scannerWithin [32, 32, 116, 114] [0]) beginToken =
      some ⟨JST_ERR_UNEXPECTED, 2, 4⟩ ∧
    json_scanner_next (scannerWithin ([32, 32, 116, 114] ++ [117, 101]) [0]) beginToken =
      some ⟨JST_TRUE, 2, 4⟩ ∧
    LiteralCutShort [32, 32, 116, 114] ⟨JST_ERR_UNEXPECTED, 2, 4⟩ := by
  refine ⟨by decide, by decide, by decide, by decide, ⟨by decide, fun j d hj hd => ?_⟩,
    by decide, by decide, ⟨by decide, Or.inl ⟨[117, 101], by decide⟩⟩⟩
  have hj4 : j = 0 ∨ j = 1 ∨ j = 2 ∨ j = 3 := by omega
  rcases hj4 with rfl | rfl | rfl | rfl
  · simp at hd
    subst hd
    decide
  · simp at hd
    subst hd
    decide
  · simp at hd
  · simp at hd

end Scan
